import Mathlib

/-!
# Verification development for the trading bot core

Shallow embedding of
* `src/userStrategy.ts` (`checkAndExecutePendingOrders`),
* `src/src/utils/userLocks.ts` (`UserLocks`),
* `src/src/simulation/ledger_signal_engine.js` (`LedgerSignalEngine`).

Conventions: a JS `Map` is an association list in insertion order (`mget`, `mset`,
`mdel`), a JS `Set` is a duplicate-free list in insertion order (`sadd`), prices are
exact rationals (finite non-NaN JS numbers), `Date.now()` readings are explicit
arguments.
-/

namespace Bot

/-! ## Definitions -/

section Maps

variable {κ : Type} {ν : Type} [DecidableEq κ]

/-- Method `Map.prototype.get`. -/
def mget (m : List (κ × ν)) (k : κ) : Option ν :=
  match m with
  | [] => none
  | p :: rest => if p.1 = k then some p.2 else mget rest k

/-- Method `Map.prototype.has`. -/
def mhas (m : List (κ × ν)) (k : κ) : Bool :=
  (mget m k).isSome

/-- Method `Map.prototype.set`: an existing key keeps its position, a new key is appended. -/
def mset (m : List (κ × ν)) (k : κ) (v : ν) : List (κ × ν) :=
  match m with
  | [] => [(k, v)]
  | p :: rest => if p.1 = k then (k, v) :: rest else p :: mset rest k v

/-- Method `Map.prototype.delete`. -/
def mdel (m : List (κ × ν)) (k : κ) : List (κ × ν) :=
  m.filter (fun p => decide (p.1 ≠ k))

/-- Method `Set.prototype.add`. -/
def sadd (s : List κ) (k : κ) : List κ :=
  if k ∈ s then s else s ++ [k]

end Maps

/-! ### Pending orders (`src/userStrategy.ts`) -/

/-- Field `type` of a pending order. -/
inductive OrderType where
  | buy
  | sell
  | stoploss
deriving DecidableEq, Repr

/-- Field `status` of a pending order. -/
inductive OrderStatus where
  | pending
  | triggered
  | executed
  | cancelled
deriving DecidableEq, Repr

/-- Interface `PendingOrder`. -/
structure PendingOrder where
  id : String
  userId : String
  token : String
  type : OrderType
  triggerPrice : ℚ
  amount : ℚ
  createdAt : Nat
  status : OrderStatus
  executedPrice : Option ℚ
  executedAt : Option Nat
  reason : Option String
deriving DecidableEq

/-- The object handed to `recordUserTrade` for an executed order. -/
structure TradeRecord where
  mode : OrderType
  token : String
  amount : ℚ
  price : ℚ
  status : String
  orderId : String
  trigger : Option String
deriving DecidableEq

/-- What awaiting `userLocks.runExclusive(lockId, () => executeCallback(order, price), timeout)`
can produce: the callback's boolean, a rejection, or `COMMAND_TIMEOUT`. -/
inductive CallbackOutcome where
  | resolved (ok : Bool)
  | rejected
  | timedOut
deriving DecidableEq

/-- The optional `executeCallback` argument. -/
abbrev ExecuteCallback := PendingOrder → ℚ → CallbackOutcome

/-- Parameter `currentPrices: Record<string, number>`; an absent key reads `undefined`. -/
abbrev Prices := String → Option ℚ

/-- The `shouldExecute` computation of the matching loop. -/
def shouldExecute (order : PendingOrder) (currentPrice : ℚ) : Bool :=
  match order.type with
  | OrderType.buy => decide (currentPrice ≤ order.triggerPrice)
  | OrderType.sell => decide (currentPrice ≥ order.triggerPrice)
  | OrderType.stoploss => decide (currentPrice ≥ order.triggerPrice)

/-- The `executed_ok` computation: without a callback success is assumed, with one the
result of the guarded call is used and every failure is caught as `false`. -/
def executedOk (cb : Option ExecuteCallback) (order : PendingOrder) (currentPrice : ℚ) : Bool :=
  match cb with
  | none => true
  | some f =>
    match f order currentPrice with
    | CallbackOutcome.resolved ok => ok
    | CallbackOutcome.rejected => false
    | CallbackOutcome.timedOut => false

/-- One iteration of the `for (const order of orders)` loop: the order as it is left in
the array, and the trade recorded when it was executed. `now` is the `Date.now()`
reading of this iteration. -/
def checkOrder (currentPrices : Prices) (cb : Option ExecuteCallback) (now : Nat)
    (order : PendingOrder) : PendingOrder × Option TradeRecord :=
  if order.status ≠ OrderStatus.pending then (order, none)
  else
    match currentPrices order.token with
    | none => (order, none)
    | some currentPrice =>
      if currentPrice = 0 then (order, none)
      else if shouldExecute order currentPrice then
        if executedOk cb order currentPrice then
          ({ order with
              status := OrderStatus.executed
              executedPrice := some currentPrice
              executedAt := some now },
           some { mode := if order.type = OrderType.buy then OrderType.buy else OrderType.sell
                  token := order.token
                  amount := order.amount
                  price := currentPrice
                  status := "success"
                  orderId := order.id
                  trigger := order.reason })
        else (order, none)
      else (order, none)

/-- Result of `checkAndExecutePendingOrders`: the array handed to `savePendingOrders`,
the returned `executed` array and the trades handed to `recordUserTrade`. -/
structure CheckResult where
  orders : List PendingOrder
  executed : List PendingOrder
  trades : List TradeRecord

/-- The matching loop over the loaded orders; `clock i` is the `Date.now()` reading of
iteration `i`. -/
def checkLoop (currentPrices : Prices) (cb : Option ExecuteCallback) (clock : Nat → Nat) :
    Nat → List PendingOrder → CheckResult
  | _, [] => { orders := [], executed := [], trades := [] }
  | i, order :: rest =>
    let r := checkOrder currentPrices cb (clock i) order
    let tl := checkLoop currentPrices cb clock (i + 1) rest
    { orders := r.1 :: tl.orders
      executed := (match r.2 with
        | some _ => r.1 :: tl.executed
        | none => tl.executed)
      trades := (match r.2 with
        | some t => t :: tl.trades
        | none => tl.trades) }

/-- Function `checkAndExecutePendingOrders`, on the order list that `loadPendingOrders`
returned. -/
def checkAndExecutePendingOrders (orders : List PendingOrder) (currentPrices : Prices)
    (cb : Option ExecuteCallback) (clock : Nat → Nat) : CheckResult :=
  checkLoop currentPrices cb clock 0 orders

/-- The orders of the saved array that this call moved from `pending` to `executed`. -/
def executedInCall (before after : List PendingOrder) : List PendingOrder :=
  (List.zip before after).filterMap (fun p =>
    if p.1.status = OrderStatus.pending ∧ p.2.status = OrderStatus.executed then some p.2
    else none)

/-- A sell order as in the matching example of the specification. -/
def sampleSell (trigger : ℚ) : PendingOrder :=
  { id := "u_T_tp1", userId := "u", token := "T", type := OrderType.sell
    triggerPrice := trigger, amount := 1, createdAt := 0, status := OrderStatus.pending
    executedPrice := none, executedAt := none, reason := none }

/-- Price table with the single entry `T ↦ 105`. -/
def samplePrices : Prices := fun t => if t = "T" then some 105 else none

/-! ### Attempt limiter (`src/src/utils/userLocks.ts`) -/

/-- Type `AttemptRecord`. -/
structure AttemptRecord where
  count : Int
  lastTs : Int
deriving DecidableEq, Repr

/-- A `userId: string | number` argument (numeric ids are integers). -/
inductive UserId where
  | str (s : String)
  | num (n : Int)
deriving DecidableEq

/-- The normalisation `String(userId)`. -/
def UserId.toKey : UserId → String
  | UserId.str s => s
  | UserId.num n => toString n

/-- The field `attempts: Map<string, Map<string, AttemptRecord>>`. -/
abbrev Attempts := List (String × List (String × AttemptRecord))

/-- Method `UserLocks.canAttempt`, with `now` the `Date.now()` reading of the call.
Returns the boolean result and the attempts table after the call. -/
def canAttempt (attempts : Attempts) (userId : UserId) (command : String)
    (maxAttempts resetAfterMs : Int) (now : Int) : Bool × Attempts :=
  let uid := userId.toKey
  let userMap : List (String × AttemptRecord) :=
    match mget attempts uid with
    | some um => um
    | none => []
  let attempts1 : Attempts :=
    match mget attempts uid with
    | some _ => attempts
    | none => mset attempts uid []
  match mget userMap command with
  | none => (true, mset attempts1 uid (mset userMap command { count := 1, lastTs := now }))
  | some rec =>
    if now - rec.lastTs > resetAfterMs then
      (true, mset attempts1 uid (mset userMap command { count := 1, lastTs := now }))
    else if rec.count ≥ maxAttempts then (false, attempts1)
    else
      (true, mset attempts1 uid (mset userMap command { count := rec.count + 1, lastTs := now }))

/-- Method `UserLocks.clearAttempts`. -/
def clearAttempts (attempts : Attempts) (userId : UserId) (command : String) : Attempts :=
  let uid := userId.toKey
  match mget attempts uid with
  | none => attempts
  | some userMap => mset attempts uid (mdel userMap command)

/-- The attempt record stored for a normalised key and a command, if any. -/
def lookupAttempt (attempts : Attempts) (uid : String) (command : String) :
    Option AttemptRecord :=
  match mget attempts uid with
  | none => none
  | some userMap => mget userMap command

/-- Successive `canAttempt` calls for one `(userId, command)` at the given clock readings:
the results in call order and the final table. -/
def runAttempts (attempts : Attempts) (userId : UserId) (command : String)
    (maxAttempts resetAfterMs : Int) : List Int → List Bool × Attempts
  | [] => ([], attempts)
  | now :: rest =>
    let r := canAttempt attempts userId command maxAttempts resetAfterMs now
    let tl := runAttempts r.2 userId command maxAttempts resetAfterMs rest
    (r.1 :: tl.1, tl.2)

/-- Clock reading of the last call that returned `true`. -/
def lastAllowed : List Int → List Bool → Option Int
  | t :: ts, b :: bs =>
    match lastAllowed ts bs with
    | some l => some l
    | none => if b then some t else none
  | _, _ => none

/-- What `canAttempt` does to the record of its own `(key, command)`. -/
def attemptStep (rec : Option AttemptRecord) (maxAttempts resetAfterMs now : Int) :
    Bool × AttemptRecord :=
  match rec with
  | none => (true, { count := 1, lastTs := now })
  | some r =>
    if now - r.lastTs > resetAfterMs then (true, { count := 1, lastTs := now })
    else if r.count ≥ maxAttempts then (false, r)
    else (true, { count := r.count + 1, lastTs := now })

/-- A table in which user 42 has exhausted the budget of `trade` and used `buy` once. -/
def sampleAttempts : Attempts :=
  [("42", [("trade", { count := 3, lastTs := 50 }), ("buy", { count := 1, lastTs := 10 })])]

/-! ### Exclusive queue (`src/src/utils/userLocks.ts`)

`runExclusive` is embedded as a step function on an explicit state. The promises that the
method creates are terms of `PromiseRef`; one activation of `runExclusive` is a call
identified by its submission index. The events are the points at which the JS event loop
enters the method or one of its continuations. -/

/-- The promises that `runExclusive` builds for its queue. -/
inductive PromiseRef where
  | resolved
  | next (id : Nat)
  | thenNext (prev : PromiseRef) (id : Nat)
deriving DecidableEq

/-- Settlement of a promise: a value, or an `Error` with its message. -/
inductive Settled where
  | fulfilled (value : String)
  | rejected (message : String)
deriving DecidableEq

/-- The constants of one activation of `runExclusive`: `uid`, `prev` and `timeoutMs`
(the activation's `next` promise is `PromiseRef.next id`). -/
structure CallInfo where
  uid : String
  prev : PromiseRef
  timeoutMs : Option Int
deriving DecidableEq

/-- State of a `UserLocks` queue and of the activations of `runExclusive`. For call `id`:
`started id` is the clock reading at which `fn()` was invoked, `taskResult id` the
settlement of the promise `fn()` returned, `released id` whether `resolveNext()` has run,
`outcome id` the settlement of the promise that `runExclusive` returned. -/
structure LockState where
  now : Int
  queues : List (String × PromiseRef)
  calls : List CallInfo
  started : Nat → Option Int
  taskResult : Nat → Option Settled
  released : Nat → Bool
  outcome : Nat → Option Settled

/-- A fresh `UserLocks` at clock reading 0. -/
def LockState.init : LockState :=
  { now := 0, queues := [], calls := [], started := fun _ => none,
    taskResult := fun _ => none, released := fun _ => false, outcome := fun _ => none }

/-- Whether a queue promise is fulfilled: `next id` once `resolveNext()` of call `id` has
run, `prev.then(() => next)` once `prev` and then `next` are. None of them rejects. -/
def fulfilled (released : Nat → Bool) : PromiseRef → Bool
  | PromiseRef.resolved => true
  | PromiseRef.next id => released id
  | PromiseRef.thenNext prev id => fulfilled released prev && released id

/-- The calls whose `next` promise a queue promise waits for. -/
def chainIds : PromiseRef → List Nat
  | PromiseRef.resolved => []
  | PromiseRef.next id => [id]
  | PromiseRef.thenNext prev id => chainIds prev ++ [id]

/-- The `finally` block: the queue entry is deleted when it is the call's own `next`. -/
def finallyCleanup (queues : List (String × PromiseRef)) (uid : String) (id : Nat) :
    List (String × PromiseRef) :=
  match mget queues uid with
  | some head => if head = PromiseRef.next id then mdel queues uid else queues
  | none => queues

/-- Entry of `runExclusive` up to `await prev`: normalise the id, read the queue tail,
create `next`, store `prev.then(() => next)`. -/
def submit (s : LockState) (userId : UserId) (timeoutMs : Option Int) : LockState :=
  let uid := userId.toKey
  let prev :=
    match mget s.queues uid with
    | some q => q
    | none => PromiseRef.resolved
  let id := s.calls.length
  { s with
    queues := mset s.queues uid (PromiseRef.thenNext prev id)
    calls := s.calls ++ [{ uid := uid, prev := prev, timeoutMs := timeoutMs }] }

/-- Continuation of `await prev`: runs once `prev` is fulfilled and invokes `fn()`; with a
positive `timeoutMs` the timer is armed at this instant. -/
def resume (s : LockState) (id : Nat) : LockState :=
  match s.calls[id]? with
  | none => s
  | some c =>
    if s.started id = none ∧ fulfilled s.released c.prev = true then
      { s with started := Function.update s.started id (some s.now) }
    else s

/-- The call leaves the `try`: `resolveNext()` runs (on the normal path and in `catch`),
the promise of `runExclusive` settles with `r`, and the `finally` block runs. -/
def finish (s : LockState) (id : Nat) (c : CallInfo) (r : Settled) : LockState :=
  { s with
    released := Function.update s.released id true
    outcome := Function.update s.outcome id (some r)
    queues := finallyCleanup s.queues c.uid id }

/-- The promise returned by `fn()` settles with `r`. If the call is still awaiting it
(directly or in the race) the call finishes with `r`: a value is returned, an error is
re-thrown. -/
def settle (s : LockState) (id : Nat) (r : Settled) : LockState :=
  match s.calls[id]? with
  | none => s
  | some c =>
    if s.started id ≠ none ∧ s.taskResult id = none then
      let s1 := { s with taskResult := Function.update s.taskResult id (some r) }
      if s.outcome id = none then finish s1 id c r else s1
    else s

/-- The `setTimeout` callback of call `id` runs: possible when the call was started with
`timeoutMs > 0` and `timeoutMs` has elapsed since. If the race is still undecided it
rejects with `COMMAND_TIMEOUT`; the task itself is left running. -/
def timerFires (s : LockState) (id : Nat) : LockState :=
  match s.calls[id]? with
  | none => s
  | some c =>
    match s.started id, c.timeoutMs with
    | some st, some t =>
      if 0 < t ∧ st + t ≤ s.now ∧ s.outcome id = none then
        finish s id c (Settled.rejected "COMMAND_TIMEOUT")
      else s
    | _, _ => s

/-- Events of the exclusive queue. -/
inductive LockEvent where
  | submit (userId : UserId) (timeoutMs : Option Int)
  | resume (id : Nat)
  | settle (id : Nat) (r : Settled)
  | timer (id : Nat)
  | advance (dt : Nat)
deriving DecidableEq

/-- One event; an event that is not enabled leaves the state unchanged. -/
def lockStep (s : LockState) : LockEvent → LockState
  | LockEvent.submit userId timeoutMs => submit s userId timeoutMs
  | LockEvent.resume id => resume s id
  | LockEvent.settle id r => settle s id r
  | LockEvent.timer id => timerFires s id
  | LockEvent.advance dt => { s with now := s.now + dt }

/-- The state after a trace of events on a fresh `UserLocks`. -/
def lockRun (trace : List LockEvent) : LockState :=
  trace.foldl lockStep LockState.init

/-- Two calls for `same_user`, the first with a 5000 ms timeout; the first task is started,
the second is submitted, 200 ms pass, the second tries to start, the first settles, the
second starts. -/
def sampleTrace : List LockEvent :=
  [LockEvent.submit (UserId.str "same_user") (some 5000), LockEvent.resume 0,
   LockEvent.submit (UserId.str "same_user") (some 5000), LockEvent.advance 200,
   LockEvent.resume 1, LockEvent.settle 0 (Settled.fulfilled "A"), LockEvent.resume 1]

/-- A call with a 100 ms timeout is started, a second call for the same key is queued,
and 100 ms pass without the first task settling. -/
def timeoutTrace : List LockEvent :=
  [LockEvent.submit (UserId.num 7) (some 100), LockEvent.resume 0,
   LockEvent.submit (UserId.str "7") none, LockEvent.advance 100]

/-- Invariant of the exclusive queue: what the stored promises refer to, and how the
per-call flags depend on each other. -/
structure LockInv (s : LockState) : Prop where
  chain_sub : ∀ j c, s.calls[j]? = some c → ∀ k ∈ chainIds c.prev,
    k < j ∧ ∃ ck, s.calls[k]? = some ck ∧ ck.uid = c.uid
  chain_sup : ∀ a b ca cb, s.calls[a]? = some ca → s.calls[b]? = some cb → a < b →
    ca.uid = cb.uid → a ∈ chainIds cb.prev
  queue_form : ∀ u q, mget s.queues u = some q → ∃ p id, q = PromiseRef.thenNext p id
  queue_sub : ∀ u q, mget s.queues u = some q → ∀ k ∈ chainIds q,
    ∃ ck, s.calls[k]? = some ck ∧ ck.uid = u
  queue_sup : ∀ a ca, s.calls[a]? = some ca →
    ∃ q, mget s.queues ca.uid = some q ∧ a ∈ chainIds q
  started_fulfilled : ∀ b cb, s.calls[b]? = some cb → s.started b ≠ none →
    fulfilled s.released cb.prev = true
  pending_task : ∀ i, s.outcome i = none → s.taskResult i = none ∧ s.released i = false
  unstarted : ∀ i, s.started i = none → s.outcome i = none
  started_lt : ∀ i, s.started i ≠ none → i < s.calls.length
  released_cause : ∀ i, s.released i = true →
    s.taskResult i ≠ none ∨ s.outcome i = some (Settled.rejected "COMMAND_TIMEOUT")

/-! ### Ledger signal engine (`src/src/simulation/ledger_signal_engine.js`)

Strings are Lean strings handled through their character lists; `toLowerCase` is the
ASCII lower-casing. Bit masks are natural numbers: every mask the engine builds is below
`2 ^ 15`, where the int32 operators of JS agree with the operators on `Nat`. -/

/-- Constant `DEFAULT_WINDOW_SLOTS`. -/
def DEFAULT_WINDOW_SLOTS : Nat := 3

/-- Constant `LEDGER_BIT_BASE_SHIFT`: the ledger bits start above the FSM bits 0..5. -/
def LEDGER_BIT_BASE_SHIFT : Nat := 6

/-- Bit `AccountCreated`. -/
def BIT_ACCOUNT_CREATED : Nat := 1 <<< (LEDGER_BIT_BASE_SHIFT + 0)

/-- Bit `ATACreated`. -/
def BIT_ATA_CREATED : Nat := 1 <<< (LEDGER_BIT_BASE_SHIFT + 1)

/-- Bit `SameAuthority`. -/
def BIT_SAME_AUTH : Nat := 1 <<< (LEDGER_BIT_BASE_SHIFT + 2)

/-- Bit `ProgramInit`. -/
def BIT_PROGRAM_INIT : Nat := 1 <<< (LEDGER_BIT_BASE_SHIFT + 3)

/-- Bit for slot density. -/
def BIT_SLOT_DENSE : Nat := 1 <<< (LEDGER_BIT_BASE_SHIFT + 4)

/-- Bit for LP structure (pool, vaults, LP mint). -/
def BIT_LP_STRUCT : Nat := 1 <<< (LEDGER_BIT_BASE_SHIFT + 5)

/-- Bit for the clean funding pattern. -/
def BIT_CLEAN_FUNDING : Nat := 1 <<< (LEDGER_BIT_BASE_SHIFT + 6)

/-- Bit for a slot-aligned sequence (at most 2 slots apart). -/
def BIT_SLOT_ALIGNED : Nat := 1 <<< (LEDGER_BIT_BASE_SHIFT + 7)

/-- Bit for an exposed creator. -/
def BIT_CREATOR_EXPOSED : Nat := 1 <<< (LEDGER_BIT_BASE_SHIFT + 8)

/-- Method `String.prototype.includes`. -/
def includes (s sub : String) : Bool :=
  decide (sub.data <:+: s.data)

/-- Method `String.prototype.toLowerCase` (ASCII letters). -/
def toLowerCase (s : String) : String :=
  String.mk (s.data.map Char.toLower)

/-- JS truthiness of a string: it is non-empty. -/
def truthy (s : String) : Bool :=
  !s.data.isEmpty

/-- Splitting at every character that satisfies `sep`, empty pieces kept. -/
def splitChars (sep : Char → Bool) : List Char → List (List Char)
  | [] => [[]]
  | c :: cs =>
    if sep c then [] :: splitChars sep cs
    else
      match splitChars sep cs with
      | [] => [[c]]
      | w :: ws => (c :: w) :: ws

/-- Call `s.split('\n')`. -/
def splitLines (s : String) : List String :=
  (splitChars (fun c => c = '\n') s.data).map String.mk

/-- The characters matched by `\s`. -/
def isJsSpace (c : Char) : Bool :=
  let n := c.toNat
  (9 ≤ n && n ≤ 13) || n = 32 || n = 160 || n = 5760 || (8192 ≤ n && n ≤ 8202) ||
    n = 8232 || n = 8233 || n = 8239 || n = 8287 || n = 12288 || n = 65279

/-- Call `ln.split(/\s+/).filter(Boolean)`. -/
def splitWords (ln : String) : List String :=
  ((splitChars isJsSpace ln.data).filter (fun w => !w.isEmpty)).map String.mk

/-- Test `/^[A-Za-z0-9]{32,44}$/`. -/
def isAddressLike (p : String) : Bool :=
  p.data.all Char.isAlphanum && 32 ≤ p.data.length && p.data.length ≤ 44

/-- Value of a string of decimal digits. -/
def digitsValue (ds : List Char) : Nat :=
  ds.foldl (fun acc c => 10 * acc + (c.toNat - 48)) 0

/-- Test `/^[0-9]+(\.[0-9]+)?$/`, giving the number denoted on a match. -/
def parseAmount (p : String) : Option ℚ :=
  match splitChars (fun c => c = '.') p.data with
  | [ip] =>
    if !ip.isEmpty && ip.all Char.isDigit then some (digitsValue ip : ℚ) else none
  | [ip, fp] =>
    if !ip.isEmpty && ip.all Char.isDigit && !fp.isEmpty && fp.all Char.isDigit then
      some ((digitsValue ip : ℚ) + (digitsValue fp : ℚ) / (10 : ℚ) ^ fp.length)
    else none
  | _ => none

/-- Entry of `bucket.mints`; `sampleLogs` is read by `getMaskForMint` and is written
nowhere in the engine. -/
structure EvidenceEntry where
  flags : Nat
  seenSlots : List Int
  sampleLogs : Option String
deriving DecidableEq

/-- Value of `slotBuckets`. -/
structure SlotBucket where
  ts : Nat
  count : Nat
  mints : List (String × EvidenceEntry)
  authorities : List (String × List String)
deriving DecidableEq

/-- Element of a `slotTransfers` array. -/
structure TransferRecord where
  raw : String
  from_ : Option String
  to_ : Option String
  amount : Option ℚ
deriving DecidableEq

/-- Class `LedgerSignalEngine`. -/
structure LedgerSignalEngine where
  windowSlots : Nat
  slotBuckets : List (Int × SlotBucket)
  slotOrder : List Int
  densityThreshold : Int
  slotTransfers : List (Int × List TransferRecord)
deriving DecidableEq

/-- The `opts` argument of the constructor. -/
structure EngineOpts where
  windowSlots : Option Nat
  densityThreshold : Option Int

/-- The constructor: a missing or zero option falls back to its default. -/
def LedgerSignalEngine.new (opts : EngineOpts) : LedgerSignalEngine :=
  { windowSlots :=
      (match opts.windowSlots with
        | some w => if w = 0 then DEFAULT_WINDOW_SLOTS else w
        | none => DEFAULT_WINDOW_SLOTS)
    slotBuckets := []
    slotOrder := []
    densityThreshold :=
      (match opts.densityThreshold with
        | some d => if d = 0 then 3 else d
        | none => 3)
    slotTransfers := [] }

/-- The loop `while(slotOrder.length > windowSlots) shift and delete`. -/
def trimWindow (windowSlots : Nat) :
    List Int → List (Int × SlotBucket) → List Int × List (Int × SlotBucket)
  | [], buckets => ([], buckets)
  | rem :: rest, buckets =>
    if (rem :: rest).length > windowSlots then trimWindow windowSlots rest (mdel buckets rem)
    else (rem :: rest, buckets)

/-- Method `_ensureSlot`, as a state update; the caller reads the bucket back. -/
def ensureSlot (eng : LedgerSignalEngine) (now : Nat) (slot : Int) : LedgerSignalEngine :=
  if mhas eng.slotBuckets slot then eng
  else
    let buckets := mset eng.slotBuckets slot
      { ts := now, count := 0, mints := [], authorities := [] }
    let order := eng.slotOrder ++ [slot]
    let r := trimWindow eng.windowSlots order buckets
    { eng with slotOrder := r.1, slotBuckets := r.2 }

/-- Field `candidateTokens[0]`. -/
structure CandidateToken where
  mintAuthority : Option String
  authority : Option String

/-- Field `sampleLogs`: absent, an array of lines, or one string. -/
inductive SampleLogs where
  | absent
  | lines (l : List String)
  | text (s : String)

/-- The event object handed to `processEvent`. -/
structure LedgerEvent where
  slot : Option Int
  blockSlot : Option Int
  firstBlock : Option Int
  txBlock : Option Int
  kind : Option String
  eventKind : Option String
  freshMints : Option (List String)
  user : Option String
  signature : Option String
  sourceSignature : Option String
  candidateTokens : List CandidateToken
  sampleLogs : SampleLogs

/-- A numeric field that is present and truthy (non-zero). -/
def truthyNum (x : Option Int) : Option Int :=
  match x with
  | some n => if n = 0 then none else some n
  | none => none

/-- A string field that is present and truthy (non-empty). -/
def truthyStr (x : Option String) : Option String :=
  match x with
  | some v => if truthy v then some v else none
  | none => none

/-- Expression `ev.slot || ev.blockSlot || ev.firstBlock || ev.txBlock || null`. -/
def resolveSlot (ev : LedgerEvent) : Option Int :=
  (truthyNum ev.slot).orElse fun _ =>
    (truthyNum ev.blockSlot).orElse fun _ =>
      (truthyNum ev.firstBlock).orElse fun _ => truthyNum ev.txBlock

/-- The `auth` expression of `processEvent`. -/
def resolveAuth (ev : LedgerEvent) : Option String :=
  (truthyStr ev.user).orElse fun _ =>
    (truthyStr ev.signature).orElse fun _ =>
      (truthyStr ev.sourceSignature).orElse fun _ =>
        match ev.candidateTokens with
        | [] => none
        | ct :: _ => (truthyStr ct.mintAuthority).orElse fun _ => truthyStr ct.authority

/-- The `logs` expression of `processEvent`. -/
def resolveLogs (ev : LedgerEvent) : String :=
  match ev.sampleLogs with
  | SampleLogs.lines l => toLowerCase (String.intercalate "\n" l)
  | SampleLogs.text t => toLowerCase t
  | SampleLogs.absent => ""

/-- The `kind` expression of `processEvent`. -/
def resolveKind (ev : LedgerEvent) : String :=
  match truthyStr ev.kind with
  | some k => k
  | none =>
    match truthyStr ev.eventKind with
    | some k => k
    | none => ""

/-- The loop over the words of one transfer line: the first two address-like words are
`from` and `to`, the last numeric word is the amount. -/
def scanParts : List String → Option String → Option String → Option ℚ →
    Option String × Option String × Option ℚ
  | [], from_, to_, amt => (from_, to_, amt)
  | p :: rest, from_, to_, amt =>
    let from1 := if isAddressLike p then (match from_ with
      | none => some p
      | some f => some f) else from_
    let to1 := if isAddressLike p then (match from_ with
      | none => to_
      | some _ => (match to_ with
        | none => some p
        | some t => some t)) else to_
    let amt1 := match parseAmount p with
      | some a => some a
      | none => amt
    scanParts rest from1 to1 amt1

/-- The record pushed for a line that contains `transfer`. -/
def parseTransferLine (ln : String) : TransferRecord :=
  let r := scanParts (splitWords ln) none none none
  { raw := ln, from_ := r.1, to_ := r.2.1, amount := r.2.2 }

/-- The records parsed from the log text of one event. -/
def parseTransfers (logs : String) : List TransferRecord :=
  ((splitLines logs).filter (fun ln => includes ln "transfer")).map parseTransferLine

/-- The four `entry.flags |= ...` statements of the loop over the fresh mints. -/
def mintFlags (kind logs : String) (flags : Nat) : Nat :=
  let f1 := if truthy kind && includes (toLowerCase kind) "initialize"
    then flags ||| BIT_ACCOUNT_CREATED else flags
  let f2 := if truthy logs && (includes logs "associated" || includes logs "ata" ||
      includes logs "associated token")
    then f1 ||| BIT_ATA_CREATED else f1
  let f3 := if truthy logs && (includes logs "create" || includes logs "initializemint" ||
      includes logs "createidempotent")
    then f2 ||| BIT_ACCOUNT_CREATED else f2
  if truthy kind && (includes (toLowerCase kind) "pool" || includes (toLowerCase kind) "init")
  then f3 ||| BIT_PROGRAM_INIT else f3

/-- Body of `for(const m of fresh)`: flags, observed slot and authority of one mint. -/
def updateMint (slot : Int) (kind logs : String) (auth : Option String)
    (bucket : SlotBucket) (m : String) : SlotBucket :=
  let key := m
  let entry : EvidenceEntry :=
    match mget bucket.mints key with
    | some e => e
    | none => { flags := 0, seenSlots := [], sampleLogs := none }
  let entry1 : EvidenceEntry :=
    { entry with flags := mintFlags kind logs entry.flags, seenSlots := sadd entry.seenSlots slot }
  let mints := mset bucket.mints key entry1
  match auth with
  | none => { bucket with mints := mints }
  | some a =>
    let aset : List String :=
      match mget bucket.authorities a with
      | some st => st
      | none => []
    { bucket with mints := mints, authorities := mset bucket.authorities a (sadd aset m) }

/-- Method `processEvent`; `now` is the `Date.now()` reading used for a new bucket. -/
def processEvent (eng : LedgerSignalEngine) (now : Nat) (ev : LedgerEvent) :
    LedgerSignalEngine :=
  match resolveSlot ev with
  | none => eng
  | some slot =>
    let eng1 := ensureSlot eng now slot
    match mget eng1.slotBuckets slot with
    | none => eng1
    | some bucket =>
      let bucket1 := { bucket with count := bucket.count + 1 }
      let fresh : List String :=
        match ev.freshMints with
        | some l => l.take 20
        | none => []
      let auth := resolveAuth ev
      let logs := resolveLogs ev
      let kind := resolveKind ev
      let transfers :=
        if truthy logs && includes logs "transfer" then
          let arr : List TransferRecord :=
            match mget eng1.slotTransfers slot with
            | some a => a
            | none => []
          mset eng1.slotTransfers slot (arr ++ parseTransfers logs)
        else eng1.slotTransfers
      let bucket2 := fresh.foldl (updateMint slot kind logs auth) bucket1
      { eng1 with slotBuckets := mset eng1.slotBuckets slot bucket2, slotTransfers := transfers }

/-- The engine after a sequence of `processEvent` calls on a new engine; each event comes
with the clock reading of its call. -/
def runEngine (opts : EngineOpts) (evs : List (Nat × LedgerEvent)) : LedgerSignalEngine :=
  evs.foldl (fun eng e => processEvent eng e.1 e.2) (LedgerSignalEngine.new opts)

/-- The filter predicate of `relevant` in `getMaskForMint`. -/
def isRelevant (key : String) (t : TransferRecord) : Bool :=
  decide (t.to_ = some key) || decide (t.from_ = some key) ||
    (truthy t.raw && includes t.raw key) ||
    (truthy t.raw && (includes t.raw "vault" && includes t.raw key))

/-- Expression `r.to || r.raw || '__unk'`. -/
def toGroupKey (r : TransferRecord) : String :=
  match truthyStr r.to_ with
  | some t => t
  | none => if truthy r.raw then r.raw else "__unk"

/-- Expression `x.from || x.raw || '__unk'`. -/
def fromGroupKey (x : TransferRecord) : String :=
  match truthyStr x.from_ with
  | some f => f
  | none => if truthy x.raw then x.raw else "__unk"

/-- The map `byTo`: the relevant records grouped by destination key. -/
def groupByTo (relevant : List TransferRecord) : List (String × List TransferRecord) :=
  relevant.foldl (fun byTo r =>
    let arr : List TransferRecord :=
      match mget byTo (toGroupKey r) with
      | some a => a
      | none => []
    mset byTo (toGroupKey r) (arr ++ [r])) []

/-- Test `r.from && b.authorities && b.authorities.has(r.from)`. -/
def creatorCond (b : SlotBucket) (r : TransferRecord) : Bool :=
  match truthyStr r.from_ with
  | some f => mhas b.authorities f
  | none => false

/-- Body of `for(const r of arr)`: the creator-exposed bit. -/
def creatorStep (b : SlotBucket) (mask : Nat) (r : TransferRecord) : Nat :=
  if creatorCond b r then mask ||| BIT_CREATOR_EXPOSED else mask

/-- Test `arr.length <= 2 && fromSet.size <= 2` on one group of `byTo`. -/
def cleanGroup (g : String × List TransferRecord) : Bool :=
  decide (g.2.length ≤ 2 ∧ ((g.2.map fromGroupKey).dedup).length ≤ 2)

/-- Body of `for(const [kto, arr] of byTo.entries())`. -/
def groupStep (b : SlotBucket) (mask : Nat) (g : String × List TransferRecord) : Nat :=
  let mask1 := if cleanGroup g then mask ||| BIT_CLEAN_FUNDING else mask
  g.2.foldl (creatorStep b) mask1

/-- The funding heuristics of one slot. -/
def fundingStep (transfers : List TransferRecord) (b : SlotBucket) (key : String)
    (mask : Nat) : Nat :=
  if transfers.length > 0 then
    let relevant := transfers.filter (isRelevant key)
    if relevant.length > 0 then (groupByTo relevant).foldl (groupStep b) mask
    else mask
  else mask

/-- The test of the LP-structure heuristic on `ent.sampleLogs`. -/
def lpCond (ent : Option EvidenceEntry) : Bool :=
  match ent with
  | none => false
  | some e =>
    let sampleLogs := toLowerCase (match truthyStr e.sampleLogs with
      | some l => l
      | none => "")
    truthy sampleLogs && (includes sampleLogs "vault" || includes sampleLogs "pool" ||
      includes sampleLogs "lp" || includes sampleLogs "liquidity" ||
      includes sampleLogs "lp_mint" || includes sampleLogs "lp mint")

/-- The same-authority test: some authority of the bucket references the mint and more
than one mint. -/
def sameAuthCond (b : SlotBucket) (key : String) : Bool :=
  b.authorities.any (fun p => decide (key ∈ p.2) && decide (p.2.length > 1))

/-- Body of the aggregation loop of `getMaskForMint` for a slot whose bucket is `b` and
whose transfer records are `transfers`. -/
def bucketMask (densityThreshold : Int) (b : SlotBucket) (transfers : List TransferRecord)
    (key : String) (mask : Nat) : Nat :=
  let ent := mget b.mints key
  let mask1 := match ent with
    | some e => if e.flags ≠ 0 then mask ||| e.flags else mask
    | none => mask
  let mask2 := if sameAuthCond b key then mask1 ||| BIT_SAME_AUTH else mask1
  let mask3 := if (b.count : Int) ≥ densityThreshold then mask2 ||| BIT_SLOT_DENSE else mask2
  let mask4 := if lpCond ent then mask3 ||| BIT_LP_STRUCT else mask3
  fundingStep transfers b key mask4

/-- Expression `this.slotTransfers.get(s) || []`. -/
def transfersOf (eng : LedgerSignalEngine) (s : Int) : List TransferRecord :=
  match mget eng.slotTransfers s with
  | some a => a
  | none => []

/-- Body of the aggregation loop `for(const s of this.slotOrder)` of `getMaskForMint`. -/
def slotMask (eng : LedgerSignalEngine) (key : String) (mask : Nat) (s : Int) : Nat :=
  match mget eng.slotBuckets s with
  | none => mask
  | some b => bucketMask eng.densityThreshold b (transfersOf eng s) key mask

/-- The conditions under which the aggregation of one bucket sets bit `i`. -/
def bucketBit (densityThreshold : Int) (b : SlotBucket) (transfers : List TransferRecord)
    (key : String) (i : Nat) : Prop :=
  (∃ e, mget b.mints key = some e ∧ e.flags.testBit i = true) ∨
  (i = 8 ∧ sameAuthCond b key = true) ∨
  (i = 10 ∧ (b.count : Int) ≥ densityThreshold) ∨
  (i = 11 ∧ lpCond (mget b.mints key) = true) ∨
  (i = 12 ∧ ∃ g ∈ groupByTo (transfers.filter (isRelevant key)), cleanGroup g = true) ∨
  (i = 14 ∧ ∃ r ∈ transfers.filter (isRelevant key), creatorCond b r = true)

/-- The update of `minS` and `maxS` for one observed slot. -/
def minMaxStep (acc : Option Int × Option Int) (n : Int) : Option Int × Option Int :=
  ((match acc.1 with
    | none => some n
    | some m => if n < m then some n else some m),
   (match acc.2 with
    | none => some n
    | some m => if n > m then some n else some m))

/-- The second loop of `getMaskForMint`: `minS` and `maxS` over the observed slots of the
mint in the retained buckets. -/
def seenRange (eng : LedgerSignalEngine) (key : String) : Option Int × Option Int :=
  eng.slotOrder.foldl (fun acc s =>
    match mget eng.slotBuckets s with
    | none => acc
    | some b =>
      match mget b.mints key with
      | none => acc
      | some ent => ent.seenSlots.foldl minMaxStep acc) (none, none)

/-- Method `getMaskForMint` (the `slot` argument is not used by the method). -/
def getMaskForMint (eng : LedgerSignalEngine) (mint : String) (_slot : Int) : Nat :=
  let key := mint
  let mask := eng.slotOrder.foldl (slotMask eng key) 0
  match seenRange eng key with
  | (some minS, some maxS) => if maxS - minS ≤ 2 then mask ||| BIT_SLOT_ALIGNED else mask
  | _ => mask

/-- The loop `while(m){ cnt += (m & 1); m >>>= 1; }`. -/
def countSetBits (cnt m : Nat) : Nat :=
  if m = 0 then cnt else countSetBits (cnt + (m &&& 1)) (m >>> 1)
termination_by m
decreasing_by
  rename_i hm
  rw [Nat.shiftRight_eq_div_pow]
  exact Nat.div_lt_self (Nat.pos_of_ne_zero hm) (by norm_num)

/-- Method `isStrongSignal`; an omitted `requiredBits` is 2. -/
def isStrongSignal (eng : LedgerSignalEngine) (mint : String) (slot : Int)
    (requiredBits : Option Int) : Bool :=
  let required : Int :=
    match requiredBits with
    | some r => r
    | none => 2
  let mask := getMaskForMint eng mint slot
  decide ((countSetBits 0 mask : Int) ≥ required)

/-- Population count: the sum of the binary digits. -/
def popcount (m : Nat) : Nat :=
  (Nat.digits 2 m).sum

/-- An event with only a slot and fresh mints. -/
def plainEvent (slot : Int) (mints : List String) (logs : SampleLogs) : LedgerEvent :=
  { slot := some slot, blockSlot := none, firstBlock := none, txBlock := none,
    kind := none, eventKind := none, freshMints := some mints, user := none,
    signature := none, sourceSignature := none, candidateTokens := [], sampleLogs := logs }

/-- The event of `test_ledger_engine.js`. -/
def testEvent : LedgerEvent :=
  { slot := some 100, blockSlot := none, firstBlock := none, txBlock := none,
    kind := some "initialize", eventKind := none, freshMints := some ["Mint1", "Mint2"],
    user := some "FromAddr1", signature := none, sourceSignature := none,
    candidateTokens := [{ mintAuthority := some "FromAddr1", authority := none }],
    sampleLogs := SampleLogs.lines ["associated token account created",
      "some transfer happened"] }

/-- Invariant of the slot window: at most `windowSlots` slots, no duplicates, and the
keys of `slotBuckets` are the entries of `slotOrder`, in the same order. -/
structure WindowInv (eng : LedgerSignalEngine) : Prop where
  window_pos : 1 ≤ eng.windowSlots
  length_le : eng.slotOrder.length ≤ eng.windowSlots
  nodup : eng.slotOrder.Nodup
  keys_eq : eng.slotBuckets.map Prod.fst = eng.slotOrder

/-- The slots of the events that carry one, in arrival order. -/
def eventSlots (evs : List (Nat × LedgerEvent)) : List Int :=
  evs.filterMap (fun e => resolveSlot e.2)

/-- Window facts that hold when events arrive in non-decreasing slot order: the retained
slots are strictly increasing, every retained slot was seen, and every seen slot that is
not retained is below every retained slot. -/
structure OrderedWindow (eng : LedgerSignalEngine) (seen : List Int) : Prop where
  sorted : eng.slotOrder.Pairwise (fun a b => a < b)
  retained_seen : ∀ r ∈ eng.slotOrder, r ∈ seen
  evicted_lt : ∀ s ∈ seen, s ∉ eng.slotOrder → ∀ r ∈ eng.slotOrder, s < r

/-- Events with slot only, one per given slot, all at clock reading 0. -/
def slotEvents (slots : List Int) : List (Nat × LedgerEvent) :=
  slots.map (fun s => (0, plainEvent s [] SampleLogs.absent))

/-- Growth of a bucket under ingestion: the count does not drop, entries keep their
flag bits and their `sampleLogs`, authority sets only grow. -/
structure BucketLe (b b' : SlotBucket) : Prop where
  count_le : b.count ≤ b'.count
  mints_le : ∀ key e, mget b.mints key = some e →
    ∃ e', mget b'.mints key = some e' ∧
      (∀ i, e.flags.testBit i = true → e'.flags.testBit i = true) ∧
      e'.sampleLogs = e.sampleLogs
  auth_le : ∀ p ∈ b.authorities, ∃ p' ∈ b'.authorities,
    (∀ x ∈ p.2, x ∈ p'.2) ∧ p.2.length ≤ p'.2.length
  has_le : ∀ f, mhas b.authorities f = true → mhas b'.authorities f = true

/-- The mask without the bits of `k`. -/
def clearBits (m k : Nat) : Nat :=
  m ^^^ (m &&& k)

/-- The bits that are recomputed from the whole window or from the grouping of the
transfer records at every query: clean-funding and slot-aligned. -/
def RECOMPUTED_BITS : Nat := BIT_CLEAN_FUNDING ||| BIT_SLOT_ALIGNED

/-- One event at slot 100 that names `Mint1`, on a default engine. -/
def alignedEngine : LedgerSignalEngine :=
  runEngine { windowSlots := none, densityThreshold := none }
    [(0, plainEvent 100 ["Mint1"] SampleLogs.absent)]

/-- One event at slot 100 that names `mint1` and logs one transfer line for it. -/
def fundedEngine : LedgerSignalEngine :=
  runEngine { windowSlots := none, densityThreshold := none }
    [(0, plainEvent 100 ["mint1"] (SampleLogs.lines ["transfer mint1"]))]

/-- Every stored flag word of the engine uses only bits below 15. -/
def FlagsBounded (eng : LedgerSignalEngine) : Prop :=
  ∀ s b key e, mget eng.slotBuckets s = some b → mget b.mints key = some e →
    ∀ i, e.flags.testBit i = true → i < 15

/-! ### Readiness score and trigger decision
(`src/src/simulation/analyze_raw_events.js`, `src/src/simulation/experiment_thresholds.js`)

Weights are exact rationals; masks are natural numbers. -/

/-- Probe bit: mint exists. -/
def BIT_MINT_EXISTS : Nat := 1 <<< 0

/-- Probe bit: authority ok. -/
def BIT_AUTH_OK : Nat := 1 <<< 1

/-- Probe bit: pool exists. -/
def BIT_POOL_EXISTS : Nat := 1 <<< 2

/-- Probe bit: pool initialised. -/
def BIT_POOL_INIT : Nat := 1 <<< 3

/-- Probe bit: token transferable. -/
def BIT_TRANSFERABLE : Nat := 1 <<< 4

/-- Probe bit: slot sequence confirmed. -/
def BIT_SLOT_SEQ : Nat := 1 <<< 5

/-- Constant `CORE_MASK`. -/
def CORE_MASK : Nat := BIT_MINT_EXISTS ||| BIT_AUTH_OK ||| BIT_POOL_EXISTS ||| BIT_POOL_INIT

/-- Table `WEIGHTS`, the same in both scripts, as the entries of `Object.entries`. -/
def WEIGHTS : List (Nat × ℚ) :=
  [(BIT_MINT_EXISTS, 0.20), (BIT_AUTH_OK, 0.20), (BIT_POOL_EXISTS, 0.15),
   (BIT_POOL_INIT, 0.15), (BIT_TRANSFERABLE, 0.20), (BIT_SLOT_SEQ, 0.10)]

/-- Table `LEDGER_WEIGHTS` of `analyze_raw_events.js`. -/
def AnalyzeRawEvents.LEDGER_WEIGHTS : List (Nat × ℚ) :=
  [(BIT_ACCOUNT_CREATED, 0.06), (BIT_ATA_CREATED, 0.05), (BIT_SAME_AUTH, 0.04),
   (BIT_PROGRAM_INIT, 0.05), (BIT_SLOT_DENSE, 0.05)]

/-- Table `LEDGER_WEIGHTS` of `experiment_thresholds.js`. -/
def ExperimentThresholds.LEDGER_WEIGHTS : List (Nat × ℚ) :=
  [(1 <<< 8, 0.06), (1 <<< 9, 0.05), (1 <<< 10, 0.04), (1 <<< 11, 0.05), (1 <<< 12, 0.05)]

/-- One loop `for(const [bit, w] of Object.entries(table)) if(mask & Number(bit)) score += w`. -/
def addWeights (table : List (Nat × ℚ)) (mask : Nat) (score : ℚ) : ℚ :=
  table.foldl (fun sc e => if mask &&& e.1 ≠ 0 then sc + e.2 else sc) score

/-- Function `scoreFromMask` of `analyze_raw_events.js`. -/
def AnalyzeRawEvents.scoreFromMask (mask ledgerMask : Nat) : ℚ :=
  addWeights AnalyzeRawEvents.LEDGER_WEIGHTS ledgerMask (addWeights WEIGHTS mask 0)

/-- Function `scoreFromMask` of `experiment_thresholds.js`. -/
def ExperimentThresholds.scoreFromMask (mask ledgerMask : Nat) : ℚ :=
  addWeights ExperimentThresholds.LEDGER_WEIGHTS ledgerMask (addWeights WEIGHTS mask 0)

/-- The trigger expression of both scripts for a probe mask, its score, the ledger-strong
flag and the threshold:
`(hasTransferable && (coreOk || score >= th)) || (ledgerStrong && hasTransferable)`. -/
def triggerDecision (mask : Nat) (score : ℚ) (ledgerStrong : Bool) (threshold : ℚ) : Bool :=
  let hasTransferable := decide (mask &&& BIT_TRANSFERABLE ≠ 0)
  let coreOk := decide (mask &&& CORE_MASK = CORE_MASK)
  (hasTransferable && (coreOk || decide (score ≥ threshold))) ||
    (ledgerStrong && hasTransferable)

/-- The trigger of `analyze_raw_events.js` for a probe mask (`baselineTriggered` is the
case `mask = 0`, `forcedTriggered` the case `mask = forcedMask`). -/
def AnalyzeRawEvents.triggered (mask ledgerMask : Nat) (ledgerStrong : Bool)
    (SCORE_THRESHOLD : ℚ) : Bool :=
  triggerDecision mask (AnalyzeRawEvents.scoreFromMask mask ledgerMask) ledgerStrong
    SCORE_THRESHOLD

/-- The trigger of `experiment_thresholds.js` for a probe mask and a threshold `th`. -/
def ExperimentThresholds.triggered (mask ledgerMask : Nat) (ledgerStrong : Bool)
    (th : ℚ) : Bool :=
  triggerDecision mask (ExperimentThresholds.scoreFromMask mask ledgerMask) ledgerStrong th

/-- The probe mask `baselineMask`. -/
def baselineMask : Nat := 0

/-- The probe mask `forcedMask`. -/
def forcedMask : Nat := baselineMask ||| BIT_POOL_EXISTS ||| BIT_POOL_INIT ||| BIT_TRANSFERABLE

/-! ### Slot clock and slot trigger
(`src/src/simulation/sniper_simulator.ts`, `src/src/simulation/sniper_simulator.js`)

`Date.now()` readings are explicit integer arguments (milliseconds). -/

/-- Constant `SLOT_DURATION_MS`. -/
def SLOT_DURATION_MS : Int := 400

/-- Constant `TRIGGER_WINDOW_MS`. -/
def TRIGGER_WINDOW_MS : Int := 5

/-- Class `SlotClock` of `sniper_simulator.ts`. -/
structure SlotClock where
  start_time : Int
  start_slot : Int
deriving DecidableEq

/-- The constructor of `SlotClock`; `now` is its `Date.now()` reading and the start slot
is `Number(start_slot) || 0`. -/
def SlotClock.new (now : Int) (start_slot : Int) : SlotClock :=
  { start_time := now, start_slot := if start_slot = 0 then 0 else start_slot }

/-- Method `current_slot` at the clock reading `now`. -/
def SlotClock.current_slot (c : SlotClock) (now : Int) : Int :=
  let elapsed_ms := now - c.start_time
  c.start_slot + Int.fdiv elapsed_ms SLOT_DURATION_MS

/-- Method `ms_into_slot` at the clock reading `now`; `%` is the truncating remainder. -/
def SlotClock.ms_into_slot (c : SlotClock) (now : Int) : Int :=
  let elapsed_ms := now - c.start_time
  Int.tmod elapsed_ms SLOT_DURATION_MS

/-- Class `SlotClock` of `sniper_simulator.js`. -/
structure SlotClockJs where
  start_time : Int
  start_slot : Int
deriving DecidableEq

/-- The constructor of the `.js` clock. -/
def SlotClockJs.new (now : Int) (start_slot : Int) : SlotClockJs :=
  { start_time := now, start_slot := if start_slot = 0 then 0 else start_slot }

/-- Method `current_slot` of the `.js` clock. -/
def SlotClockJs.current_slot (c : SlotClockJs) (now : Int) : Int :=
  let elapsed_ms := now - c.start_time
  c.start_slot + Int.fdiv elapsed_ms SLOT_DURATION_MS

/-- Method `ms_into_slot` of the `.js` clock. -/
def SlotClockJs.ms_into_slot (c : SlotClockJs) (now : Int) : Int :=
  let elapsed_ms := now - c.start_time
  Int.tmod elapsed_ms SLOT_DURATION_MS

/-- One run of the `setInterval` callback of `slot_trigger`: the `Date.now()` reading
inside `current_slot()` and the one inside `ms_into_slot()`. -/
structure Poll where
  t1 : Int
  t2 : Int
deriving DecidableEq

/-- State of one `slot_trigger` call: whether the interval is still set, the polls (with
their index) at which `execution.trigger()` ran, and the value the promise resolved
with. -/
structure TriggerState where
  active : Bool
  triggerLog : List (Nat × Poll)
  resolved : Option (Int × Int)
deriving DecidableEq

/-- The test `slot === target_slot && ms <= TRIGGER_WINDOW_MS` of one poll. -/
def triggerCond (clock : SlotClock) (target_slot : Int) (p : Poll) : Bool :=
  decide (clock.current_slot p.t1 = target_slot) &&
    decide (clock.ms_into_slot p.t2 ≤ TRIGGER_WINDOW_MS)

/-- One run of the interval callback; once `clearInterval` has run no callback runs. -/
def pollStep (clock : SlotClock) (target_slot : Int) (st : TriggerState)
    (ip : Nat × Poll) : TriggerState :=
  if st.active then
    let slot := clock.current_slot ip.2.t1
    let ms := clock.ms_into_slot ip.2.t2
    if triggerCond clock target_slot ip.2 then
      { active := false, triggerLog := st.triggerLog ++ [ip], resolved := some (slot, ms) }
    else st
  else st

/-- Function `slot_trigger` over the sequence of polls that the timer offers. -/
def slot_trigger (clock : SlotClock) (target_slot : Int) (polls : List Poll) : TriggerState :=
  polls.enum.foldl (pollStep clock target_slot)
    { active := true, triggerLog := [], resolved := none }

/-- A poll whose two readings are taken at the same instant. -/
def Poll.at (t : Int) : Poll := { t1 := t, t2 := t }

/-! ### Follow-up orders (`src/userStrategy.ts`) -/

/-- Field `entryConditions` of a strategy. -/
structure EntryConditions where
  stochRsi_J_max : ℚ
  stochRsi_K_max : ℚ
  williams_R_min : ℚ
deriving DecidableEq

/-- Field `takeProfitRange` of a strategy. -/
structure TakeProfitRange where
  min : ℚ
  max : ℚ
deriving DecidableEq

/-- Interface `MultiTimeframeStrategy`. -/
structure MultiTimeframeStrategy where
  timeframes : List String
  capitalPercent : ℚ
  minMatchingTimeframes : ℚ
  takeProfitRange : TakeProfitRange
  reinvestLoss : ℚ
  entryConditions : EntryConditions
deriving DecidableEq

/-- The fields that `createPendingOrdersFromStrategy` reads of its `decision: any`. -/
structure OrderDecision where
  action : String
  price : ℚ
  amount : ℚ
deriving DecidableEq

/-- Method `Number.prototype.toFixed(1)`: the closest multiple of a tenth, the larger one
on a tie, with the sign of the number in front. -/
def toFixed1 (x : ℚ) : String :=
  let a : ℚ := if x < 0 then -x else x
  let n : Nat := (Rat.floor (a * 10 + 1 / 2)).toNat
  (if x < 0 then "-" else "") ++ toString (n / 10) ++ "." ++ toString (n % 10)

/-- Function `createPendingOrdersFromStrategy`; `clock i` is the `i`-th `Date.now()`
reading of the call (two readings per order: one for the id, one for `createdAt`). -/
def createPendingOrdersFromStrategy (userId token : String) (decision : OrderDecision)
    (strategy : MultiTimeframeStrategy) (clock : Nat → Nat) : List PendingOrder :=
  if decision.action = "BUY" then
    let tpPrice1 := decision.price * (1 + strategy.takeProfitRange.min)
    let tpPrice2 := decision.price * (1 + strategy.takeProfitRange.max)
    let slPrice := decision.price * 0.97
    [ { id := userId ++ "_" ++ token ++ "_tp1_" ++ toString (clock 0)
        userId := userId
        token := token
        type := OrderType.sell
        triggerPrice := tpPrice1
        amount := decision.amount * 0.5
        createdAt := clock 1
        status := OrderStatus.pending
        executedPrice := none
        executedAt := none
        reason := some ("Take Profit 1: +" ++ toFixed1 (strategy.takeProfitRange.min * 100) ++ "%") },
      { id := userId ++ "_" ++ token ++ "_tp2_" ++ toString (clock 2)
        userId := userId
        token := token
        type := OrderType.sell
        triggerPrice := tpPrice2
        amount := decision.amount * 0.5
        createdAt := clock 3
        status := OrderStatus.pending
        executedPrice := none
        executedAt := none
        reason := some ("Take Profit 2: +" ++ toFixed1 (strategy.takeProfitRange.max * 100) ++ "%") },
      { id := userId ++ "_" ++ token ++ "_sl_" ++ toString (clock 4)
        userId := userId
        token := token
        type := OrderType.stoploss
        triggerPrice := slPrice
        amount := decision.amount
        createdAt := clock 5
        status := OrderStatus.pending
        executedPrice := none
        executedAt := none
        reason := some "Stop Loss: -3%" } ]
  else []

/-- The default strategy of `runMultiTimeframeStrategy`. -/
def defaultStrategy : MultiTimeframeStrategy :=
  { timeframes := ["5m", "15m", "4h", "8h"], capitalPercent := 0.1,
    minMatchingTimeframes := 3, takeProfitRange := { min := 0.01, max := 0.03 },
    reinvestLoss := -0.03,
    entryConditions := { stochRsi_J_max := 10, stochRsi_K_max := 30, williams_R_min := 80 } }

/-- A callback whose guarded call always fails with a rejection. -/
def rejectingCallback : ExecuteCallback := fun _ _ => CallbackOutcome.rejected

/-! ### Order creation of the persistent monitor (`src/scripts/persistent_monitor.ts`) -/

/-- Field `status` of a honey token. -/
inductive HoneyStatus where
  | pending
  | active
  | sold
  | error
deriving DecidableEq, Repr

/-- Type `HoneyToken`; an optional field that is absent is `none`, and the two percent
fields are `none` when they are not arrays. -/
structure HoneyToken where
  address : String
  buyAmount : ℚ
  profitPercents : Option (List ℚ)
  soldPercents : Option (List ℚ)
  lastEntryPrice : Option ℚ
  lastSellPrice : Option ℚ
  finished : Option Bool
  status : Option HoneyStatus
  currentStage : Option Nat
  lastTxId : Option String
  volume : Option ℚ
  ageMinutes : Option ℚ
deriving DecidableEq

/-- The parts of the `user` object that `createNewOrders` reads: `honeySettings.tokens`
(`none` when it is not an array) and `strategy.buyAmount`. -/
structure MonitorUser where
  tokens : Option (List HoneyToken)
  buyAmount : Option ℚ

/-- The parts of `CONFIG` that the order functions of the monitor read. -/
structure MonitorConfig where
  MAX_ORDERS_PER_USER : Int
  ENABLE_AUTO_EXECUTION : Bool
  ENABLE_ARCHIVE : Bool

/-- A number that is present and truthy (non-zero). -/
def truthyRat (x : Option ℚ) : Option ℚ :=
  match x with
  | some v => if v = 0 then none else some v
  | none => none

/-- Expression `user.strategy?.buyAmount || 0.1`. -/
def monitorBuyAmount (user : MonitorUser) : ℚ :=
  match truthyRat user.buyAmount with
  | some a => a
  | none => 0.1

/-- Call `orders.slice(-n)`: a negative start counts from the end, a non-negative start
from the front. -/
def sliceLast {α : Type} (l : List α) (n : Int) : List α :=
  let start : Int := -n
  let k : Int := if start < 0 then max ((l.length : Int) + start) 0 else min start l.length
  l.drop k.toNat

/-- The filter `o.token === token.address && o.status === 'pending'`, as a test for a
non-empty result. -/
def hasPendingFor (orders : List PendingOrder) (address : String) : Bool :=
  orders.any (fun o => decide (o.token = address) && decide (o.status = OrderStatus.pending))

/-- The three orders pushed for a token (`+1%`, `+3%`, `-3%`). -/
def monitorOrders (userId : String) (user : MonitorUser) (address : String) (entryPrice : ℚ)
    (now : Nat) : List PendingOrder :=
  [ { id := userId ++ "_" ++ address ++ "_tp1_" ++ toString now
      userId := userId
      token := address
      type := OrderType.sell
      triggerPrice := entryPrice * 1.01
      amount := monitorBuyAmount user * 0.5
      createdAt := now
      status := OrderStatus.pending
      executedPrice := none
      executedAt := none
      reason := some "Take Profit 1: +1%" },
    { id := userId ++ "_" ++ address ++ "_tp2_" ++ toString now
      userId := userId
      token := address
      type := OrderType.sell
      triggerPrice := entryPrice * 1.03
      amount := monitorBuyAmount user * 0.5
      createdAt := now
      status := OrderStatus.pending
      executedPrice := none
      executedAt := none
      reason := some "Take Profit 2: +3%" },
    { id := userId ++ "_" ++ address ++ "_sl_" ++ toString now
      userId := userId
      token := address
      type := OrderType.stoploss
      triggerPrice := entryPrice * 0.97
      amount := monitorBuyAmount user
      createdAt := now
      status := OrderStatus.pending
      executedPrice := none
      executedAt := none
      reason := some "Stop Loss: -3%" } ]

/-- Body of `for (const token of honeSettings.tokens)` in `createNewOrders`; `now` is the
`Date.now()` reading of this iteration. -/
def monitorTokenStep (userId : String) (user : MonitorUser) (now : Nat)
    (orders : List PendingOrder) (token : HoneyToken) : List PendingOrder :=
  if token.status ≠ some HoneyStatus.active then orders
  else
    match truthyRat token.lastEntryPrice with
    | none => orders
    | some entryPrice =>
      if hasPendingFor orders token.address then orders
      else orders ++ monitorOrders userId user token.address entryPrice now

/-- The loop over the tokens; `clock i` is the reading of iteration `i`. -/
def monitorTokenLoop (userId : String) (user : MonitorUser) (clock : Nat → Nat) :
    Nat → List HoneyToken → List PendingOrder → List PendingOrder
  | _, [], orders => orders
  | i, token :: rest, orders =>
    monitorTokenLoop userId user clock (i + 1) rest
      (monitorTokenStep userId user (clock i) orders token)

/-- The list `orders` after the read of the order file in `createNewOrders`: the content
of the file when it exists, the empty list otherwise. -/
def loadedOrders (file : Option (List PendingOrder)) : List PendingOrder :=
  match file with
  | some l => l
  | none => []

/-- Method `PriceMonitoringSystem.createNewOrders` as a function on the content of the
user's order file (`none`: the file does not exist); the result is the file after the
call. -/
def createNewOrders (config : MonitorConfig) (userId : String) (user : MonitorUser)
    (clock : Nat → Nat) (file : Option (List PendingOrder)) : Option (List PendingOrder) :=
  match user.tokens with
  | none => file
  | some tokens =>
    let orders := monitorTokenLoop userId user clock 0 tokens (loadedOrders file)
    if orders.length > 0 ∧ config.ENABLE_ARCHIVE = true then
      if (orders.length : Int) > config.MAX_ORDERS_PER_USER then
        some (sliceLast orders config.MAX_ORDERS_PER_USER)
      else some orders
    else file

/-- An active token with entry price 1. -/
def activeToken (address : String) : HoneyToken :=
  { address := address, buyAmount := 1, profitPercents := some [10], soldPercents := some [100],
    lastEntryPrice := some 1, lastSellPrice := none, finished := none,
    status := some HoneyStatus.active, currentStage := some 0, lastTxId := none,
    volume := none, ageMinutes := none }

/-- A user with the given number of active tokens `T0`, `T1`, ... -/
def userWithTokens (n : Nat) : MonitorUser :=
  { tokens := some ((List.range n).map (fun i => activeToken ("T" ++ toString i))),
    buyAmount := none }

/-- The default configuration with persistence enabled. -/
def archiveConfig (maxOrders : Int) : MonitorConfig :=
  { MAX_ORDERS_PER_USER := maxOrders, ENABLE_AUTO_EXECUTION := false, ENABLE_ARCHIVE := true }

/-- The token of every order of an order file. -/
def fileTokens (file : Option (List PendingOrder)) : List String :=
  match file with
  | some l => l.map (fun o => o.token)
  | none => []

/-! ### Clean-funding and liquidity-structure bits
(`src/src/simulation/ledger_signal_engine.js`, `getMaskForMint`) -/

/-- An entry as `processEvent` leaves it: `sampleLogs` was never assigned and the flag
word holds only the account-created, associated-account and program-init bits. -/
def EntryPlain (e : EvidenceEntry) : Prop :=
  e.sampleLogs = none ∧ ∀ i, e.flags.testBit i = true → i = 6 ∨ i = 7 ∨ i = 9

/-- Every stored entry of the engine is as `processEvent` leaves it. -/
def EntriesPlain (eng : LedgerSignalEngine) : Prop :=
  ∀ s b key e, mget eng.slotBuckets s = some b → mget b.mints key = some e → EntryPlain e

/-- The records of slot `s` that reference the entity: the list `relevant` of
`getMaskForMint`. -/
def relevantOf (eng : LedgerSignalEngine) (mint : String) (s : Int) : List TransferRecord :=
  (transfersOf eng s).filter (isRelevant mint)

/-- The clean-funding condition in the words of the specification: for some retained
slot, the records that reference the entity fall into at most 2 distinct destination
groups and have at most 2 distinct sources. -/
def cleanFundingSpec (eng : LedgerSignalEngine) (mint : String) : Bool :=
  eng.slotOrder.any (fun s =>
    decide ((groupByTo (relevantOf eng mint s)).length ≤ 2 ∧
      (((relevantOf eng mint s).map fromGroupKey).dedup).length ≤ 2))

/-- Source address of the sample transfers. -/
def addrF : String := "ffffffffffffffffffffffffffffffff"

/-- Destination address of the sample transfers. -/
def addrT (c : Char) : String := String.mk (List.replicate 32 c)

/-- One event at slot 100 that names `mint1` and logs three transfers that reference it,
all from `addrF` to the same destination. -/
def sameDestEngine : LedgerSignalEngine :=
  runEngine { windowSlots := none, densityThreshold := none }
    [(0, plainEvent 100 ["mint1"] (SampleLogs.lines
      ["transfer " ++ addrF ++ " " ++ addrT 'a' ++ " mint1 1",
       "transfer " ++ addrF ++ " " ++ addrT 'a' ++ " mint1 2",
       "transfer " ++ addrF ++ " " ++ addrT 'a' ++ " mint1 3"]))]

/-- One event at slot 100 that names `mint1` and logs three transfers that reference it,
all from `addrF`, to three destinations. -/
def fanOutEngine : LedgerSignalEngine :=
  runEngine { windowSlots := none, densityThreshold := none }
    [(0, plainEvent 100 ["mint1"] (SampleLogs.lines
      ["transfer " ++ addrF ++ " " ++ addrT 'a' ++ " mint1 1",
       "transfer " ++ addrF ++ " " ++ addrT 'b' ++ " mint1 2",
       "transfer " ++ addrF ++ " " ++ addrT 'c' ++ " mint1 3"]))]

/-- An event at slot 100 that names `Mint1` and whose log text holds the liquidity, vault,
pool and LP keywords. -/
def lpEvent : LedgerEvent :=
  plainEvent 100 ["Mint1"] (SampleLogs.lines ["liquidity pool vault lp"])

/-- The engine after `lpEvent` alone. -/
def lpEngine : LedgerSignalEngine :=
  runEngine { windowSlots := none, densityThreshold := none } [(0, lpEvent)]

/-! ### Honey strategy (`src/userStrategy.ts`, `executeHoneyStrategy`)

The awaited calls are oracles: a call that rejects or throws is `none`. Prices and amounts
are exact rationals; an amount that JavaScript computes as `NaN` is `none`. -/

/-- The argument of one `recordUserTrade` call. -/
structure HoneyTrade where
  mode : String
  token : String
  amount : Option ℚ
  price : ℚ
  tx : Option String
  success : Bool
deriving DecidableEq

/-- What `executeHoneyStrategy` reads apart from the tokens: the user's wallet secret and
strategy filters, the `repeatOnEntry` setting, and the results of the awaited calls.
`balanceAtSell` and `autoSell` take the stage index of the call. -/
structure HoneyEnv where
  hasSecret : Bool
  repeatOnEntry : Bool
  minVolume : Option ℚ
  minAge : Option ℚ
  getPrice : String → Option ℚ
  balanceAtBuy : String → Option ℚ
  autoBuy : String → ℚ → Option String
  balanceAtSell : String → Nat → Option ℚ
  autoSell : String → Nat → Option ℚ → Option String

/-- The predicate of `settings.tokens.filter(...)`. -/
def honeyFilter (env : HoneyEnv) (token : HoneyToken) : Bool :=
  if (match token.volume, truthyRat env.minVolume with
      | some v, some m => decide (v < m)
      | _, _ => false) then false
  else if (match token.ageMinutes, truthyRat env.minAge with
      | some a, some m => decide (a < m)
      | _, _ => false) then false
  else true

/-- The test for missing essential data. -/
def honeyInvalid (token : HoneyToken) : Bool :=
  !truthy token.address || decide (token.buyAmount = 0) ||
    (match token.profitPercents, token.soldPercents with
      | some pp, some sp => pp.isEmpty || sp.isEmpty
      | _, _ => true)

/-- The initial buy of a token without entry price. -/
def honeyBuy (env : HoneyEnv) (currentPrice : ℚ) (token : HoneyToken) :
    HoneyToken × List HoneyTrade :=
  let failed : HoneyToken × List HoneyTrade :=
    ({ token with status := some HoneyStatus.error },
      [{ mode := "buy", token := token.address, amount := some token.buyAmount,
         price := currentPrice, tx := none, success := false }])
  match env.balanceAtBuy token.address with
  | none => failed
  | some solBalance =>
    if solBalance < token.buyAmount + 2 / 1000 then failed
    else
      match env.autoBuy token.address token.buyAmount with
      | none => failed
      | some txId =>
        ({ token with lastEntryPrice := some currentPrice, status := some HoneyStatus.active,
                      currentStage := some 0, lastTxId := some txId },
          [{ mode := "buy", token := token.address, amount := some token.buyAmount,
             price := currentPrice, tx := some txId, success := true }])

/-- The sale of stage `i`, once the price condition of the stage holds. -/
def honeySell (env : HoneyEnv) (currentPrice : ℚ) (profit sold : List ℚ)
    (st : HoneyToken × List HoneyTrade) (i : Nat) : HoneyToken × List HoneyTrade :=
  let token := st.1
  let sellAmount : Option ℚ := (sold.get? i).map (fun s => token.buyAmount * (s / 100))
  let failed : HoneyToken × List HoneyTrade :=
    ({ token with status := some HoneyStatus.error },
      st.2 ++ [{ mode := "sell", token := token.address, amount := sellAmount,
                 price := currentPrice, tx := none, success := false }])
  match env.balanceAtSell token.address i with
  | none => failed
  | some solBalance =>
    if (match sellAmount with
        | some a => decide (solBalance < a + 2 / 1000)
        | none => false) then failed
    else
      match env.autoSell token.address i sellAmount with
      | none => failed
      | some txId =>
        let token1 := { token with lastSellPrice := some currentPrice,
                                   currentStage := some (i + 1), lastTxId := some txId }
        let token2 := if i + 1 ≥ profit.length
          then { token1 with finished := some true, status := some HoneyStatus.sold }
          else token1
        (token2, st.2 ++ [{ mode := "sell", token := token.address, amount := sellAmount,
                            price := currentPrice, tx := some txId, success := true }])

/-- Body of the loop over the profit stages, for stage `i`. -/
def stageStep (env : HoneyEnv) (currentPrice : ℚ) (profit sold : List ℚ)
    (st : HoneyToken × List HoneyTrade) (i : Nat) : HoneyToken × List HoneyTrade :=
  match st.1.lastEntryPrice, profit.get? i with
  | some entry, some p =>
    if decide (currentPrice ≥ entry * (1 + p / 100)) &&
        (match truthyRat st.1.lastSellPrice with
          | none => true
          | some l => decide (currentPrice > l)) then
      honeySell env currentPrice profit sold st i
    else st
  | _, _ => st

/-- The loop `for (let i = token.currentStage || 0; i < token.profitPercents.length; i++)`. -/
def stageLoop (env : HoneyEnv) (currentPrice : ℚ) (profit sold : List ℚ)
    (token : HoneyToken) : HoneyToken × List HoneyTrade :=
  let start : Nat :=
    match token.currentStage with
    | some n => n
    | none => 0
  (List.range' start (profit.length - start)).foldl
    (stageStep env currentPrice profit sold) (token, [])

/-- The statement after the stage loop: the reset for a new entry cycle. -/
def honeyReset (env : HoneyEnv) (currentPrice : ℚ) (sold : List ℚ) (token : HoneyToken) :
    HoneyToken :=
  let totalSold := sold.foldl (fun a b => a + b) 0
  if totalSold ≥ 100 ∧ env.repeatOnEntry = true ∧
      currentPrice ≤ (match token.lastEntryPrice with
        | some e => e
        | none => 0) then
    { token with finished := some false, lastEntryPrice := none, lastSellPrice := none,
                 status := some HoneyStatus.pending, currentStage := some 0, lastTxId := none }
  else token

/-- Body of `for (const token of filteredTokens)`: the token after the pass and the trades
recorded for it. -/
def honeyTokenStep (env : HoneyEnv) (token : HoneyToken) : HoneyToken × List HoneyTrade :=
  if honeyInvalid token then ({ token with status := some HoneyStatus.error }, [])
  else if token.finished = some true then ({ token with status := some HoneyStatus.sold }, [])
  else
    match env.getPrice token.address with
    | none => ({ token with status := some HoneyStatus.error }, [])
    | some currentPrice =>
      match truthyRat token.lastEntryPrice with
      | none => honeyBuy env currentPrice token
      | some _ =>
        match token.profitPercents, token.soldPercents with
        | some profit, some sold =>
          let r := stageLoop env currentPrice profit sold token
          (honeyReset env currentPrice sold r.1, r.2)
        | _, _ => (token, [])

/-- Function `executeHoneyStrategy` on the user's token list: `none` when it throws
`Wallet not found`, otherwise the stored tokens and the recorded trades. -/
def executeHoneyStrategy (env : HoneyEnv) (tokens : List HoneyToken) :
    Option (List HoneyToken × List HoneyTrade) :=
  if !env.hasSecret then none
  else
    some (tokens.foldl (fun acc token =>
      if honeyFilter env token then
        let r := honeyTokenStep env token
        (acc.1 ++ [r.1], acc.2 ++ r.2)
      else (acc.1 ++ [token], acc.2)) ([], []))

/-- A token bought at 100 with two profit stages (+10 %, +20 %), half of the position
each, and no stage sold. -/
def unsoldToken : HoneyToken :=
  { address := "T", buyAmount := 1, profitPercents := some [10, 20],
    soldPercents := some [50, 50], lastEntryPrice := some 100, lastSellPrice := none,
    finished := none, status := some HoneyStatus.active, currentStage := some 0,
    lastTxId := some "tx0", volume := none, ageMinutes := none }

/-- An environment with the wallet present, `repeatOnEntry` on, every token at the given
price, a balance of 10 and all transactions accepted. -/
def priceEnv (p : ℚ) : HoneyEnv :=
  { hasSecret := true, repeatOnEntry := true, minVolume := none, minAge := none,
    getPrice := fun _ => some p, balanceAtBuy := fun _ => some 10,
    autoBuy := fun _ _ => some "buy", balanceAtSell := fun _ _ => some 10,
    autoSell := fun _ _ _ => some "sell" }

/-- A token bought at 100 whose two profit stages have both been sold. -/
def soldToken : HoneyToken :=
  { address := "T", buyAmount := 1, profitPercents := some [10, 20],
    soldPercents := some [50, 50], lastEntryPrice := some 100, lastSellPrice := some 120,
    finished := some true, status := some HoneyStatus.sold, currentStage := some 2,
    lastTxId := some "tx2", volume := none, ageMinutes := none }

/-- The token after one strategy cycle per environment of the list, in order. -/
def honeyCycles (envs : List HoneyEnv) (token : HoneyToken) : HoneyToken :=
  envs.foldl (fun t env => (honeyTokenStep env t).1) token

/-- The `ledgerStrong` flag of both scripts, `engine.isStrongSignal(m, slot, 2)`, as a
function of the mask that `getMaskForMint` returns. -/
def ledgerStrongOf (ledgerMask : Nat) : Bool :=
  decide ((countSetBits 0 ledgerMask : Int) ≥ 2)

/-- The engine of both scripts (`windowSlots: 5, densityThreshold: 3`) after the event of
`test_ledger_engine.js`. -/
def scriptEngine : LedgerSignalEngine :=
  runEngine { windowSlots := some 5, densityThreshold := some 3 } [(0, testEvent)]

/-- Three events for an engine with a window of one slot: a transfer that references
`mint1` at slot 100, an event at slot 101 (which evicts the bucket of slot 100), and an
event without mints or logs at slot 100 (which re-creates a bucket for slot 100). -/
def staleEvents : List (Nat × LedgerEvent) :=
  [(0, plainEvent 100 ["mint1"] (SampleLogs.lines ["transfer mint1"])),
   (1, plainEvent 101 [] SampleLogs.absent),
   (2, plainEvent 100 [] SampleLogs.absent)]

/-- An engine with `windowSlots: 1` after the given events. -/
def oneSlotEngine (evs : List (Nat × LedgerEvent)) : LedgerSignalEngine :=
  runEngine { windowSlots := some 1, densityThreshold := none } evs

/-- The `shouldExecute` computation of `PriceMonitoringSystem.checkPendingOrders`
(`src/scripts/persistent_monitor.ts`). -/
def PriceMonitoringSystem.shouldExecute (order : PendingOrder) (currentPrice : ℚ) : Bool :=
  if order.type = OrderType.buy then decide (currentPrice ≤ order.triggerPrice)
  else if order.type = OrderType.sell ∨ order.type = OrderType.stoploss then
    decide (currentPrice ≥ order.triggerPrice)
  else false

/-! ### Binary64 arithmetic of the order prices (`src/userStrategy.ts`) -/

/-- Nearest integer to a rational number, the even one of the two on a tie. -/
def roundHalfEven (q : ℚ) : ℤ :=
  let f := ⌊q⌋
  if q - f < 1 / 2 then f
  else if q - f > 1 / 2 then f + 1
  else if f % 2 = 0 then f else f + 1

/-- Rounding of a positive number to 53 significant bits: with `e = ⌊log₂ x⌋` the number is
counted in units of `2 ^ (e - 52)` and the count is rounded to the nearest integer, the
even one on a tie. -/
def roundPositive (x : ℚ) : ℚ :=
  (roundHalfEven (x / (2 : ℚ) ^ (Int.log 2 x - 52)) : ℚ) * (2 : ℚ) ^ (Int.log 2 x - 52)

/-- The JavaScript number (IEEE 754 binary64, round to nearest, ties to even) that an
arithmetic operation or a number literal with exact value `x` produces. The exponent range
is not modelled: the value is the one of binary64 when `x` is zero or
`2 ^ (-1022) ≤ |x| < 2 ^ 1024` holds for `x` and for the result (no subnormal number, no
overflow to `Infinity`). -/
def roundBinary64 (x : ℚ) : ℚ :=
  if x = 0 then 0
  else if 0 < x then roundPositive x
  else -roundPositive (-x)

/-- Function `createPendingOrdersFromStrategy` with the numbers it computes as JavaScript
numbers: every product and sum is rounded by `roundBinary64`, and so is the literal `0.97`
(the literals `1`, `0.5` and `100` are binary64 numbers). The fields of `decision` and
`strategy` are the numbers the caller passes. -/
def createPendingOrdersFromStrategy.binary64 (userId token : String)
    (decision : OrderDecision) (strategy : MultiTimeframeStrategy) (clock : Nat → Nat) :
    List PendingOrder :=
  if decision.action = "BUY" then
    let tpPrice1 :=
      roundBinary64 (decision.price * roundBinary64 (1 + strategy.takeProfitRange.min))
    let tpPrice2 :=
      roundBinary64 (decision.price * roundBinary64 (1 + strategy.takeProfitRange.max))
    let slPrice := roundBinary64 (decision.price * roundBinary64 0.97)
    [ { id := userId ++ "_" ++ token ++ "_tp1_" ++ toString (clock 0)
        userId := userId
        token := token
        type := OrderType.sell
        triggerPrice := tpPrice1
        amount := roundBinary64 (decision.amount * 0.5)
        createdAt := clock 1
        status := OrderStatus.pending
        executedPrice := none
        executedAt := none
        reason := some ("Take Profit 1: +" ++
          toFixed1 (roundBinary64 (strategy.takeProfitRange.min * 100)) ++ "%") },
      { id := userId ++ "_" ++ token ++ "_tp2_" ++ toString (clock 2)
        userId := userId
        token := token
        type := OrderType.sell
        triggerPrice := tpPrice2
        amount := roundBinary64 (decision.amount * 0.5)
        createdAt := clock 3
        status := OrderStatus.pending
        executedPrice := none
        executedAt := none
        reason := some ("Take Profit 2: +" ++
          toFixed1 (roundBinary64 (strategy.takeProfitRange.max * 100)) ++ "%") },
      { id := userId ++ "_" ++ token ++ "_sl_" ++ toString (clock 4)
        userId := userId
        token := token
        type := OrderType.stoploss
        triggerPrice := slPrice
        amount := decision.amount
        createdAt := clock 5
        status := OrderStatus.pending
        executedPrice := none
        executedAt := none
        reason := some "Stop Loss: -3%" } ]
  else []

/-- The default strategy with the take-profit literals `0.01` and `0.03` of the source as
the binary64 numbers they denote. -/
def defaultStrategyBinary64 : MultiTimeframeStrategy :=
  { defaultStrategy with
    takeProfitRange := { min := roundBinary64 0.01, max := roundBinary64 0.03 } }

/-- A strategy with the take-profit range `{ min: 2 ** -60, max: 0.03125 }`: both bounds
are binary64 numbers, `0 < min ≤ max`. -/
def tinyRangeStrategy : MultiTimeframeStrategy :=
  { defaultStrategy with takeProfitRange := { min := 1 / 2 ^ 60, max := 1 / 32 } }

/-- A matching pass of `checkAndExecutePendingOrders` over the orders that
`createPendingOrdersFromStrategy` has just created (with binary64 trigger prices), as the
only stored orders. -/
def entryPass (userId token : String) (decision : OrderDecision)
    (strategy : MultiTimeframeStrategy) (clock : Nat → Nat) (currentPrices : Prices)
    (cb : Option ExecuteCallback) (clock2 : Nat → Nat) : CheckResult :=
  checkAndExecutePendingOrders
    (createPendingOrdersFromStrategy.binary64 userId token decision strategy clock)
    currentPrices cb clock2

/-! ### Order creation of `startPriceMonitor` (`src/userStrategy.ts`) -/

/-- The fields of `user.strategy` that the creation step of `startPriceMonitor` reads;
an absent field is `none`. -/
structure StrategySettings where
  buyAmount : Option ℚ
  timeframes : Option (List String)
  capitalPercent : Option ℚ
  minMatchingTimeframes : Option ℚ
  takeProfitRange : Option TakeProfitRange
  reinvestLoss : Option ℚ

/-- Expression `x || d` for an optional number. -/
def orDefault (x : Option ℚ) (d : ℚ) : ℚ :=
  match truthyRat x with
  | some v => v
  | none => d

/-- The strategy object that the creation step hands to
`createPendingOrdersFromStrategy`. -/
def monitorStrategy (st : StrategySettings) : MultiTimeframeStrategy :=
  { timeframes := (match st.timeframes with
      | some l => l
      | none => ["5m", "15m", "4h", "8h"])
    capitalPercent := orDefault st.capitalPercent 0.1
    minMatchingTimeframes := orDefault st.minMatchingTimeframes 3
    takeProfitRange := (match st.takeProfitRange with
      | some r => r
      | none => { min := 0.01, max := 0.03 })
    reinvestLoss := orDefault st.reinvestLoss (-0.03)
    entryConditions := { stochRsi_J_max := 10, stochRsi_K_max := 30, williams_R_min := 80 } }

/-- Function `loadPendingOrders` on the content of the user's order file (`none`: no
file). -/
def loadPendingOrders (file : Option (List PendingOrder)) : List PendingOrder :=
  match file with
  | some orders => orders
  | none => []

/-- Function `savePendingOrders`: the file after the call. -/
def savePendingOrders ( ENABLE_ARCHIVE : Bool) (file : Option (List PendingOrder))
    (orders : List PendingOrder) : Option (List PendingOrder) :=
  if ENABLE_ARCHIVE then some orders else file

/-- Body of `for (const token of honeSettings.tokens)` in step 3 of the monitor of
`startPriceMonitor`: the order file after the iteration. `clock` gives the `Date.now()`
readings of the `createPendingOrdersFromStrategy` call. -/
def startPriceMonitor.createStep ( ENABLE_ARCHIVE : Bool) (userId : String)
    (st : StrategySettings) (clock : Nat → Nat) (file : Option (List PendingOrder))
    (token : HoneyToken) : Option (List PendingOrder) :=
  if token.status = some HoneyStatus.active then
    match truthyRat token.lastEntryPrice with
    | none => file
    | some lastEntryPrice =>
      let existingOrders := (loadPendingOrders file).filter
        (fun o => decide (o.token = token.address) && decide (o.status = OrderStatus.pending))
      if existingOrders.length = 0 then
        let newOrders := createPendingOrdersFromStrategy userId token.address
          { action := "BUY", price := lastEntryPrice, amount := orDefault st.buyAmount 0.1 }
          (monitorStrategy st) clock
        let allOrders := existingOrders ++ newOrders
        savePendingOrders ENABLE_ARCHIVE file allOrders
      else file
  else file

/-- Step 3 of the monitor: the loop over the tokens; `clock i` gives the readings of
iteration `i`. -/
def startPriceMonitor.createOrders ( ENABLE_ARCHIVE : Bool) (userId : String)
    (st : StrategySettings) (clock : Nat → Nat → Nat) :
    Nat → List HoneyToken → Option (List PendingOrder) → Option (List PendingOrder)
  | _, [], file => file
  | i, token :: rest, file =>
    startPriceMonitor.createOrders ENABLE_ARCHIVE userId st clock (i + 1) rest
      (startPriceMonitor.createStep ENABLE_ARCHIVE userId st (clock i) file token)

/-- Strategy settings with every field absent. -/
def noSettings : StrategySettings :=
  { buyAmount := none, timeframes := none, capitalPercent := none,
    minMatchingTimeframes := none, takeProfitRange := none, reinvestLoss := none }

/-- A stored order file: an executed sell of token `A` and a pending stop-loss of
token `B`. -/
def storedOrders : List PendingOrder :=
  [ { id := "u_A_tp1_1", userId := "u", token := "A", type := OrderType.sell,
      triggerPrice := 2, amount := 1, createdAt := 1, status := OrderStatus.executed,
      executedPrice := some 3, executedAt := some 5, reason := none },
    { id := "u_B_sl_2", userId := "u", token := "B", type := OrderType.stoploss,
      triggerPrice := 1, amount := 1, createdAt := 2, status := OrderStatus.pending,
      executedPrice := none, executedAt := none, reason := none } ]

/-! ### Multi-timeframe entry decision (`src/userStrategy.ts`)

Prices and indicator values are exact rationals. Where JavaScript divides by zero the
value that the following arithmetic yields is written out. -/

/-- Result of `calculateStochasticRSI`. -/
structure StochRsi where
  J : ℚ
  K : ℚ
  D : ℚ
deriving DecidableEq

/-- The RSI of one slice `prices.slice(i - rsiPeriod, i + 1)`: gains and losses of the
successive changes, `rs = gains > 0 ? gains / losses : 0`, `rsi = 100 - 100 / (1 + rs)`
(with `losses = 0` and `gains > 0` the quotient is `Infinity` and the RSI is 100). -/
def rsiOfSlice (slice : List ℚ) : ℚ :=
  let changes := List.zipWith (fun prev cur => cur - prev) slice slice.tail
  let gains := changes.foldl (fun g change => if change ≥ 0 then g + change else g) 0
  let losses := changes.foldl (fun l change => if change ≥ 0 then l else l + abs change) 0
  if gains > 0 then
    if losses = 0 then 100 else 100 - 100 / (1 + gains / losses)
  else 0

/-- Call `Math.min(...slice)` on a slice that is not empty. -/
def sliceMin (slice : List ℚ) : ℚ :=
  match slice with
  | [] => 0
  | x :: rest => rest.foldl min x

/-- Call `Math.max(...slice)` on a slice that is not empty. -/
def sliceMax (slice : List ℚ) : ℚ :=
  match slice with
  | [] => 0
  | x :: rest => rest.foldl max x

/-- The stochastic value of one slice of RSI values; `rsiValues[i]` is its last entry. -/
def stochOfSlice (rsiSlice : List ℚ) : ℚ :=
  let minRsi := sliceMin rsiSlice
  let maxRsi := sliceMax rsiSlice
  match rsiSlice.getLast? with
  | some cur => if maxRsi ≠ minRsi then (cur - minRsi) / (maxRsi - minRsi) * 100 else 50
  | none => 50

/-- Expression `xs.length >= period ? xs.slice(-period).reduce((a, b) => a + b) / period :
xs[xs.length - 1] || 50`. -/
def smaOrLast (xs : List ℚ) (period : Nat) : ℚ :=
  if xs.length ≥ period then
    ((xs.drop (xs.length - period)).foldl (fun a b => a + b) (0 : ℚ)) / (period : ℚ)
  else
    match xs.getLast? with
    | some v => if v = 0 then 50 else v
    | none => 50

/-- Function `calculateStochasticRSI`. -/
def calculateStochasticRSI (prices : List ℚ) (rsiPeriod stochPeriod kPeriod dPeriod : Nat) :
    StochRsi :=
  if prices.length < rsiPeriod + stochPeriod - 1 then { J := 50, K := 50, D := 50 }
  else
    let rsiValues := (List.range (prices.length - rsiPeriod)).map
      (fun n => rsiOfSlice ((prices.drop n).take (rsiPeriod + 1)))
    let kValues := (List.range (rsiValues.length - (stochPeriod - 1))).map
      (fun n => stochOfSlice ((rsiValues.drop n).take stochPeriod))
    let k := smaOrLast kValues kPeriod
    let kSmooth := (List.range (kValues.length - (kPeriod - 1))).map
      (fun (n : Nat) =>
        (((kValues.drop n).take kPeriod).foldl (fun a b => a + b) (0 : ℚ)) / (kPeriod : ℚ))
    let d := smaOrLast kSmooth dPeriod
    { J := 3 * k - 2 * d, K := k, D := d }

/-- Function `calculateWilliamsR`. -/
def calculateWilliamsR (prices : List ℚ) (period : Nat) : ℚ :=
  if prices.length < period then -50
  else
    let slice := prices.drop (prices.length - period)
    let highest := sliceMax slice
    let lowest := sliceMin slice
    match slice.getLast? with
    | none => 0
    | some close =>
      if highest = lowest then 0
      else (close - highest) / (highest - lowest) * (-100)

/-- The object `{ ...calculateStochasticRSI(priceHistory), williams_R: ... }` that
`analyzeTimeframeSignal` destructures: its keys are `J`, `K`, `D` and `williams_R`. -/
structure SignalValues where
  J : ℚ
  K : ℚ
  D : ℚ
  williams_R : ℚ
deriving DecidableEq

/-- A property of that object read by name, as a destructuring pattern does: a key that
the object does not have reads `undefined` (`none`). -/
def SignalValues.get (o : SignalValues) (key : String) : Option ℚ :=
  if key = "J" then some o.J
  else if key = "K" then some o.K
  else if key = "D" then some o.D
  else if key = "williams_R" then some o.williams_R
  else none

/-- Operator `<` on numbers that may be `undefined`: `undefined` converts to `NaN` and the
comparison is false. -/
def jsLt (a b : Option ℚ) : Bool :=
  match a, b with
  | some x, some y => decide (x < y)
  | _, _ => false

/-- Operator `>` on numbers that may be `undefined`. -/
def jsGt (a b : Option ℚ) : Bool :=
  match a, b with
  | some x, some y => decide (x > y)
  | _, _ => false

/-- Function `analyzeTimeframeSignal` (the indicator periods are the defaults 14, 14, 3, 3
and 14). The destructuring pattern names `stochRsi_J`, `stochRsi_K` and `stochRsi_D`,
which are not keys of the object. -/
def analyzeTimeframeSignal (priceHistory : List ℚ) (strategy : MultiTimeframeStrategy) :
    Bool :=
  if priceHistory.length < 40 then false
  else
    let s := calculateStochasticRSI priceHistory 14 14 3 3
    let o : SignalValues :=
      { J := s.J, K := s.K, D := s.D, williams_R := calculateWilliamsR priceHistory 14 }
    let stochRsi_J := o.get "stochRsi_J"
    let stochRsi_K := o.get "stochRsi_K"
    let stochRsi_D := o.get "stochRsi_D"
    let williams_R := o.get "williams_R"
    let entry := strategy.entryConditions
    let jCondition := jsLt stochRsi_J (some entry.stochRsi_J_max)
    let kCondition := jsLt stochRsi_K (some entry.stochRsi_K_max) && jsLt stochRsi_K stochRsi_D
    let wrCondition := jsGt williams_R (some entry.williams_R_min)
    jCondition && kCondition && wrCondition

/-- The fields of the stored `TradePosition` that the decision reads. -/
structure TradePosition where
  entryPrice : ℚ
  buyAmount : ℚ
  inPosition : Bool
  lastSellPrice : Option ℚ
deriving DecidableEq

/-- The returned decision without its `reason` text; `price` is `none` when the first
history is empty (`undefined`). -/
structure StrategyResult where
  action : String
  price : Option ℚ
  amount : ℚ
  matchCount : Nat
deriving DecidableEq, Repr

/-- Parameter `priceHistoryByTimeframe`; an absent key reads `undefined`. -/
abbrev PriceHistories := String → Option (List ℚ)

/-- The loop that counts the matching timeframes. -/
def countMatches (histories : PriceHistories) (strategy : MultiTimeframeStrategy) : Nat :=
  strategy.timeframes.foldl (fun acc tf =>
    match histories tf with
    | none => acc
    | some prices =>
      if prices.length < 40 then acc
      else if analyzeTimeframeSignal prices strategy then acc + 1 else acc) 0

/-- Test `!position || !position.inPosition`. -/
def notInPosition (position : Option TradePosition) : Bool :=
  match position with
  | none => true
  | some p => !p.inPosition

/-- Function `runMultiTimeframeStrategy` as a function of the wallet balance, the price
histories, the strategy and the stored position (`none`: no readable position file).
The result is `none` when the call throws because the first timeframe has no history.
The writes to the position file are not part of the result. -/
def runMultiTimeframeStrategy (walletBalance : ℚ) (histories : PriceHistories)
    (strategy : MultiTimeframeStrategy) (position : Option TradePosition) :
    Option StrategyResult :=
  let capital := walletBalance * strategy.capitalPercent
  let firstKey : String :=
    match strategy.timeframes with
    | tf :: _ => tf
    | [] => "undefined"
  match histories firstKey with
  | none => none
  | some first =>
    let currentPrice : Option ℚ := first.getLast?
    let matchCount := countMatches histories strategy
    if notInPosition position then
      if (matchCount : ℚ) ≥ strategy.minMatchingTimeframes then
        some { action := "BUY", price := currentPrice, amount := capital,
               matchCount := matchCount }
      else
        some { action := "WAIT", price := currentPrice, amount := 0, matchCount := matchCount }
    else
      match position, currentPrice with
      | some p, some cp =>
        let priceChange := (cp - p.entryPrice) / p.entryPrice
        if p.entryPrice ≠ 0 ∧ priceChange ≥ strategy.takeProfitRange.min ∧
            priceChange ≤ strategy.takeProfitRange.max then
          some { action := "SELL", price := currentPrice, amount := p.buyAmount,
                 matchCount := matchCount }
        else if (match truthyRat p.lastSellPrice with
            | some l => decide (cp ≤ l * (1 + strategy.reinvestLoss))
            | none => false) then
          some { action := "REINVEST", price := currentPrice, amount := p.buyAmount,
                 matchCount := matchCount }
        else
          some { action := "WAIT", price := currentPrice, amount := 0,
                 matchCount := matchCount }
      | _, _ =>
        some { action := "WAIT", price := currentPrice, amount := 0, matchCount := matchCount }

/-- A history of 40 prices: 36 rising by 1 from 100, then 4 falling by 2. -/
def dipHistory : List ℚ :=
  (List.range 36).map (fun (i : Nat) => (100 : ℚ) + (i : ℚ)) ++ [133, 131, 129, 127]

/-- A history of 40 equal prices. -/
def flatHistory : List ℚ := List.replicate 40 100

/-- Histories for the four default timeframes: the first `n` hold `dipHistory`, the
others `flatHistory`. -/
def sampleHistories (n : Nat) : PriceHistories := fun tf =>
  match ["5m", "15m", "4h", "8h"].indexOf? tf with
  | some i => if i < n then some dipHistory else some flatHistory
  | none => none

/-- A configured timeframe matches: it has a history of at least 40 prices that satisfies
`analyzeTimeframeSignal`. -/
def timeframeMatches (histories : PriceHistories) (strategy : MultiTimeframeStrategy)
    (tf : String) : Bool :=
  match histories tf with
  | some prices => decide (prices.length ≥ 40) && analyzeTimeframeSignal prices strategy
  | none => false

/-! ### Readiness watcher (`ProgramFSM`)

The source of the watcher, `program_fsm_watcher.js`, is not among the source files; only
its test driver `run_fsm_integration_test.js` is. The definitions of this section follow
section 4.2 of the specification. -/

/-- Modelled from the spec: the record that the watcher `ProgramFSM` keeps per entity (the
class itself is missing from the sources): the probe bits, the ledger mask last reported
by the signal engine, and the one-shot latch. -/
structure FsmEntity where
  mask : Nat
  ledgerMask : Nat
  triggered : Bool
deriving DecidableEq

/-- Modelled from the spec: the two kinds of update of the watcher `ProgramFSM`, a probe
result (the probe bits of an entity) and a signal-engine update (its ledger mask). -/
inductive FsmUpdate where
  | probe (entityKey : String) (mask : Nat)
  | signal (entityKey : String) (ledgerMask : Nat)
deriving DecidableEq

/-- Modelled from the spec: the entity that an update of `ProgramFSM` is about. -/
def FsmUpdate.entityKey : FsmUpdate → String
  | FsmUpdate.probe k _ => k
  | FsmUpdate.signal k _ => k

/-- Modelled from the spec: the trigger event of `ProgramFSM`, with the masks and the
score at the moment of the trigger. -/
structure FsmTrigger where
  entityKey : String
  mask : Nat
  ledgerMask : Nat
  score : ℚ
deriving DecidableEq

/-- Modelled from the spec: the states of an entity in `ProgramFSM`. -/
inductive ReadyState where
  | unknown
  | probing
  | ready
deriving DecidableEq

/-- Modelled from the spec: the record of an entity before an update of `ProgramFSM`; an
entity without a record has no bits and an open latch. -/
def ProgramFSM.recordOf (states : List (String × FsmEntity)) (entityKey : String) :
    FsmEntity :=
  match mget states entityKey with
  | some s => s
  | none => { mask := 0, ledgerMask := 0, triggered := false }

/-- Modelled from the spec: the record of `ProgramFSM` with the evidence of an update
taken in; the latch is not touched. -/
def ProgramFSM.absorb (prev : FsmEntity) (u : FsmUpdate) : FsmEntity :=
  match u with
  | FsmUpdate.probe _ m => { prev with mask := m }
  | FsmUpdate.signal _ l => { prev with ledgerMask := l }

/-- Modelled from the spec: the test of `ProgramFSM` for the emission of a trigger: the
latch is open and the trigger decision, recomputed from the record, is true. -/
def ProgramFSM.fires (threshold : ℚ) (cur : FsmEntity) : Bool :=
  !cur.triggered &&
    AnalyzeRawEvents.triggered cur.mask cur.ledgerMask (ledgerStrongOf cur.ledgerMask) threshold

/-- Modelled from the spec: the transition rule of `ProgramFSM`. On each probe result or
signal update the score and the trigger decision are recomputed; the first update at
which the decision is true sets the latch of the entity and emits one trigger event, and
an entity whose latch is set emits nothing. The result is the new table and the events
emitted by this update. -/
def ProgramFSM.update (threshold : ℚ) (states : List (String × FsmEntity)) (u : FsmUpdate) :
    List (String × FsmEntity) × List FsmTrigger :=
  let cur := ProgramFSM.absorb (ProgramFSM.recordOf states u.entityKey) u
  if ProgramFSM.fires threshold cur then
    (mset states u.entityKey { cur with triggered := true },
      [{ entityKey := u.entityKey, mask := cur.mask, ledgerMask := cur.ledgerMask,
         score := AnalyzeRawEvents.scoreFromMask cur.mask cur.ledgerMask }])
  else (mset states u.entityKey cur, [])

/-- Modelled from the spec: a run of `ProgramFSM` over a sequence of updates, with the
trigger events in the order of their emission. -/
def ProgramFSM.run (threshold : ℚ) :
    List (String × FsmEntity) → List FsmUpdate → List (String × FsmEntity) × List FsmTrigger
  | states, [] => (states, [])
  | states, u :: rest =>
    let r := ProgramFSM.update threshold states u
    let tl := ProgramFSM.run threshold r.1 rest
    (tl.1, r.2 ++ tl.2)

/-- Modelled from the spec: the state of an entity in `ProgramFSM`: `unknown` without a
record, `ready` once triggered, `probing` otherwise. -/
def ProgramFSM.stateOf (states : List (String × FsmEntity)) (entityKey : String) :
    ReadyState :=
  match mget states entityKey with
  | none => ReadyState.unknown
  | some s => if s.triggered then ReadyState.ready else ReadyState.probing

/-- The trigger events of a list that are about one entity. -/
def triggersFor (events : List FsmTrigger) (entityKey : String) : List FsmTrigger :=
  events.filter (fun t => decide (t.entityKey = entityKey))

/-! ## Theorems -/

theorem checkOrder_not_pending (currentPrices : Prices) (cb : Option ExecuteCallback)
    (now : Nat) (order : PendingOrder) (h : order.status ≠ OrderStatus.pending) :
    checkOrder currentPrices cb now order = (order, none) := by
  simp [checkOrder, h]

theorem executedOk_of_true (cb : Option ExecuteCallback)
    (hcb : ∀ f, cb = some f → ∀ o p, f o p = CallbackOutcome.resolved true)
    (order : PendingOrder) (c : ℚ) : executedOk cb order c = true := by
  cases cb with
  | none => rfl
  | some f => simp [executedOk, hcb f rfl order c]

theorem shouldExecute_iff (order : PendingOrder) (c : ℚ) :
    shouldExecute order c = true ↔
      ((order.type = OrderType.buy ∧ c ≤ order.triggerPrice) ∨
        ((order.type = OrderType.sell ∨ order.type = OrderType.stoploss) ∧
          c ≥ order.triggerPrice)) := by
  unfold shouldExecute
  cases h : order.type <;> simp

theorem checkOrder_spec (currentPrices : Prices) (cb : Option ExecuteCallback)
    (hcb : ∀ f, cb = some f → ∀ o p, f o p = CallbackOutcome.resolved true)
    (now : Nat) (order : PendingOrder) (c : ℚ)
    (hp : order.status = OrderStatus.pending) (hc : currentPrices order.token = some c)
    (hc0 : c ≠ 0) :
    (((checkOrder currentPrices cb now order).1.status = OrderStatus.executed ∧
        (checkOrder currentPrices cb now order).1.executedPrice = some c) ↔
      shouldExecute order c = true) := by
  by_cases hs : shouldExecute order c = true
  · simp [checkOrder, hp, hc, hc0, hs, executedOk_of_true cb hcb]
  · simp [checkOrder, hp, hc, hc0, hs]

theorem checkOrder_trade_iff (currentPrices : Prices) (cb : Option ExecuteCallback)
    (now : Nat) (order : PendingOrder) :
    ((checkOrder currentPrices cb now order).2.isSome = true ↔
      (order.status = OrderStatus.pending ∧
        (checkOrder currentPrices cb now order).1.status = OrderStatus.executed)) := by
  unfold checkOrder
  by_cases hp : order.status = OrderStatus.pending
  · cases hc : currentPrices order.token with
    | none => simp [hp]
    | some c =>
      by_cases hc0 : c = 0
      · simp [hp, hc0]
      · by_cases hs : shouldExecute order c = true
        · by_cases he : executedOk cb order c = true
          · simp [hp, hc0, hs, he]
          · simp [hp, hc0, hs, he]
        · simp [hp, hc0, hs]
  · simp [hp]

theorem checkLoop_length (currentPrices : Prices) (cb : Option ExecuteCallback)
    (clock : Nat → Nat) (orders : List PendingOrder) (i : Nat) :
    (checkLoop currentPrices cb clock i orders).orders.length = orders.length := by
  induction orders generalizing i with
  | nil => rfl
  | cons o rest ih => simp [checkLoop, ih]

theorem checkLoop_zip (currentPrices : Prices) (cb : Option ExecuteCallback)
    (clock : Nat → Nat) (orders : List PendingOrder) (i : Nat) (p : PendingOrder × PendingOrder)
    (hmem : p ∈ List.zip orders (checkLoop currentPrices cb clock i orders).orders) :
    ∃ now, p.2 = (checkOrder currentPrices cb now p.1).1 := by
  induction orders generalizing i with
  | nil => simp [checkLoop] at hmem
  | cons o rest ih =>
    simp only [checkLoop, List.zip_cons_cons, List.mem_cons] at hmem
    rcases hmem with h | h
    · exact ⟨clock i, by rw [h]⟩
    · exact ih (i + 1) h

theorem checkLoop_executed (currentPrices : Prices) (cb : Option ExecuteCallback)
    (clock : Nat → Nat) (orders : List PendingOrder) (i : Nat) :
    (checkLoop currentPrices cb clock i orders).executed =
      executedInCall orders (checkLoop currentPrices cb clock i orders).orders := by
  induction orders generalizing i with
  | nil => rfl
  | cons o rest ih =>
    have hiff := checkOrder_trade_iff currentPrices cb (clock i) o
    simp only [checkLoop, executedInCall, List.zip_cons_cons, List.filterMap_cons]
    cases h2 : (checkOrder currentPrices cb (clock i) o).2 with
    | none =>
      have hn : ¬ (o.status = OrderStatus.pending ∧
          (checkOrder currentPrices cb (clock i) o).1.status = OrderStatus.executed) := by
        intro hh
        have := hiff.mpr hh
        simp [h2] at this
      simp only [hn, if_false]
      exact ih (i + 1)
    | some t =>
      have hy : o.status = OrderStatus.pending ∧
          (checkOrder currentPrices cb (clock i) o).1.status = OrderStatus.executed :=
        hiff.mp (by simp [h2])
      simp only [hy, and_self, if_true]
      rw [ih (i + 1)]
      rfl

/-- C1: with no callback, or a callback that always returns true, a pending order whose
token has a non-zero current price `c` ends up `executed` with `executedPrice = c` exactly
when it is a buy with `c ≤ triggerPrice` or a sell / stop-loss with `c ≥ triggerPrice`;
the returned list is exactly the orders that this call moved to `executed`. -/
theorem checkAndExecutePendingOrders_matching (orders : List PendingOrder)
    (currentPrices : Prices) (cb : Option ExecuteCallback) (clock : Nat → Nat)
    (hcb : ∀ f, cb = some f → ∀ o p, f o p = CallbackOutcome.resolved true) :
    (checkAndExecutePendingOrders orders currentPrices cb clock).orders.length = orders.length ∧
    (∀ p ∈ List.zip orders (checkAndExecutePendingOrders orders currentPrices cb clock).orders,
      p.1.status = OrderStatus.pending →
      ∀ c : ℚ, currentPrices p.1.token = some c → c ≠ 0 →
        ((p.2.status = OrderStatus.executed ∧ p.2.executedPrice = some c) ↔
          ((p.1.type = OrderType.buy ∧ c ≤ p.1.triggerPrice) ∨
            ((p.1.type = OrderType.sell ∨ p.1.type = OrderType.stoploss) ∧
              c ≥ p.1.triggerPrice)))) ∧
    (checkAndExecutePendingOrders orders currentPrices cb clock).executed =
      executedInCall orders (checkAndExecutePendingOrders orders currentPrices cb clock).orders := by
  refine ⟨checkLoop_length _ _ _ _ _, ?_, checkLoop_executed _ _ _ _ _⟩
  intro p hmem hp c hc hc0
  obtain ⟨now, hnow⟩ := checkLoop_zip currentPrices cb clock orders 0 p hmem
  rw [hnow, checkOrder_spec currentPrices cb hcb now p.1 c hp hc hc0, shouldExecute_iff]

/-- C1 witness: a sell with trigger 103 executes at price 105, one with trigger 110 does
not, and only the first is returned. -/
theorem checkAndExecutePendingOrders_matching_witness :
    (∀ f : ExecuteCallback, (none : Option ExecuteCallback) = some f →
      ∀ o p, f o p = CallbackOutcome.resolved true) ∧
    ((checkAndExecutePendingOrders [sampleSell 103, sampleSell 110] samplePrices none
        (fun _ => 7)).orders.length = [sampleSell 103, sampleSell 110].length ∧
    (∀ p ∈ List.zip [sampleSell 103, sampleSell 110]
        (checkAndExecutePendingOrders [sampleSell 103, sampleSell 110] samplePrices none
          (fun _ => 7)).orders,
      p.1.status = OrderStatus.pending →
      ∀ c : ℚ, samplePrices p.1.token = some c → c ≠ 0 →
        ((p.2.status = OrderStatus.executed ∧ p.2.executedPrice = some c) ↔
          ((p.1.type = OrderType.buy ∧ c ≤ p.1.triggerPrice) ∨
            ((p.1.type = OrderType.sell ∨ p.1.type = OrderType.stoploss) ∧
              c ≥ p.1.triggerPrice)))) ∧
    (checkAndExecutePendingOrders [sampleSell 103, sampleSell 110] samplePrices none
        (fun _ => 7)).executed =
      executedInCall [sampleSell 103, sampleSell 110]
        (checkAndExecutePendingOrders [sampleSell 103, sampleSell 110] samplePrices none
          (fun _ => 7)).orders) :=
  ⟨(fun _ h => by cases h),
    checkAndExecutePendingOrders_matching [sampleSell 103, sampleSell 110] samplePrices none
      (fun _ => 7) (fun _ h => by cases h)⟩

theorem sampleSell_eval : ((checkAndExecutePendingOrders [sampleSell 103, sampleSell 110] samplePrices none
    (fun _ => 7)).executed.map (fun o => o.triggerPrice)) = [103] := by
  decide

/-! ### Association lists -/

theorem mget_mset_same {κ ν : Type} [DecidableEq κ] (m : List (κ × ν)) (k : κ) (v : ν) :
    mget (mset m k v) k = some v := by
  induction m with
  | nil => simp [mset, mget]
  | cons p rest ih =>
    by_cases h : p.1 = k
    · simp [mset, mget, h]
    · simp [mset, mget, h, ih]

theorem mget_mset_other {κ ν : Type} [DecidableEq κ] (m : List (κ × ν)) (k k' : κ) (v : ν)
    (hne : k ≠ k') : mget (mset m k v) k' = mget m k' := by
  induction m with
  | nil => simp [mset, mget, hne]
  | cons p rest ih =>
    by_cases h : p.1 = k
    · have h' : ¬ p.1 = k' := fun e => hne (h.symm.trans e)
      simp [mset, mget, h, h', hne]
    · by_cases h2 : p.1 = k'
      · rw [mset, if_neg h, mget, if_pos h2, mget, if_pos h2]
      · rw [mset, if_neg h, mget, if_neg h2, mget, if_neg h2, ih]

theorem mget_mdel_same {κ ν : Type} [DecidableEq κ] (m : List (κ × ν)) (k : κ) :
    mget (mdel m k) k = none := by
  induction m with
  | nil => simp [mdel, mget]
  | cons p rest ih =>
    unfold mdel at ih ⊢
    by_cases h : p.1 = k
    · rw [List.filter_cons_of_neg (by simp [h])]
      exact ih
    · rw [List.filter_cons_of_pos (by simp [h])]
      simp only [mget, h, if_false]
      exact ih

theorem mget_mdel_other {κ ν : Type} [DecidableEq κ] (m : List (κ × ν)) (k k' : κ)
    (hne : k ≠ k') : mget (mdel m k) k' = mget m k' := by
  induction m with
  | nil => simp [mdel, mget]
  | cons p rest ih =>
    unfold mdel at ih ⊢
    by_cases h : p.1 = k
    · have h' : ¬ p.1 = k' := fun e => hne (h.symm.trans e)
      rw [List.filter_cons_of_neg (by simp [h])]
      simp only [mget, h', if_false]
      exact ih
    · rw [List.filter_cons_of_pos (by simp [h])]
      by_cases h2 : p.1 = k'
      · simp only [mget, h2, if_true]
      · simp only [mget, h2, if_false]
        exact ih

/-! ### Attempt limiter -/

theorem canAttempt_fst (attempts : Attempts) (userId : UserId) (command : String)
    (maxAttempts resetAfterMs now : Int) :
    (canAttempt attempts userId command maxAttempts resetAfterMs now).1 =
      (attemptStep (lookupAttempt attempts userId.toKey command)
        maxAttempts resetAfterMs now).1 := by
  unfold canAttempt lookupAttempt attemptStep
  cases h : mget attempts userId.toKey with
  | none => simp only [h, mget]
  | some um =>
    simp only [h]
    cases h2 : mget um command with
    | none => simp only [h2]
    | some r =>
      simp only [h2]
      by_cases h3 : now - r.lastTs > resetAfterMs
      · simp only [h3, if_true]
      · by_cases h4 : r.count ≥ maxAttempts
        · simp only [h3, h4, if_true, if_false]
        · simp only [h3, h4, if_false]

theorem canAttempt_lookup_same (attempts : Attempts) (userId : UserId) (command : String)
    (maxAttempts resetAfterMs now : Int) :
    lookupAttempt (canAttempt attempts userId command maxAttempts resetAfterMs now).2
        userId.toKey command =
      some (attemptStep (lookupAttempt attempts userId.toKey command)
        maxAttempts resetAfterMs now).2 := by
  unfold canAttempt lookupAttempt attemptStep
  cases h : mget attempts userId.toKey with
  | none => simp [h, mget, mget_mset_same]
  | some um =>
    simp only [h]
    cases h2 : mget um command with
    | none => simp only [h2, mget_mset_same]
    | some r =>
      simp only [h2]
      by_cases h3 : now - r.lastTs > resetAfterMs
      · simp only [h3, if_true, mget_mset_same]
      · by_cases h4 : r.count ≥ maxAttempts
        · simp only [h3, h4, if_true, if_false, h, h2]
        · simp only [h3, h4, if_false, mget_mset_same]

theorem canAttempt_lookup_other (attempts : Attempts) (userId : UserId) (command : String)
    (maxAttempts resetAfterMs now : Int) (uid' command' : String)
    (hne : ¬ (uid' = userId.toKey ∧ command' = command)) :
    lookupAttempt (canAttempt attempts userId command maxAttempts resetAfterMs now).2
        uid' command' = lookupAttempt attempts uid' command' := by
  by_cases hu : userId.toKey = uid'
  · subst hu
    have hc : command ≠ command' := fun e => hne ⟨rfl, e.symm⟩
    unfold canAttempt lookupAttempt
    cases h : mget attempts userId.toKey with
    | none => simp [h, mget, mget_mset_same, hc]
    | some um =>
      simp only [h]
      cases h2 : mget um command with
      | none => simp only [h2, mget_mset_same, mget_mset_other _ _ _ _ hc]
      | some r =>
        simp only [h2]
        by_cases h3 : now - r.lastTs > resetAfterMs
        · simp only [h3, if_true, mget_mset_same, mget_mset_other _ _ _ _ hc]
        · by_cases h4 : r.count ≥ maxAttempts
          · simp only [h3, h4, if_true, if_false, h]
          · simp only [h3, h4, if_false, mget_mset_same, mget_mset_other _ _ _ _ hc]
  · unfold canAttempt lookupAttempt
    cases h : mget attempts userId.toKey with
    | none =>
      simp only [h, mget, mget_mset_other _ _ _ _ hu]
    | some um =>
      simp only [h]
      cases h2 : mget um command with
      | none => simp only [h2, mget_mset_other _ _ _ _ hu]
      | some r =>
        simp only [h2]
        by_cases h3 : now - r.lastTs > resetAfterMs
        · simp only [h3, if_true, mget_mset_other _ _ _ _ hu]
        · by_cases h4 : r.count ≥ maxAttempts
          · simp only [h3, h4, if_true, if_false]
          · simp only [h3, h4, if_false, mget_mset_other _ _ _ _ hu]

theorem clearAttempts_lookup_same (attempts : Attempts) (userId : UserId) (command : String) :
    lookupAttempt (clearAttempts attempts userId command) userId.toKey command = none := by
  unfold clearAttempts lookupAttempt
  cases h : mget attempts userId.toKey with
  | none => simp only [h]
  | some um => simp only [h, mget_mset_same, mget_mdel_same]

theorem clearAttempts_lookup_other (attempts : Attempts) (userId : UserId) (command : String)
    (uid' command' : String) (hne : ¬ (uid' = userId.toKey ∧ command' = command)) :
    lookupAttempt (clearAttempts attempts userId command) uid' command' =
      lookupAttempt attempts uid' command' := by
  unfold clearAttempts lookupAttempt
  cases h : mget attempts userId.toKey with
  | none => simp only [h]
  | some um =>
    simp only [h]
    by_cases hu : userId.toKey = uid'
    · subst hu
      have hc : command ≠ command' := fun e => hne ⟨rfl, e.symm⟩
      simp only [mget_mset_same, mget_mdel_other _ _ _ hc, h]
    · simp only [mget_mset_other _ _ _ _ hu]

theorem runAttempts_in_window (userId : UserId) (command : String)
    (maxAttempts resetAfterMs t0 : Int) (ts : List Int) :
    ∀ (attempts : Attempts) (c l : Int),
      lookupAttempt attempts userId.toKey command = some { count := c, lastTs := l } →
      t0 ≤ l → List.Pairwise (fun a b => a ≤ b) (l :: ts) →
      (∀ t ∈ ts, t - t0 ≤ resetAfterMs) →
      (runAttempts attempts userId command maxAttempts resetAfterMs ts).1 =
        (List.range ts.length).map (fun (i : Nat) => decide (c + (i : Int) < maxAttempts)) := by
  induction ts with
  | nil => intro attempts c l _ _ _ _; rfl
  | cons t rest ih =>
    intro attempts c l hl h0 hp hw
    have hlt : l ≤ t := (List.pairwise_cons.mp hp).1 t (List.mem_cons_self _ _)
    have hrest : List.Pairwise (fun a b => a ≤ b) (t :: rest) := (List.pairwise_cons.mp hp).2
    have hlrest : List.Pairwise (fun a b => a ≤ b) (l :: rest) :=
      List.pairwise_cons.mpr ⟨fun a ha => (List.pairwise_cons.mp hp).1 a (List.mem_cons_of_mem _ ha),
        (List.pairwise_cons.mp hrest).2⟩
    have hwt : t - t0 ≤ resetAfterMs := hw t (List.mem_cons_self _ _)
    have hnr : ¬ (t - l > resetAfterMs) := by omega
    have hw' : ∀ a ∈ rest, a - t0 ≤ resetAfterMs := fun a ha => hw a (List.mem_cons_of_mem _ ha)
    have h1 := canAttempt_fst attempts userId command maxAttempts resetAfterMs t
    have h2 := canAttempt_lookup_same attempts userId command maxAttempts resetAfterMs t
    rw [hl] at h1 h2
    simp only [runAttempts, List.length_cons, List.range_succ_eq_map, List.map_cons,
      List.map_map]
    by_cases hc : c ≥ maxAttempts
    · simp only [attemptStep, hnr, hc, if_true, if_false] at h1 h2
      rw [h1, ih _ c l h2 h0 hlrest hw']
      congr 1
      · simp only [Nat.cast_zero, add_zero]
        exact (decide_eq_false (by omega)).symm
      · apply List.map_congr_left
        intro i _
        simp only [Function.comp, Nat.cast_succ]
        rw [decide_eq_false (by omega), decide_eq_false (by omega)]
    · simp only [attemptStep, hnr, hc, if_false] at h1 h2
      rw [h1, ih _ (c + 1) t h2 (le_trans h0 hlt) hrest hw']
      congr 1
      · simp only [Nat.cast_zero, add_zero]
        exact (decide_eq_true (by omega)).symm
      · apply List.map_congr_left
        intro i _
        simp only [Function.comp, Nat.cast_succ]
        congr 1
        apply propext
        constructor <;> intro h <;> omega

/-- C2: from no record, with `maxAttempts ≥ 1` and calls at non-decreasing times that all
lie within `resetAfterMs` of the first call, call number `i` (counting from 0) returns
`true` exactly when `i < maxAttempts`. -/
theorem canAttempt_first_maxAttempts (attempts : Attempts) (userId : UserId)
    (command : String) (maxAttempts resetAfterMs t0 : Int) (ts : List Int)
    (hnone : lookupAttempt attempts userId.toKey command = none)
    (hmax : 1 ≤ maxAttempts)
    (hsorted : List.Pairwise (fun a b => a ≤ b) (t0 :: ts))
    (hwin : ∀ t ∈ ts, t - t0 ≤ resetAfterMs) :
    (runAttempts attempts userId command maxAttempts resetAfterMs (t0 :: ts)).1 =
      (List.range (ts.length + 1)).map (fun (i : Nat) => decide ((i : Int) < maxAttempts)) := by
  have h1 := canAttempt_fst attempts userId command maxAttempts resetAfterMs t0
  have h2 := canAttempt_lookup_same attempts userId command maxAttempts resetAfterMs t0
  rw [hnone] at h1 h2
  simp only [attemptStep] at h1 h2
  simp only [runAttempts, List.range_succ_eq_map, List.map_cons, List.map_map]
  rw [h1, runAttempts_in_window userId command maxAttempts resetAfterMs t0 ts _ 1 t0 h2
    (le_refl _) hsorted hwin]
  congr 1
  · simp only [Nat.cast_zero]
    exact (decide_eq_true (by omega)).symm
  · apply List.map_congr_left
    intro i _
    simp only [Function.comp, Nat.cast_succ]
    congr 1
    apply propext
    constructor <;> intro h <;> omega

/-- C2 witness: budget 3, window 1000, calls at 0, 10, 20, 30, 1000. -/
theorem canAttempt_first_maxAttempts_witness :
    (runAttempts [] (UserId.num 42) "trade" 3 1000 [0, 10, 20, 30, 1000]).1 =
      (List.range 5).map (fun (i : Nat) => decide ((i : Int) < 3)) :=
  canAttempt_first_maxAttempts [] (UserId.num 42) "trade" 3 1000 0 [10, 20, 30, 1000]
    rfl (by decide) (by decide) (by decide)

theorem attemptStep_allowed_lastTs (rec : Option AttemptRecord)
    (maxAttempts resetAfterMs now : Int)
    (h : (attemptStep rec maxAttempts resetAfterMs now).1 = true) :
    (attemptStep rec maxAttempts resetAfterMs now).2.lastTs = now := by
  unfold attemptStep at h ⊢
  cases rec with
  | none => rfl
  | some r =>
    by_cases h3 : now - r.lastTs > resetAfterMs
    · simp only [h3, if_true]
    · by_cases h4 : r.count ≥ maxAttempts
      · simp [h3, h4] at h
      · simp only [h3, h4, if_false]

theorem attemptStep_denied (rec : Option AttemptRecord)
    (maxAttempts resetAfterMs now : Int)
    (h : (attemptStep rec maxAttempts resetAfterMs now).1 = false) :
    some (attemptStep rec maxAttempts resetAfterMs now).2 = rec := by
  unfold attemptStep at h ⊢
  cases rec with
  | none => simp at h
  | some r =>
    by_cases h3 : now - r.lastTs > resetAfterMs
    · simp [h3] at h
    · by_cases h4 : r.count ≥ maxAttempts
      · simp only [h3, h4, if_true, if_false]
      · simp [h3, h4] at h

theorem runAttempts_lookup_of_none (userId : UserId) (command : String)
    (maxAttempts resetAfterMs : Int) (ts : List Int) :
    ∀ attempts : Attempts,
      lastAllowed ts (runAttempts attempts userId command maxAttempts resetAfterMs ts).1 = none →
      lookupAttempt (runAttempts attempts userId command maxAttempts resetAfterMs ts).2
        userId.toKey command = lookupAttempt attempts userId.toKey command := by
  induction ts with
  | nil => intro attempts _; rfl
  | cons t rest ih =>
    intro attempts h
    simp only [runAttempts, lastAllowed] at h ⊢
    cases hr : lastAllowed rest (runAttempts
        (canAttempt attempts userId command maxAttempts resetAfterMs t).2 userId command
        maxAttempts resetAfterMs rest).1 with
    | some l => rw [hr] at h; simp at h
    | none =>
      rw [hr] at h
      have hf : (canAttempt attempts userId command maxAttempts resetAfterMs t).1 = false := by
        cases hb : (canAttempt attempts userId command maxAttempts resetAfterMs t).1 with
        | false => rfl
        | true => rw [hb] at h; simp at h
      rw [ih _ hr, canAttempt_lookup_same]
      rw [canAttempt_fst] at hf
      exact attemptStep_denied _ _ _ _ hf

theorem runAttempts_lastTs (userId : UserId) (command : String)
    (maxAttempts resetAfterMs : Int) (ts : List Int) :
    ∀ (attempts : Attempts) (tl : Int),
      lastAllowed ts (runAttempts attempts userId command maxAttempts resetAfterMs ts).1 =
        some tl →
      ∃ r, lookupAttempt (runAttempts attempts userId command maxAttempts resetAfterMs ts).2
        userId.toKey command = some r ∧ r.lastTs = tl := by
  induction ts with
  | nil => intro attempts tl h; simp [runAttempts, lastAllowed] at h
  | cons t rest ih =>
    intro attempts tl h
    simp only [runAttempts, lastAllowed] at h ⊢
    cases hr : lastAllowed rest (runAttempts
        (canAttempt attempts userId command maxAttempts resetAfterMs t).2 userId command
        maxAttempts resetAfterMs rest).1 with
    | some l =>
      rw [hr] at h
      simp only [Option.some.injEq] at h
      subst h
      exact ih _ _ hr
    | none =>
      rw [hr] at h
      cases hb : (canAttempt attempts userId command maxAttempts resetAfterMs t).1 with
      | false => rw [hb] at h; simp at h
      | true =>
        rw [hb] at h
        simp only [if_true, Option.some.injEq] at h
        subst h
        rw [runAttempts_lookup_of_none userId command maxAttempts resetAfterMs rest _ hr,
          canAttempt_lookup_same]
        rw [canAttempt_fst] at hb
        exact ⟨_, rfl, attemptStep_allowed_lastTs _ _ _ _ hb⟩

/-- C3 (as stated) fails: with budget 3 and window 1000, after allowed attempts at
t = 0, 400, 800 the call at t = 1001, more than 1000 ms after the first attempt of the
window, is denied. -/
theorem canAttempt_window_from_first_counterexample :
    (runAttempts [] (UserId.str "u") "trade" 3 1000 [0, 400, 800]).1 = [true, true, true] ∧
    (1001 : Int) - 0 > 1000 ∧
    (canAttempt (runAttempts [] (UserId.str "u") "trade" 3 1000 [0, 400, 800]).2
      (UserId.str "u") "trade" 3 1000 1001).1 = false := by
  decide

/-- C3 (amended): the window is measured from the last allowed attempt. After any run of
`canAttempt` calls, a call made more than `resetAfterMs` after the most recent call that
returned `true` returns `true` and restarts the record at count 1 with `lastTs = now`. -/
theorem canAttempt_resets_after_last_allowed (attempts : Attempts) (userId : UserId)
    (command : String) (maxAttempts resetAfterMs : Int) (ts : List Int) (tl now : Int)
    (hlast : lastAllowed ts
      (runAttempts attempts userId command maxAttempts resetAfterMs ts).1 = some tl)
    (hgt : now - tl > resetAfterMs) :
    (canAttempt (runAttempts attempts userId command maxAttempts resetAfterMs ts).2
        userId command maxAttempts resetAfterMs now).1 = true ∧
    lookupAttempt
      (canAttempt (runAttempts attempts userId command maxAttempts resetAfterMs ts).2
        userId command maxAttempts resetAfterMs now).2 userId.toKey command =
      some { count := 1, lastTs := now } := by
  obtain ⟨r, hr, hts⟩ := runAttempts_lastTs userId command maxAttempts resetAfterMs ts
    attempts tl hlast
  subst hts
  rw [canAttempt_fst, canAttempt_lookup_same, hr]
  simp only [attemptStep, hgt, if_true, and_self]

/-- C3 witness: allowed attempts at 0, 400, 800 and a denied one at 1001; the call at
1801 is more than 1000 ms after the last allowed attempt. -/
theorem canAttempt_resets_after_last_allowed_witness :
    (canAttempt (runAttempts [] (UserId.str "u") "trade" 3 1000 [0, 400, 800, 1001]).2
        (UserId.str "u") "trade" 3 1000 1801).1 = true ∧
    lookupAttempt
      (canAttempt (runAttempts [] (UserId.str "u") "trade" 3 1000 [0, 400, 800, 1001]).2
        (UserId.str "u") "trade" 3 1000 1801).2 (UserId.str "u").toKey "trade" =
      some { count := 1, lastTs := 1801 } :=
  canAttempt_resets_after_last_allowed [] (UserId.str "u") "trade" 3 1000
    [0, 400, 800, 1001] 800 1801 (by decide) (by decide)

theorem runAttempts_budget (userId : UserId) (command : String)
    (maxAttempts resetAfterMs : Int) (ts : List Int) :
    ∀ (attempts : Attempts) (r : AttemptRecord),
      lookupAttempt attempts userId.toKey command = some r →
      r.count + (ts.length : Int) ≤ maxAttempts → 1 ≤ r.count →
      ∀ b ∈ (runAttempts attempts userId command maxAttempts resetAfterMs ts).1, b = true := by
  induction ts with
  | nil => intro attempts r _ _ _ b hb; simp [runAttempts] at hb
  | cons t rest ih =>
    intro attempts r hr hlen h1 b hb
    simp only [List.length_cons, Nat.cast_succ] at hlen
    have e1 := canAttempt_fst attempts userId command maxAttempts resetAfterMs t
    have e2 := canAttempt_lookup_same attempts userId command maxAttempts resetAfterMs t
    rw [hr] at e1 e2
    simp only [runAttempts, List.mem_cons] at hb
    by_cases h3 : t - r.lastTs > resetAfterMs
    · simp only [attemptStep, h3, if_true] at e1 e2
      rcases hb with hb | hb
      · rw [hb, e1]
      · exact ih _ _ e2 (by simp only; omega) (by simp only; omega) b hb
    · have h4 : ¬ (r.count ≥ maxAttempts) := by omega
      simp only [attemptStep, h3, h4, if_false] at e1 e2
      rcases hb with hb | hb
      · rw [hb, e1]
      · exact ih _ _ e2 (by simp only; omega) (by simp only; omega) b hb

/-- C6: after `clearAttempts(key, command)` the next `canAttempt` returns `true` at any
time, with `maxAttempts ≥ 1` the first `maxAttempts` calls after the clear all return
`true` (at any times), and `clearAttempts` removes the record of its own pair and leaves
the record of every other (normalised key, command) pair as it was. -/
theorem clearAttempts_restores_budget (attempts : Attempts) (userId : UserId)
    (command : String) (maxAttempts resetAfterMs t0 : Int) (ts : List Int)
    (hlen : (ts.length : Int) + 1 ≤ maxAttempts) :
    (∀ m r t : Int,
      (canAttempt (clearAttempts attempts userId command) userId command m r t).1 = true) ∧
    (∀ b ∈ (runAttempts (clearAttempts attempts userId command) userId command
        maxAttempts resetAfterMs (t0 :: ts)).1, b = true) ∧
    (∀ uid' command' : String,
      lookupAttempt (clearAttempts attempts userId command) uid' command' =
        if uid' = userId.toKey ∧ command' = command then none
        else lookupAttempt attempts uid' command') := by
  have hclr := clearAttempts_lookup_same attempts userId command
  refine ⟨?_, ?_, ?_⟩
  · intro m r t
    rw [canAttempt_fst, hclr]
    rfl
  · intro b hb
    have e1 := canAttempt_fst (clearAttempts attempts userId command) userId command
      maxAttempts resetAfterMs t0
    have e2 := canAttempt_lookup_same (clearAttempts attempts userId command) userId command
      maxAttempts resetAfterMs t0
    rw [hclr] at e1 e2
    simp only [attemptStep] at e1 e2
    simp only [runAttempts, List.mem_cons] at hb
    rcases hb with hb | hb
    · rw [hb, e1]
    · exact runAttempts_budget userId command maxAttempts resetAfterMs ts _ _ e2
        (by simp only; omega) (by simp only; omega) b hb
  · intro uid' command'
    by_cases h : uid' = userId.toKey ∧ command' = command
    · rw [if_pos h, h.1, h.2]
      exact hclr
    · rw [if_neg h]
      exact clearAttempts_lookup_other attempts userId command uid' command' h

/-- C6 witness: user 42 has exhausted `trade`; after the clear three more calls pass. -/
theorem clearAttempts_restores_budget_witness :
    (∀ m r t : Int,
      (canAttempt (clearAttempts sampleAttempts (UserId.num 42) "trade")
        (UserId.num 42) "trade" m r t).1 = true) ∧
    (∀ b ∈ (runAttempts (clearAttempts sampleAttempts (UserId.num 42) "trade")
        (UserId.num 42) "trade" 3 1000 (60 :: [70, 80])).1, b = true) ∧
    (∀ uid' command' : String,
      lookupAttempt (clearAttempts sampleAttempts (UserId.num 42) "trade") uid' command' =
        if uid' = (UserId.num 42).toKey ∧ command' = "trade" then none
        else lookupAttempt sampleAttempts uid' command') :=
  clearAttempts_restores_budget sampleAttempts (UserId.num 42) "trade" 3 1000 60 [70, 80]
    (by decide)

theorem sampleTrace_eval :
    (lockRun (sampleTrace.take 5)).started 1 = none ∧
    (lockRun sampleTrace).started 1 = some 200 ∧
    (lockRun sampleTrace).taskResult 0 = some (Settled.fulfilled "A") := by
  decide

/-! ### Exclusive queue -/

theorem fulfilled_iff (released : Nat → Bool) (p : PromiseRef) :
    fulfilled released p = true ↔ ∀ k ∈ chainIds p, released k = true := by
  induction p with
  | resolved => simp [fulfilled, chainIds]
  | next id => simp [fulfilled, chainIds]
  | thenNext prev id ih =>
    simp only [fulfilled, chainIds, Bool.and_eq_true, ih, List.mem_append,
      List.mem_singleton]
    constructor
    · rintro ⟨h1, h2⟩ k (hk | hk)
      · exact h1 k hk
      · rw [hk]; exact h2
    · intro h
      exact ⟨fun k hk => h k (Or.inl hk), h id (Or.inr rfl)⟩

theorem fulfilled_mono (r r' : Nat → Bool) (hr : ∀ k, r k = true → r' k = true)
    (p : PromiseRef) (h : fulfilled r p = true) : fulfilled r' p = true := by
  rw [fulfilled_iff] at h ⊢
  exact fun k hk => hr k (h k hk)

theorem finallyCleanup_eq (queues : List (String × PromiseRef)) (uid : String) (id : Nat)
    (hform : ∀ u q, mget queues u = some q → ∃ p i, q = PromiseRef.thenNext p i) :
    finallyCleanup queues uid id = queues := by
  unfold finallyCleanup
  cases h : mget queues uid with
  | none => rfl
  | some head =>
    obtain ⟨p, i, hq⟩ := hform uid head h
    simp [hq]

theorem getElem?_snoc {α : Type} (l : List α) (x c : α) (i : Nat) :
    (l ++ [x])[i]? = some c ↔ (l[i]? = some c ∨ (i = l.length ∧ c = x)) := by
  rcases Nat.lt_trichotomy i l.length with h | h | h
  · rw [List.getElem?_append_left h]
    constructor
    · exact Or.inl
    · rintro (h1 | ⟨h1, _⟩)
      · exact h1
      · omega
  · subst h
    rw [List.getElem?_append_right (le_refl _)]
    simp [eq_comm]
  · rw [List.getElem?_append_right (le_of_lt h)]
    have h1 : l[i]? = none := List.getElem?_eq_none (le_of_lt h)
    have h2 : ([x] : List α)[i - l.length]? = none :=
      List.getElem?_eq_none (by simp; omega)
    rw [h1, h2]
    constructor
    · intro hh; cases hh
    · rintro (hh | ⟨hh, _⟩)
      · cases hh
      · omega

theorem lockInv_init : LockInv LockState.init where
  chain_sub := by intro j c h; simp [LockState.init] at h
  chain_sup := by intro a b ca cb h; simp [LockState.init] at h
  queue_form := by intro u q h; simp [LockState.init, mget] at h
  queue_sub := by intro u q h; simp [LockState.init, mget] at h
  queue_sup := by intro a ca h; simp [LockState.init] at h
  started_fulfilled := by intro b cb h; simp [LockState.init] at h
  pending_task := by intro i _; exact ⟨rfl, rfl⟩
  unstarted := by intro i _; rfl
  started_lt := by intro i h; exact absurd rfl h
  released_cause := by intro i h; cases h

theorem lockInv_submit (s : LockState) (hs : LockInv s) (userId : UserId)
    (timeoutMs : Option Int) : LockInv (submit s userId timeoutMs) := by
  have hlen : ∀ k ck, s.calls[k]? = some ck → k < s.calls.length := by
    intro k ck h
    by_contra hcon
    rw [List.getElem?_eq_none (by omega)] at h
    cases h
  -- the chain read from the queue refers to exactly the earlier calls of this key
  have hprev_sub : ∀ k ∈ chainIds (match mget s.queues userId.toKey with
      | some q => q
      | none => PromiseRef.resolved),
      ∃ ck, s.calls[k]? = some ck ∧ ck.uid = userId.toKey := by
    intro k hk
    cases hq : mget s.queues userId.toKey with
    | none => rw [hq] at hk; simp [chainIds] at hk
    | some q => rw [hq] at hk; exact hs.queue_sub _ _ hq k hk
  have hprev_sup : ∀ a ca, s.calls[a]? = some ca → ca.uid = userId.toKey →
      a ∈ chainIds (match mget s.queues userId.toKey with
        | some q => q
        | none => PromiseRef.resolved) := by
    intro a ca ha hu
    obtain ⟨q, hq, hmem⟩ := hs.queue_sup a ca ha
    rw [hu] at hq
    rw [hq]
    exact hmem
  constructor
  · intro j c hj k hk
    simp only [submit] at hj
    rcases (getElem?_snoc _ _ _ _).mp hj with h | ⟨h1, h2⟩
    · obtain ⟨hlt, ck, hck, hu⟩ := hs.chain_sub j c h k hk
      exact ⟨hlt, ck, (getElem?_snoc _ _ _ _).mpr (Or.inl hck), hu⟩
    · subst h2
      obtain ⟨ck, hck, hu⟩ := hprev_sub k hk
      exact ⟨by rw [h1]; exact hlen k ck hck, ck, (getElem?_snoc _ _ _ _).mpr (Or.inl hck), hu⟩
  · intro a b ca cb ha hb hab hu
    simp only [submit] at ha hb
    rcases (getElem?_snoc _ _ _ _).mp hb with h | ⟨h1, h2⟩
    · have hbl := hlen b cb h
      rcases (getElem?_snoc _ _ _ _).mp ha with h' | ⟨h1', _⟩
      · exact hs.chain_sup a b ca cb h' h hab hu
      · omega
    · subst h2
      rcases (getElem?_snoc _ _ _ _).mp ha with h' | ⟨h1', _⟩
      · exact hprev_sup a ca h' hu
      · omega
  · intro u q hq
    simp only [submit] at hq
    by_cases hu : userId.toKey = u
    · subst hu
      rw [mget_mset_same] at hq
      exact ⟨_, _, (Option.some.inj hq).symm⟩
    · rw [mget_mset_other _ _ _ _ hu] at hq
      exact hs.queue_form u q hq
  · intro u q hq k hk
    simp only [submit] at hq ⊢
    by_cases hu : userId.toKey = u
    · subst hu
      rw [mget_mset_same] at hq
      have hq' := (Option.some.inj hq).symm
      subst hq'
      simp only [chainIds, List.mem_append, List.mem_singleton] at hk
      rcases hk with hk | hk
      · obtain ⟨ck, hck, hcu⟩ := hprev_sub k hk
        exact ⟨ck, (getElem?_snoc _ _ _ _).mpr (Or.inl hck), hcu⟩
      · exact ⟨_, (getElem?_snoc _ _ _ _).mpr (Or.inr ⟨hk, rfl⟩), rfl⟩
    · rw [mget_mset_other _ _ _ _ hu] at hq
      obtain ⟨ck, hck, hcu⟩ := hs.queue_sub u q hq k hk
      exact ⟨ck, (getElem?_snoc _ _ _ _).mpr (Or.inl hck), hcu⟩
  · intro a ca ha
    simp only [submit] at ha ⊢
    by_cases hu : userId.toKey = ca.uid
    · rw [← hu, mget_mset_same]
      refine ⟨_, rfl, ?_⟩
      simp only [chainIds, List.mem_append, List.mem_singleton]
      rcases (getElem?_snoc _ _ _ _).mp ha with h | ⟨h1, _⟩
      · exact Or.inl (hprev_sup a ca h hu.symm)
      · exact Or.inr h1
    · rw [mget_mset_other _ _ _ _ hu]
      rcases (getElem?_snoc _ _ _ _).mp ha with h | ⟨_, h2⟩
      · exact hs.queue_sup a ca h
      · subst h2
        exact absurd rfl hu
  · intro b cb hb hst
    simp only [submit] at hb hst ⊢
    rcases (getElem?_snoc _ _ _ _).mp hb with h | ⟨h1, _⟩
    · exact hs.started_fulfilled b cb h hst
    · have := hs.started_lt b hst
      omega
  · intro i h
    exact hs.pending_task i h
  · intro i h
    exact hs.unstarted i h
  · intro i h
    have := hs.started_lt i h
    simp only [submit, List.length_append, List.length_singleton]
    omega
  · intro i h
    exact hs.released_cause i h

theorem lockInv_resume (s : LockState) (hs : LockInv s) (id : Nat) :
    LockInv (resume s id) := by
  unfold resume
  cases hc : s.calls[id]? with
  | none => exact hs
  | some c =>
    simp only
    by_cases hen : s.started id = none ∧ fulfilled s.released c.prev = true
    · rw [if_pos hen]
      refine ⟨hs.chain_sub, hs.chain_sup, hs.queue_form, hs.queue_sub, hs.queue_sup,
        ?_, hs.pending_task, ?_, ?_, hs.released_cause⟩
      · intro b cb hb hst
        by_cases hbi : b = id
        · subst hbi
          rw [hc] at hb
          cases hb
          exact hen.2
        · simp only [Function.update_noteq hbi] at hst
          exact hs.started_fulfilled b cb hb hst
      · intro i hi
        by_cases hbi : i = id
        · subst hbi
          simp at hi
        · simp only [Function.update_noteq hbi] at hi
          exact hs.unstarted i hi
      · intro i hi
        by_cases hbi : i = id
        · subst hbi
          show i < s.calls.length
          by_contra hcon
          rw [List.getElem?_eq_none (by omega)] at hc
          cases hc
        · simp only [Function.update_noteq hbi] at hi
          exact hs.started_lt i hi
    · rw [if_neg hen]
      exact hs

theorem lockInv_finish (s : LockState) (hs : LockInv s) (id : Nat) (c : CallInfo)
    (r : Settled) (tr : Nat → Option Settled) (hst : s.started id ≠ none)
    (ho : s.outcome id = none)
    (htr : ∀ i, i ≠ id → tr i = s.taskResult i)
    (hcause : tr id ≠ none ∨ (tr id = s.taskResult id ∧ r = Settled.rejected "COMMAND_TIMEOUT")) :
    LockInv (finish { s with taskResult := tr } id c r) := by
  have hq : finallyCleanup s.queues c.uid id = s.queues :=
    finallyCleanup_eq s.queues c.uid id hs.queue_form
  unfold finish
  simp only [hq]
  refine ⟨hs.chain_sub, hs.chain_sup, hs.queue_form, hs.queue_sub, hs.queue_sup,
    ?_, ?_, ?_, hs.started_lt, ?_⟩
  · intro b cb hb hstb
    apply fulfilled_mono s.released _ _ cb.prev (hs.started_fulfilled b cb hb hstb)
    intro k hk
    by_cases hki : k = id
    · subst hki; simp
    · simp only [Function.update_noteq hki]; exact hk
  · intro i hi
    by_cases hbi : i = id
    · subst hbi
      simp at hi
    · simp only [Function.update_noteq hbi] at hi ⊢
      rw [htr i hbi]
      exact hs.pending_task i hi
  · intro i hi
    by_cases hbi : i = id
    · subst hbi
      exact absurd hi hst
    · simp only [Function.update_noteq hbi]
      exact hs.unstarted i hi
  · intro i hi
    by_cases hbi : i = id
    · subst hbi
      simp only [Function.update_same]
      rcases hcause with h | ⟨_, h⟩
      · exact Or.inl h
      · exact Or.inr (by rw [h])
    · simp only [Function.update_noteq hbi] at hi ⊢
      rw [htr i hbi]
      exact hs.released_cause i hi

theorem lockInv_settle (s : LockState) (hs : LockInv s) (id : Nat) (r : Settled) :
    LockInv (settle s id r) := by
  unfold settle
  cases hc : s.calls[id]? with
  | none => exact hs
  | some c =>
    simp only
    by_cases hen : s.started id ≠ none ∧ s.taskResult id = none
    · rw [if_pos hen]
      by_cases ho : s.outcome id = none
      · rw [if_pos ho]
        exact lockInv_finish s hs id c r _ hen.1 ho (fun i hi => Function.update_noteq hi _ _)
          (Or.inl (by simp))
      · rw [if_neg ho]
        refine ⟨hs.chain_sub, hs.chain_sup, hs.queue_form, hs.queue_sub, hs.queue_sup,
          hs.started_fulfilled, ?_, hs.unstarted, hs.started_lt, ?_⟩
        · intro i hi
          by_cases hbi : i = id
          · subst hbi
            exact absurd hi ho
          · simp only [Function.update_noteq hbi]
            exact hs.pending_task i hi
        · intro i hi
          by_cases hbi : i = id
          · subst hbi
            exact Or.inl (by simp)
          · simp only [Function.update_noteq hbi]
            exact hs.released_cause i hi
    · rw [if_neg hen]
      exact hs

theorem lockInv_timerFires (s : LockState) (hs : LockInv s) (id : Nat) :
    LockInv (timerFires s id) := by
  unfold timerFires
  cases hc : s.calls[id]? with
  | none => exact hs
  | some c =>
    simp only
    cases hst : s.started id with
    | none => exact hs
    | some st =>
      cases ht : c.timeoutMs with
      | none => exact hs
      | some t =>
        simp only
        by_cases hen : 0 < t ∧ st + t ≤ s.now ∧ s.outcome id = none
        · rw [if_pos hen]
          exact lockInv_finish s hs id c _ s.taskResult (by rw [hst]; simp) hen.2.2
            (fun _ _ => rfl) (Or.inr ⟨rfl, rfl⟩)
        · rw [if_neg hen]
          exact hs

theorem lockInv_step (s : LockState) (hs : LockInv s) (e : LockEvent) :
    LockInv (lockStep s e) := by
  cases e with
  | submit userId timeoutMs => exact lockInv_submit s hs userId timeoutMs
  | resume id => exact lockInv_resume s hs id
  | settle id r => exact lockInv_settle s hs id r
  | timer id => exact lockInv_timerFires s hs id
  | advance dt =>
    exact ⟨hs.chain_sub, hs.chain_sup, hs.queue_form, hs.queue_sub, hs.queue_sup,
      hs.started_fulfilled, hs.pending_task, hs.unstarted, hs.started_lt, hs.released_cause⟩

theorem lockInv_foldl (trace : List LockEvent) :
    ∀ s, LockInv s → LockInv (trace.foldl lockStep s) := by
  induction trace with
  | nil => intro s hs; exact hs
  | cons e rest ih => intro s hs; exact ih _ (lockInv_step s hs e)

theorem lockInv_run (trace : List LockEvent) : LockInv (lockRun trace) :=
  lockInv_foldl trace _ lockInv_init

/-- C4: for two calls `a < b` (submission order) whose ids normalise to the same key,
in every state reachable by any interleaving of events in which call `a` has not timed
out, if the task of `b` has been invoked then the task of `a` has been invoked and has
settled: tasks of one key start in submission order and never overlap. -/
theorem runExclusive_serialises (trace : List LockEvent) (a b : Nat) (ca cb : CallInfo)
    (ha : (lockRun trace).calls[a]? = some ca) (hb : (lockRun trace).calls[b]? = some cb)
    (hab : a < b) (hu : ca.uid = cb.uid)
    (hnt : (lockRun trace).outcome a ≠ some (Settled.rejected "COMMAND_TIMEOUT"))
    (hst : (lockRun trace).started b ≠ none) :
    (lockRun trace).started a ≠ none ∧ (lockRun trace).taskResult a ≠ none := by
  have hinv := lockInv_run trace
  have hful := hinv.started_fulfilled b cb hb hst
  rw [fulfilled_iff] at hful
  have hrel := hful a (hinv.chain_sup a b ca cb ha hb hab hu)
  have hset : (lockRun trace).taskResult a ≠ none := by
    rcases hinv.released_cause a hrel with h | h
    · exact h
    · exact absurd h hnt
  refine ⟨?_, hset⟩
  intro hns
  exact hset (hinv.pending_task a (hinv.unstarted a hns)).1

/-- C4 witness: the `same_user` scenario of `runner.ts`; B starts only after A settled. -/
theorem runExclusive_serialises_witness :
    (lockRun sampleTrace).started 0 ≠ none ∧ (lockRun sampleTrace).taskResult 0 ≠ none :=
  runExclusive_serialises sampleTrace 0 1
    { uid := "same_user", prev := PromiseRef.resolved, timeoutMs := some 5000 }
    { uid := "same_user", prev := PromiseRef.thenNext PromiseRef.resolved 0,
      timeoutMs := some 5000 }
    (by decide) (by decide) (by decide) rfl (by decide) (by decide)

theorem next_queued_fulfilled (s : LockState) (hs : LockInv s) (i j : Nat)
    (ci cj : CallInfo) (hi : s.calls[i]? = some ci) (hj : s.calls[j]? = some cj)
    (hsti : s.started i ≠ none) (hu : cj.uid = ci.uid)
    (hnext : ∀ k ck, i < k → k < j → s.calls[k]? = some ck → ck.uid ≠ ci.uid)
    (released : Nat → Bool) (hmono : ∀ k, s.released k = true → released k = true)
    (hrel : released i = true) :
    fulfilled released cj.prev = true := by
  rw [fulfilled_iff]
  intro k hk
  obtain ⟨hkj, ck, hck, hcu⟩ := hs.chain_sub j cj hj k hk
  rcases Nat.lt_trichotomy k i with hlt | heq | hgt
  · have hki : k ∈ chainIds ci.prev :=
      hs.chain_sup k i ck ci hck hi hlt (hcu.trans hu)
    have hful := hs.started_fulfilled i ci hi hsti
    rw [fulfilled_iff] at hful
    exact hmono k (hful k hki)
  · rw [heq]; exact hrel
  · exact absurd (hcu.trans hu) (hnext k ck hgt hkj hck)

/-- C5: let call `i` be started and still pending and let `j` be the next call queued for
the same key, not yet started. (1) If `i` has a positive `timeoutMs` that has elapsed
since its start, the timer makes the call reject with `COMMAND_TIMEOUT` and releases the
slot while the task of `i` is still unsettled, and `j` is then started. (2) If the task
of `i` rejects with error `e`, the call rejects with `e`, the slot is released and `j`
is then started. -/
theorem runExclusive_timeout_releases (trace : List LockEvent) (i j : Nat)
    (ci cj : CallInfo)
    (hi : (lockRun trace).calls[i]? = some ci) (hj : (lockRun trace).calls[j]? = some cj)
    (hij : i < j) (hu : cj.uid = ci.uid)
    (hnext : ∀ k ck, i < k → k < j → (lockRun trace).calls[k]? = some ck → ck.uid ≠ ci.uid)
    (hsti : (lockRun trace).started i ≠ none)
    (hout : (lockRun trace).outcome i = none)
    (hjw : (lockRun trace).started j = none) :
    (∀ st t : Int, (lockRun trace).started i = some st → ci.timeoutMs = some t → 0 < t →
      st + t ≤ (lockRun trace).now →
      (timerFires (lockRun trace) i).outcome i = some (Settled.rejected "COMMAND_TIMEOUT") ∧
      (timerFires (lockRun trace) i).released i = true ∧
      (timerFires (lockRun trace) i).taskResult i = none ∧
      (resume (timerFires (lockRun trace) i) j).started j = some (lockRun trace).now) ∧
    (∀ e : String,
      (settle (lockRun trace) i (Settled.rejected e)).outcome i = some (Settled.rejected e) ∧
      (settle (lockRun trace) i (Settled.rejected e)).released i = true ∧
      (resume (settle (lockRun trace) i (Settled.rejected e)) j).started j =
        some (lockRun trace).now) := by
  have hinv := lockInv_run trace
  have hpend := hinv.pending_task i hout
  have hne : j ≠ i := by omega
  constructor
  · intro st t hst ht htpos hel
    have hT : timerFires (lockRun trace) i =
        finish (lockRun trace) i ci (Settled.rejected "COMMAND_TIMEOUT") := by
      unfold timerFires
      simp only [hi, hst, ht]
      rw [if_pos ⟨htpos, hel, hout⟩]
    rw [hT]
    refine ⟨by simp [finish], by simp [finish], by simpa [finish] using hpend.1, ?_⟩
    have hful : fulfilled (finish (lockRun trace) i ci
        (Settled.rejected "COMMAND_TIMEOUT")).released cj.prev = true := by
      apply next_queued_fulfilled (lockRun trace) hinv i j ci cj hi hj hsti hu hnext
      · intro k hk
        by_cases hki : k = i
        · subst hki; simp [finish]
        · simpa [finish, Function.update_noteq hki] using hk
      · simp [finish]
    unfold resume
    have hcj : (finish (lockRun trace) i ci
        (Settled.rejected "COMMAND_TIMEOUT")).calls[j]? = some cj := hj
    rw [hcj]
    simp only
    rw [if_pos ⟨hjw, hful⟩]
    simp [finish]
  · intro e
    have hS : settle (lockRun trace) i (Settled.rejected e) =
        finish { (lockRun trace) with
          taskResult := Function.update (lockRun trace).taskResult i
            (some (Settled.rejected e)) } i ci (Settled.rejected e) := by
      unfold settle
      simp only [hi]
      rw [if_pos ⟨hsti, hpend.1⟩, if_pos hout]
    rw [hS]
    refine ⟨by simp [finish], by simp [finish], ?_⟩
    have hful : fulfilled (finish { (lockRun trace) with
          taskResult := Function.update (lockRun trace).taskResult i
            (some (Settled.rejected e)) } i ci (Settled.rejected e)).released
        cj.prev = true := by
      apply next_queued_fulfilled (lockRun trace) hinv i j ci cj hi hj hsti hu hnext
      · intro k hk
        by_cases hki : k = i
        · subst hki; simp [finish]
        · simpa [finish, Function.update_noteq hki] using hk
      · simp [finish]
    unfold resume
    have hcj : (finish { (lockRun trace) with
          taskResult := Function.update (lockRun trace).taskResult i
            (some (Settled.rejected e)) } i ci (Settled.rejected e)).calls[j]? = some cj := hj
    rw [hcj]
    simp only
    rw [if_pos ⟨hjw, hful⟩]
    simp [finish]

/-- C5 witness: the first call of `timeoutTrace` times out after 100 ms with its task
unsettled, and the second call, queued under the same normalised key, is started. -/
theorem runExclusive_timeout_releases_witness :
    (timerFires (lockRun timeoutTrace) 0).outcome 0 =
      some (Settled.rejected "COMMAND_TIMEOUT") ∧
    (timerFires (lockRun timeoutTrace) 0).released 0 = true ∧
    (timerFires (lockRun timeoutTrace) 0).taskResult 0 = none ∧
    (resume (timerFires (lockRun timeoutTrace) 0) 1).started 1 =
      some (lockRun timeoutTrace).now :=
  (runExclusive_timeout_releases timeoutTrace 0 1
    { uid := "7", prev := PromiseRef.resolved, timeoutMs := some 100 }
    { uid := "7", prev := PromiseRef.thenNext PromiseRef.resolved 0, timeoutMs := none }
    (by decide) (by decide) (by decide) rfl (fun k ck h1 h2 _ => by omega)
    (by decide) (by decide) (by decide)).1 0 100 (by decide) rfl (by decide) (by decide)

theorem testEvent_eval :
    getMaskForMint (runEngine { windowSlots := some 3, densityThreshold := some 1 }
      [(0, testEvent)]) "Mint1" 100 = 64 + 128 + 256 + 512 + 1024 + 8192 := by
  decide

/-! ### Ledger signal engine: strong signal -/

theorem countSetBits_eq (m : Nat) : ∀ cnt, countSetBits cnt m = cnt + popcount m := by
  induction m using Nat.strong_induction_on with
  | _ m ih =>
    intro cnt
    rw [countSetBits]
    by_cases hm : m = 0
    · simp [hm, popcount]
    · rw [if_neg hm]
      have hlt : m >>> 1 < m := by
        rw [Nat.shiftRight_eq_div_pow]
        exact Nat.div_lt_self (Nat.pos_of_ne_zero hm) (by norm_num)
      rw [ih _ hlt]
      unfold popcount
      rw [Nat.digits_def' (by norm_num : 1 < 2) (Nat.pos_of_ne_zero hm)]
      rw [Nat.shiftRight_eq_div_pow, Nat.and_one_is_mod]
      simp only [pow_one, List.sum_cons]
      omega

/-! ### Ledger signal engine: the slot window -/

theorem mget_isSome_iff {κ ν : Type} [DecidableEq κ] (m : List (κ × ν)) (k : κ) :
    (mget m k).isSome = true ↔ k ∈ m.map Prod.fst := by
  induction m with
  | nil => simp [mget]
  | cons p rest ih =>
    by_cases h : p.1 = k
    · simp [mget, h]
    · have h' : ¬ k = p.1 := fun e => h e.symm
      simp only [mget, if_neg h, ih, List.map_cons, List.mem_cons, h', false_or]

theorem keys_mset {κ ν : Type} [DecidableEq κ] (m : List (κ × ν)) (k : κ) (v : ν) :
    (mset m k v).map Prod.fst =
      if k ∈ m.map Prod.fst then m.map Prod.fst else m.map Prod.fst ++ [k] := by
  induction m with
  | nil => simp [mset]
  | cons p rest ih =>
    by_cases h : p.1 = k
    · simp [mset, h]
    · have h' : ¬ k = p.1 := fun e => h e.symm
      simp only [mset, if_neg h, List.map_cons, ih, List.mem_cons, h', false_or]
      by_cases hk : k ∈ rest.map Prod.fst
      · simp only [if_pos hk]
      · simp only [if_neg hk, List.cons_append]

theorem keys_mdel {κ ν : Type} [DecidableEq κ] (m : List (κ × ν)) (k : κ) :
    (mdel m k).map Prod.fst = (m.map Prod.fst).filter (fun x => decide (x ≠ k)) := by
  induction m with
  | nil => simp [mdel]
  | cons p rest ih =>
    unfold mdel at ih ⊢
    by_cases h : p.1 = k
    · rw [List.filter_cons_of_neg (by simp [h]), List.map_cons,
        List.filter_cons_of_neg (by simp [h])]
      exact ih
    · rw [List.filter_cons_of_pos (by simp [h]), List.map_cons, List.map_cons,
        List.filter_cons_of_pos (by simp [h]), ih]

theorem filter_ne_of_not_mem {α : Type} [DecidableEq α] (l : List α) (k : α) (h : k ∉ l) :
    l.filter (fun x => decide (x ≠ k)) = l := by
  rw [List.filter_eq_self]
  intro a ha
  have : a ≠ k := fun e => h (e ▸ ha)
  simp [this]

theorem trimWindow_of_le (w : Nat) (order : List Int) (buckets : List (Int × SlotBucket))
    (h : order.length ≤ w) : trimWindow w order buckets = (order, buckets) := by
  cases order with
  | nil => rfl
  | cons rem rest =>
    have h' : ¬ (rem :: rest).length > w := by omega
    rw [trimWindow, if_neg h']

theorem trimWindow_of_succ (w : Nat) (rem : Int) (rest : List Int)
    (buckets : List (Int × SlotBucket)) (h : rest.length = w) :
    trimWindow w (rem :: rest) buckets = (rest, mdel buckets rem) := by
  have h' : (rem :: rest).length > w := by simp [h]
  rw [trimWindow, if_pos h', trimWindow_of_le w rest _ (le_of_eq h)]

theorem ensureSlot_retained (eng : LedgerSignalEngine) (hinv : WindowInv eng) (now : Nat)
    (slot : Int) (h : slot ∈ eng.slotOrder) : ensureSlot eng now slot = eng := by
  have hh : mhas eng.slotBuckets slot = true := by
    unfold mhas
    rw [mget_isSome_iff, hinv.keys_eq]
    exact h
  rw [ensureSlot, if_pos hh]

theorem ensureSlot_new (eng : LedgerSignalEngine) (hinv : WindowInv eng) (now : Nat)
    (slot : Int) (h : slot ∉ eng.slotOrder) :
    (ensureSlot eng now slot).windowSlots = eng.windowSlots ∧
    (ensureSlot eng now slot).slotBuckets.map Prod.fst = (ensureSlot eng now slot).slotOrder ∧
    (ensureSlot eng now slot).slotOrder =
      (if eng.slotOrder.length < eng.windowSlots then eng.slotOrder ++ [slot]
       else eng.slotOrder.tail ++ [slot]) := by
  have hh : ¬ mhas eng.slotBuckets slot = true := by
    unfold mhas
    rw [mget_isSome_iff, hinv.keys_eq]
    exact h
  have hkeys : (mset eng.slotBuckets slot
      { ts := now, count := 0, mints := [], authorities := [] }).map Prod.fst =
      eng.slotOrder ++ [slot] := by
    rw [keys_mset, hinv.keys_eq, if_neg h]
  rw [ensureSlot, if_neg hh]
  simp only
  by_cases hlt : eng.slotOrder.length < eng.windowSlots
  · rw [if_pos hlt, trimWindow_of_le _ _ _ (by simp; omega)]
    exact ⟨trivial, hkeys, rfl⟩
  · rw [if_neg hlt]
    have hlen : eng.slotOrder.length = eng.windowSlots := le_antisymm hinv.length_le (by omega)
    have hpos := hinv.window_pos
    cases hord : eng.slotOrder with
    | nil => rw [hord] at hlen; simp at hlen; omega
    | cons rem rest =>
      have hnd := hinv.nodup
      rw [hord] at hlen hnd hkeys h
      have hrem : rem ∉ rest ++ [slot] := by
        intro hmem
        rcases List.mem_append.mp hmem with h1 | h1
        · exact (List.nodup_cons.mp hnd).1 h1
        · exact h (by rw [List.mem_singleton.mp h1]; exact List.mem_cons_self _ _)
      rw [List.cons_append, trimWindow_of_succ _ _ _ _ (by simp at hlen ⊢; omega)]
      refine ⟨trivial, ?_, rfl⟩
      simp only
      rw [keys_mdel, hkeys, List.cons_append, List.filter_cons_of_neg (by simp)]
      exact filter_ne_of_not_mem _ _ hrem

theorem windowInv_ensureSlot (eng : LedgerSignalEngine) (hinv : WindowInv eng) (now : Nat)
    (slot : Int) : WindowInv (ensureSlot eng now slot) := by
  by_cases h : slot ∈ eng.slotOrder
  · rw [ensureSlot_retained eng hinv now slot h]
    exact hinv
  · obtain ⟨hw, hk, ho⟩ := ensureSlot_new eng hinv now slot h
    have hpos := hinv.window_pos
    have hnd := hinv.nodup
    have hle := hinv.length_le
    refine ⟨by rw [hw]; exact hpos, ?_, ?_, hk⟩
    · rw [hw, ho]
      by_cases hlt : eng.slotOrder.length < eng.windowSlots
      · rw [if_pos hlt]; simp; omega
      · rw [if_neg hlt]; simp; omega
    · rw [ho]
      by_cases hlt : eng.slotOrder.length < eng.windowSlots
      · rw [if_pos hlt]
        exact List.Nodup.append hnd (List.nodup_singleton _) (by simpa using h)
      · rw [if_neg hlt]
        have htl : eng.slotOrder.tail.Nodup := hnd.sublist (List.tail_sublist _)
        exact List.Nodup.append htl (List.nodup_singleton _)
          (by simpa using fun hm => h (List.mem_of_mem_tail hm))

theorem processEvent_window (eng : LedgerSignalEngine) (now : Nat) (ev : LedgerEvent)
    (slot : Int) (hs : resolveSlot ev = some slot) :
    (processEvent eng now ev).windowSlots = (ensureSlot eng now slot).windowSlots ∧
    (processEvent eng now ev).slotOrder = (ensureSlot eng now slot).slotOrder ∧
    (processEvent eng now ev).slotBuckets.map Prod.fst =
      (ensureSlot eng now slot).slotBuckets.map Prod.fst := by
  unfold processEvent
  rw [hs]
  simp only
  cases hb : mget (ensureSlot eng now slot).slotBuckets slot with
  | none => exact ⟨rfl, rfl, rfl⟩
  | some b =>
    refine ⟨rfl, rfl, ?_⟩
    simp only
    rw [keys_mset, if_pos]
    rw [← mget_isSome_iff, hb]
    rfl

theorem windowInv_processEvent (eng : LedgerSignalEngine) (hinv : WindowInv eng) (now : Nat)
    (ev : LedgerEvent) : WindowInv (processEvent eng now ev) := by
  cases hs : resolveSlot ev with
  | none =>
    have : processEvent eng now ev = eng := by
      unfold processEvent
      rw [hs]
    rw [this]
    exact hinv
  | some slot =>
    obtain ⟨h1, h2, h3⟩ := processEvent_window eng now ev slot hs
    have hi := windowInv_ensureSlot eng hinv now slot
    exact ⟨by rw [h1]; exact hi.window_pos, by rw [h1, h2]; exact hi.length_le,
      by rw [h2]; exact hi.nodup, by rw [h2, h3]; exact hi.keys_eq⟩

theorem windowInv_foldl (evs : List (Nat × LedgerEvent)) :
    ∀ eng, WindowInv eng →
      WindowInv (evs.foldl (fun eng e => processEvent eng e.1 e.2) eng) := by
  induction evs with
  | nil => intro eng h; exact h
  | cons e rest ih => intro eng h; exact ih _ (windowInv_processEvent eng h e.1 e.2)

theorem windowSlots_foldl (evs : List (Nat × LedgerEvent)) :
    ∀ eng, WindowInv eng →
      (evs.foldl (fun eng e => processEvent eng e.1 e.2) eng).windowSlots = eng.windowSlots := by
  induction evs with
  | nil => intro eng _; rfl
  | cons e rest ih =>
    intro eng h
    rw [List.foldl_cons, ih _ (windowInv_processEvent eng h e.1 e.2)]
    cases hs : resolveSlot e.2 with
    | none =>
      unfold processEvent
      rw [hs]
    | some slot =>
      rw [(processEvent_window eng e.1 e.2 slot hs).1]
      by_cases hm : slot ∈ eng.slotOrder
      · rw [ensureSlot_retained eng h e.1 slot hm]
      · exact (ensureSlot_new eng h e.1 slot hm).1

theorem windowInv_new (opts : EngineOpts) : WindowInv (LedgerSignalEngine.new opts) := by
  refine ⟨?_, by simp [LedgerSignalEngine.new], by simp [LedgerSignalEngine.new],
    by simp [LedgerSignalEngine.new]⟩
  unfold LedgerSignalEngine.new
  simp only
  cases opts.windowSlots with
  | none => decide
  | some w =>
    by_cases hw : w = 0
    · simp [hw, DEFAULT_WINDOW_SLOTS]
    · simp only [if_neg hw]; omega

theorem windowInv_run (opts : EngineOpts) (evs : List (Nat × LedgerEvent)) :
    WindowInv (runEngine opts evs) :=
  windowInv_foldl evs _ (windowInv_new opts)

/-- C9: for an engine built with `windowSlots = N ≥ 1`, after any sequence of
`processEvent` calls `slotOrder` holds at most `N` slots without duplicates and the keys
of `slotBuckets` are exactly the entries of `slotOrder`; a further event leaves the
window as it is when it has no slot or its slot is retained, appends its slot when the
slot is new and fewer than `N` buckets are held, and otherwise (new slot, `N` buckets
held) removes the oldest entry, the head of `slotOrder`, and appends the new slot. -/
theorem slotWindow_fifo (N : Nat) (hN : 1 ≤ N) (d : Option Int)
    (evs : List (Nat × LedgerEvent)) (now : Nat) (ev : LedgerEvent) :
    (runEngine { windowSlots := some N, densityThreshold := d } evs).slotOrder.length ≤ N ∧
    (runEngine { windowSlots := some N, densityThreshold := d } evs).slotOrder.Nodup ∧
    (runEngine { windowSlots := some N, densityThreshold := d } evs).slotBuckets.map Prod.fst =
      (runEngine { windowSlots := some N, densityThreshold := d } evs).slotOrder ∧
    (processEvent (runEngine { windowSlots := some N, densityThreshold := d } evs)
        now ev).slotBuckets.map Prod.fst =
      (processEvent (runEngine { windowSlots := some N, densityThreshold := d } evs)
        now ev).slotOrder ∧
    (processEvent (runEngine { windowSlots := some N, densityThreshold := d } evs)
        now ev).slotOrder =
      (match resolveSlot ev with
        | none => (runEngine { windowSlots := some N, densityThreshold := d } evs).slotOrder
        | some s =>
          if s ∈ (runEngine { windowSlots := some N, densityThreshold := d } evs).slotOrder
          then (runEngine { windowSlots := some N, densityThreshold := d } evs).slotOrder
          else if (runEngine { windowSlots := some N, densityThreshold := d }
              evs).slotOrder.length < N
          then (runEngine { windowSlots := some N, densityThreshold := d } evs).slotOrder ++ [s]
          else (runEngine { windowSlots := some N, densityThreshold := d }
              evs).slotOrder.tail ++ [s]) := by
  have hinv := windowInv_run { windowSlots := some N, densityThreshold := d } evs
  have hw : (runEngine { windowSlots := some N, densityThreshold := d } evs).windowSlots = N := by
    unfold runEngine
    rw [windowSlots_foldl evs _ (windowInv_new _)]
    have : N ≠ 0 := by omega
    simp [LedgerSignalEngine.new, this]
  have hinv' := windowInv_processEvent _ hinv now ev
  refine ⟨by have := hinv.length_le; omega, hinv.nodup, hinv.keys_eq, hinv'.keys_eq, ?_⟩
  cases hs : resolveSlot ev with
  | none =>
    simp only
    unfold processEvent
    rw [hs]
  | some s =>
    simp only
    rw [(processEvent_window _ now ev s hs).2.1]
    by_cases hm : s ∈ (runEngine { windowSlots := some N, densityThreshold := d } evs).slotOrder
    · rw [if_pos hm, ensureSlot_retained _ hinv now s hm]
    · rw [if_neg hm, (ensureSlot_new _ hinv now s hm).2.2, hw]

/-- C9 witness: window 2 holding slots 10 and 20; slot 30 evicts slot 10. -/
theorem slotWindow_fifo_witness :
    (processEvent (runEngine { windowSlots := some 2, densityThreshold := none }
        (slotEvents [10, 20])) 5 (plainEvent 30 [] SampleLogs.absent)).slotOrder = [20, 30] :=
  (slotWindow_fifo 2 (by decide) none (slotEvents [10, 20]) 5
    (plainEvent 30 [] SampleLogs.absent)).2.2.2.2.trans (by decide)

/-- C10 (as stated) fails: with the default window of 3 and events arriving at slots
10, 9, 8, 7 the retained slots are 9, 8, 7; the evicted slot 10 is greater than each. -/
theorem window_most_recent_counterexample :
    (runEngine { windowSlots := none, densityThreshold := none }
      (slotEvents [10, 9, 8, 7])).slotOrder = [9, 8, 7] ∧
    (10 : Int) ∈ eventSlots (slotEvents [10, 9, 8, 7]) ∧
    (10 : Int) ∉ (runEngine { windowSlots := none, densityThreshold := none }
      (slotEvents [10, 9, 8, 7])).slotOrder ∧
    ¬ (∀ r ∈ (runEngine { windowSlots := none, densityThreshold := none }
      (slotEvents [10, 9, 8, 7])).slotOrder, (10 : Int) ≤ r) := by
  decide

theorem processEvent_slotOrder (eng : LedgerSignalEngine) (hinv : WindowInv eng) (now : Nat)
    (ev : LedgerEvent) (slot : Int) (hs : resolveSlot ev = some slot) :
    (processEvent eng now ev).slotOrder =
      (if slot ∈ eng.slotOrder then eng.slotOrder
       else if eng.slotOrder.length < eng.windowSlots then eng.slotOrder ++ [slot]
       else eng.slotOrder.tail ++ [slot]) := by
  rw [(processEvent_window eng now ev slot hs).2.1]
  by_cases hm : slot ∈ eng.slotOrder
  · rw [if_pos hm, ensureSlot_retained eng hinv now slot hm]
  · rw [if_neg hm, (ensureSlot_new eng hinv now slot hm).2.2]

theorem orderedWindow_step (eng : LedgerSignalEngine) (hinv : WindowInv eng)
    (seen : List Int) (h : OrderedWindow eng seen) (now : Nat) (ev : LedgerEvent) (t : Int)
    (hs : resolveSlot ev = some t) (hge : ∀ s ∈ seen, s ≤ t) :
    OrderedWindow (processEvent eng now ev) (seen ++ [t]) := by
  have hord := processEvent_slotOrder eng hinv now ev t hs
  by_cases hm : t ∈ eng.slotOrder
  · rw [if_pos hm] at hord
    refine ⟨by rw [hord]; exact h.sorted, ?_, ?_⟩
    · intro r hr
      rw [hord] at hr
      exact List.mem_append_left _ (h.retained_seen r hr)
    · intro s hsm hsn r hr
      rw [hord] at hsn hr
      rcases List.mem_append.mp hsm with h1 | h1
      · exact h.evicted_lt s h1 hsn r hr
      · rw [List.mem_singleton.mp h1] at hsn
        exact absurd hm hsn
  · rw [if_neg hm] at hord
    have hlt_t : ∀ r ∈ eng.slotOrder, r < t := by
      intro r hr
      have h1 := hge r (h.retained_seen r hr)
      have h2 : r ≠ t := fun e => hm (e ▸ hr)
      omega
    by_cases hlen : eng.slotOrder.length < eng.windowSlots
    · rw [if_pos hlen] at hord
      refine ⟨?_, ?_, ?_⟩
      · rw [hord, List.pairwise_append]
        exact ⟨h.sorted, List.pairwise_singleton _ _, fun a ha b hb => by
          rw [List.mem_singleton.mp hb]; exact hlt_t a ha⟩
      · intro r hr
        rw [hord] at hr
        rcases List.mem_append.mp hr with h1 | h1
        · exact List.mem_append_left _ (h.retained_seen r h1)
        · exact List.mem_append_right _ h1
      · intro s hsm hsn r hr
        rw [hord] at hsn hr
        have hs1 : s ∉ eng.slotOrder := fun e => hsn (List.mem_append_left _ e)
        have hs2 : s ≠ t := fun e => hsn (List.mem_append_right _ (by simp [e]))
        have hsseen : s ∈ seen := by
          rcases List.mem_append.mp hsm with h1 | h1
          · exact h1
          · exact absurd (List.mem_singleton.mp h1) hs2
        rcases List.mem_append.mp hr with h1 | h1
        · exact h.evicted_lt s hsseen hs1 r h1
        · rw [List.mem_singleton.mp h1]
          have := hge s hsseen
          omega
    · rw [if_neg hlen] at hord
      have htl_sub : ∀ r ∈ eng.slotOrder.tail, r ∈ eng.slotOrder :=
        fun r hr => List.mem_of_mem_tail hr
      refine ⟨?_, ?_, ?_⟩
      · rw [hord, List.pairwise_append]
        exact ⟨h.sorted.sublist (List.tail_sublist _), List.pairwise_singleton _ _,
          fun a ha b hb => by
            rw [List.mem_singleton.mp hb]; exact hlt_t a (htl_sub a ha)⟩
      · intro r hr
        rw [hord] at hr
        rcases List.mem_append.mp hr with h1 | h1
        · exact List.mem_append_left _ (h.retained_seen r (htl_sub r h1))
        · exact List.mem_append_right _ h1
      · intro s hsm hsn r hr
        rw [hord] at hsn hr
        have hs1 : s ∉ eng.slotOrder.tail := fun e => hsn (List.mem_append_left _ e)
        have hs2 : s ≠ t := fun e => hsn (List.mem_append_right _ (by simp [e]))
        have hsseen : s ∈ seen := by
          rcases List.mem_append.mp hsm with h1 | h1
          · exact h1
          · exact absurd (List.mem_singleton.mp h1) hs2
        have hst : s < t := by
          have := hge s hsseen
          omega
        by_cases hso : s ∈ eng.slotOrder
        · -- the slot is the head that was just evicted
          cases hol : eng.slotOrder with
          | nil => rw [hol] at hso; cases hso
          | cons hd tl =>
            rw [hol] at hso hs1 hr
            simp only [List.tail_cons] at hs1 hr
            have hsh : s = hd := by
              rcases List.mem_cons.mp hso with h1 | h1
              · exact h1
              · exact absurd h1 hs1
            have hsorted := h.sorted
            rw [hol] at hsorted
            rcases List.mem_append.mp hr with h1 | h1
            · rw [hsh]
              exact (List.pairwise_cons.mp hsorted).1 r h1
            · rw [List.mem_singleton.mp h1]; exact hst
        · rcases List.mem_append.mp hr with h1 | h1
          · exact h.evicted_lt s hsseen hso r (htl_sub r h1)
          · rw [List.mem_singleton.mp h1]; exact hst

theorem orderedWindow_foldl (evs : List (Nat × LedgerEvent)) :
    ∀ (eng : LedgerSignalEngine) (seen : List Int), WindowInv eng → OrderedWindow eng seen →
      (∀ s ∈ seen, ∀ t ∈ eventSlots evs, s ≤ t) →
      (eventSlots evs).Pairwise (fun a b => a ≤ b) →
      OrderedWindow (evs.foldl (fun eng e => processEvent eng e.1 e.2) eng)
        (seen ++ eventSlots evs) := by
  induction evs with
  | nil => intro eng seen _ h _ _; simpa [eventSlots] using h
  | cons e rest ih =>
    intro eng seen hinv h hge hsorted
    have hinv' := windowInv_processEvent eng hinv e.1 e.2
    cases hs : resolveSlot e.2 with
    | none =>
      have he : processEvent eng e.1 e.2 = eng := by
        unfold processEvent
        rw [hs]
      have hsl : eventSlots (e :: rest) = eventSlots rest := by
        simp [eventSlots, List.filterMap_cons, hs]
      rw [List.foldl_cons, he, hsl]
      rw [hsl] at hge hsorted
      exact ih eng seen hinv h hge hsorted
    | some t =>
      have hsl : eventSlots (e :: rest) = t :: eventSlots rest := by
        simp [eventSlots, List.filterMap_cons, hs]
      rw [hsl] at hge hsorted
      rw [List.foldl_cons, hsl]
      have hstep := orderedWindow_step eng hinv seen h e.1 e.2 t hs
        (fun s hsm => hge s hsm t (List.mem_cons_self _ _))
      have := ih (processEvent eng e.1 e.2) (seen ++ [t]) hinv' hstep
        (by
          intro s hsm u hu
          rcases List.mem_append.mp hsm with h1 | h1
          · exact hge s h1 u (List.mem_cons_of_mem _ hu)
          · rw [List.mem_singleton.mp h1]
            exact (List.pairwise_cons.mp hsorted).1 u hu)
        (List.pairwise_cons.mp hsorted).2
      simpa using this

/-- C10 (amended): when the events arrive in non-decreasing slot order, the retained
slots are strictly increasing, each was referenced by an event, and every referenced slot
that is no longer retained is numerically below every retained slot. -/
theorem window_most_recent_of_sorted (opts : EngineOpts) (evs : List (Nat × LedgerEvent))
    (hsorted : (eventSlots evs).Pairwise (fun a b => a ≤ b)) :
    (runEngine opts evs).slotOrder.Pairwise (fun a b => a < b) ∧
    (∀ r ∈ (runEngine opts evs).slotOrder, r ∈ eventSlots evs) ∧
    (∀ s ∈ eventSlots evs, s ∉ (runEngine opts evs).slotOrder →
      ∀ r ∈ (runEngine opts evs).slotOrder, s < r) := by
  have h0 : OrderedWindow (LedgerSignalEngine.new opts) [] :=
    ⟨by simp [LedgerSignalEngine.new], by simp [LedgerSignalEngine.new],
      by intro s hs; cases hs⟩
  have h := orderedWindow_foldl evs _ [] (windowInv_new opts) h0
    (by intro s hs; cases hs) hsorted
  rw [List.nil_append] at h
  exact ⟨h.sorted, h.retained_seen, h.evicted_lt⟩

/-- C10 witness: slots 7, 8, 8, 9, 10 in arrival order with the default window. -/
theorem window_most_recent_of_sorted_witness :
    (runEngine { windowSlots := none, densityThreshold := none }
      (slotEvents [7, 8, 8, 9, 10])).slotOrder.Pairwise (fun a b => a < b) ∧
    (∀ r ∈ (runEngine { windowSlots := none, densityThreshold := none }
      (slotEvents [7, 8, 8, 9, 10])).slotOrder, r ∈ eventSlots (slotEvents [7, 8, 8, 9, 10])) ∧
    (∀ s ∈ eventSlots (slotEvents [7, 8, 8, 9, 10]),
      s ∉ (runEngine { windowSlots := none, densityThreshold := none }
        (slotEvents [7, 8, 8, 9, 10])).slotOrder →
      ∀ r ∈ (runEngine { windowSlots := none, densityThreshold := none }
        (slotEvents [7, 8, 8, 9, 10])).slotOrder, s < r) :=
  window_most_recent_of_sorted { windowSlots := none, densityThreshold := none }
    (slotEvents [7, 8, 8, 9, 10]) (by decide)

/-! ### Ledger signal engine: which conditions set which bit -/

theorem bit_values :
    BIT_ACCOUNT_CREATED = 2 ^ 6 ∧ BIT_ATA_CREATED = 2 ^ 7 ∧ BIT_SAME_AUTH = 2 ^ 8 ∧
    BIT_PROGRAM_INIT = 2 ^ 9 ∧ BIT_SLOT_DENSE = 2 ^ 10 ∧ BIT_LP_STRUCT = 2 ^ 11 ∧
    BIT_CLEAN_FUNDING = 2 ^ 12 ∧ BIT_SLOT_ALIGNED = 2 ^ 13 ∧ BIT_CREATOR_EXPOSED = 2 ^ 14 := by
  decide

theorem testBit_or_pow (m k i : Nat) :
    (m ||| 2 ^ k).testBit i = true ↔ (m.testBit i = true ∨ i = k) := by
  rw [Nat.testBit_or, Nat.testBit_two_pow, Bool.or_eq_true, decide_eq_true_eq]
  constructor
  · rintro (h | h)
    · exact Or.inl h
    · exact Or.inr h.symm
  · rintro (h | h)
    · exact Or.inl h
    · exact Or.inr h.symm

theorem testBit_ite_or_pow (c : Bool) (m k i : Nat) :
    (if c = true then m ||| 2 ^ k else m).testBit i = true ↔
      (m.testBit i = true ∨ (i = k ∧ c = true)) := by
  cases c with
  | true =>
    rw [if_pos rfl, testBit_or_pow]
    simp
  | false => simp

theorem mget_mem {κ ν : Type} [DecidableEq κ] (m : List (κ × ν)) (k : κ) (v : ν)
    (h : mget m k = some v) : (k, v) ∈ m := by
  induction m with
  | nil => simp [mget] at h
  | cons p rest ih =>
    by_cases hp : p.1 = k
    · rw [mget, if_pos hp] at h
      have hv : p.2 = v := Option.some.inj h
      have : p = (k, v) := by rw [← hp, ← hv]
      rw [this]
      exact List.mem_cons_self _ _
    · rw [mget, if_neg hp] at h
      exact List.mem_cons_of_mem _ (ih h)

theorem mem_mset_self {κ ν : Type} [DecidableEq κ] (m : List (κ × ν)) (k : κ) (v : ν) :
    (k, v) ∈ mset m k v :=
  mget_mem _ _ _ (mget_mset_same m k v)

theorem mem_mset_of_mem {κ ν : Type} [DecidableEq κ] (m : List (κ × ν)) (k : κ) (v : ν)
    (g : κ × ν) (h : g ∈ m) : g ∈ mset m k v ∨ (g.1 = k ∧ mget m k = some g.2) := by
  induction m with
  | nil => cases h
  | cons p rest ih =>
    by_cases hp : p.1 = k
    · rw [mset, if_pos hp]
      rcases List.mem_cons.mp h with h1 | h1
      · right
        rw [h1]
        exact ⟨hp, by rw [mget, if_pos hp]⟩
      · left
        exact List.mem_cons_of_mem _ h1
    · rw [mset, if_neg hp]
      rcases List.mem_cons.mp h with h1 | h1
      · left
        rw [h1]
        exact List.mem_cons_self _ _
      · rcases ih h1 with h2 | h2
        · left
          exact List.mem_cons_of_mem _ h2
        · right
          exact ⟨h2.1, by rw [mget, if_neg hp]; exact h2.2⟩

theorem mem_mset_inv {κ ν : Type} [DecidableEq κ] (m : List (κ × ν)) (k : κ) (v : ν)
    (g : κ × ν) (h : g ∈ mset m k v) : g = (k, v) ∨ g ∈ m := by
  induction m with
  | nil =>
    rw [mset] at h
    exact Or.inl (List.mem_singleton.mp h)
  | cons p rest ih =>
    by_cases hp : p.1 = k
    · rw [mset, if_pos hp] at h
      rcases List.mem_cons.mp h with h1 | h1
      · exact Or.inl h1
      · exact Or.inr (List.mem_cons_of_mem _ h1)
    · rw [mset, if_neg hp] at h
      rcases List.mem_cons.mp h with h1 | h1
      · exact Or.inr (h1 ▸ List.mem_cons_self _ _)
      · rcases ih h1 with h2 | h2
        · exact Or.inl h2
        · exact Or.inr (List.mem_cons_of_mem _ h2)

theorem mem_groupFold (rel : List TransferRecord) (r : TransferRecord) :
    ∀ acc : List (String × List TransferRecord),
      (∃ g ∈ rel.foldl (fun byTo x =>
          mset byTo (toGroupKey x) ((match mget byTo (toGroupKey x) with
            | some a => a
            | none => []) ++ [x])) acc, r ∈ g.2) ↔
        ((∃ g ∈ acc, r ∈ g.2) ∨ r ∈ rel) := by
  induction rel with
  | nil => intro acc; simp
  | cons x rest ih =>
    intro acc
    rw [List.foldl_cons, ih]
    have hstep : (∃ g ∈ mset acc (toGroupKey x) ((match mget acc (toGroupKey x) with
            | some a => a
            | none => []) ++ [x]), r ∈ g.2) ↔ ((∃ g ∈ acc, r ∈ g.2) ∨ r = x) := by
      constructor
      · rintro ⟨g, hg, hr⟩
        rcases mem_mset_inv _ _ _ _ hg with h1 | h1
        · rw [h1] at hr
          rcases List.mem_append.mp hr with h2 | h2
          · cases hm : mget acc (toGroupKey x) with
            | none => rw [hm] at h2; cases h2
            | some a =>
              rw [hm] at h2
              exact Or.inl ⟨_, mget_mem _ _ _ hm, h2⟩
          · exact Or.inr (List.mem_singleton.mp h2)
        · exact Or.inl ⟨g, h1, hr⟩
      · rintro (⟨g, hg, hr⟩ | h1)
        · rcases mem_mset_of_mem acc (toGroupKey x) ((match mget acc (toGroupKey x) with
            | some a => a
            | none => []) ++ [x]) g hg with h2 | ⟨_, h2⟩
          · exact ⟨g, h2, hr⟩
          · refine ⟨_, mem_mset_self _ _ _, ?_⟩
            rw [h2]
            exact List.mem_append_left _ hr
        · refine ⟨_, mem_mset_self _ _ _, ?_⟩
          rw [h1]
          exact List.mem_append_right _ (List.mem_singleton.mpr rfl)
    rw [hstep, List.mem_cons, or_assoc]

theorem mem_groupByTo (rel : List TransferRecord) (r : TransferRecord) :
    (∃ g ∈ groupByTo rel, r ∈ g.2) ↔ r ∈ rel := by
  unfold groupByTo
  rw [mem_groupFold]
  simp

theorem creatorFold_bit (b : SlotBucket) (arr : List TransferRecord) (i : Nat) :
    ∀ m : Nat, (arr.foldl (creatorStep b) m).testBit i = true ↔
      (m.testBit i = true ∨ (i = 14 ∧ ∃ r ∈ arr, creatorCond b r = true)) := by
  induction arr with
  | nil => intro m; simp
  | cons x rest ih =>
    intro m
    rw [List.foldl_cons, ih, creatorStep, bit_values.2.2.2.2.2.2.2.2, testBit_ite_or_pow]
    simp only [List.mem_cons, exists_eq_or_imp]
    generalize (∃ r ∈ rest, creatorCond b r = true) = D
    tauto

theorem groupStep_bit (b : SlotBucket) (g : String × List TransferRecord) (m i : Nat) :
    (groupStep b m g).testBit i = true ↔
      (m.testBit i = true ∨ (i = 12 ∧ cleanGroup g = true) ∨
        (i = 14 ∧ ∃ r ∈ g.2, creatorCond b r = true)) := by
  rw [groupStep, creatorFold_bit, bit_values.2.2.2.2.2.2.1, testBit_ite_or_pow]
  generalize (∃ r ∈ g.2, creatorCond b r = true) = D
  tauto

theorem groupFold_bit (b : SlotBucket) (groups : List (String × List TransferRecord))
    (i : Nat) :
    ∀ m : Nat, (groups.foldl (groupStep b) m).testBit i = true ↔
      (m.testBit i = true ∨ (i = 12 ∧ ∃ g ∈ groups, cleanGroup g = true) ∨
        (i = 14 ∧ ∃ g ∈ groups, ∃ r ∈ g.2, creatorCond b r = true)) := by
  induction groups with
  | nil => intro m; simp
  | cons x rest ih =>
    intro m
    rw [List.foldl_cons, ih, groupStep_bit]
    simp only [List.mem_cons, exists_eq_or_imp]
    generalize (∃ r ∈ x.2, creatorCond b r = true) = D
    generalize (∃ g ∈ rest, cleanGroup g = true) = E
    generalize (∃ g ∈ rest, ∃ r ∈ g.2, creatorCond b r = true) = F
    tauto

theorem fundingStep_bit (transfers : List TransferRecord) (b : SlotBucket) (key : String)
    (m i : Nat) :
    (fundingStep transfers b key m).testBit i = true ↔
      (m.testBit i = true ∨
        (i = 12 ∧ ∃ g ∈ groupByTo (transfers.filter (isRelevant key)), cleanGroup g = true) ∨
        (i = 14 ∧ ∃ r ∈ transfers.filter (isRelevant key), creatorCond b r = true)) := by
  have hgr : (∃ g ∈ groupByTo (transfers.filter (isRelevant key)),
        ∃ r ∈ g.2, creatorCond b r = true) ↔
      ∃ r ∈ transfers.filter (isRelevant key), creatorCond b r = true := by
    constructor
    · rintro ⟨g, hg, r, hr, hc⟩
      exact ⟨r, (mem_groupByTo _ r).mp ⟨g, hg, hr⟩, hc⟩
    · rintro ⟨r, hr, hc⟩
      obtain ⟨g, hg, hr'⟩ := (mem_groupByTo _ r).mpr hr
      exact ⟨g, hg, r, hr', hc⟩
  unfold fundingStep
  by_cases h1 : transfers.length > 0
  · rw [if_pos h1]
    simp only
    by_cases h2 : (transfers.filter (isRelevant key)).length > 0
    · rw [if_pos h2, groupFold_bit, hgr]
    · rw [if_neg h2]
      have h3 : transfers.filter (isRelevant key) = [] :=
        List.length_eq_zero.mp (by omega)
      rw [h3]
      simp [groupByTo]
  · rw [if_neg h1]
    have h3 : transfers = [] := List.length_eq_zero.mp (by omega)
    rw [h3]
    simp [groupByTo]

theorem testBit_iteP_or_pow (c : Prop) [Decidable c] (m k i : Nat) :
    (if c then m ||| 2 ^ k else m).testBit i = true ↔ (m.testBit i = true ∨ (i = k ∧ c)) := by
  by_cases hc : c
  · rw [if_pos hc, testBit_or_pow]
    simp [hc]
  · rw [if_neg hc]
    simp [hc]

theorem flagsStep_bit (ent : Option EvidenceEntry) (m i : Nat) :
    (match ent with
      | some e => if e.flags ≠ 0 then m ||| e.flags else m
      | none => m).testBit i = true ↔
      (m.testBit i = true ∨ ∃ e, ent = some e ∧ e.flags.testBit i = true) := by
  cases ent with
  | none => simp
  | some e =>
    simp only [Option.some.injEq, exists_eq_left']
    by_cases hz : e.flags = 0
    · simp [hz]
    · simp [hz, Nat.testBit_or]

theorem bucketMask_bit (d : Int) (b : SlotBucket) (transfers : List TransferRecord)
    (key : String) (m i : Nat) :
    (bucketMask d b transfers key m).testBit i = true ↔
      (m.testBit i = true ∨ bucketBit d b transfers key i) := by
  have h8 := bit_values.2.2.1
  have h10 := bit_values.2.2.2.2.1
  have h11 := bit_values.2.2.2.2.2.1
  unfold bucketMask bucketBit
  simp only
  rw [fundingStep_bit, h11, testBit_ite_or_pow, h10, testBit_iteP_or_pow, h8,
    testBit_ite_or_pow, flagsStep_bit]
  simp only [or_assoc]

theorem slotFold_bit (eng : LedgerSignalEngine) (key : String) (order : List Int) (i : Nat) :
    ∀ m : Nat, (order.foldl (slotMask eng key) m).testBit i = true ↔
      (m.testBit i = true ∨ ∃ s ∈ order, ∃ b, mget eng.slotBuckets s = some b ∧
        bucketBit eng.densityThreshold b (transfersOf eng s) key i) := by
  induction order with
  | nil => intro m; simp
  | cons x rest ih =>
    intro m
    rw [List.foldl_cons, ih]
    have hx : (slotMask eng key m x).testBit i = true ↔
        (m.testBit i = true ∨ ∃ b, mget eng.slotBuckets x = some b ∧
          bucketBit eng.densityThreshold b (transfersOf eng x) key i) := by
      unfold slotMask
      cases hb : mget eng.slotBuckets x with
      | none => simp
      | some b => simp [bucketMask_bit]
    rw [hx]
    simp only [List.mem_cons, exists_eq_or_imp, or_assoc]

/-- Every bit of the mask other than the slot-aligned bit comes from a retained bucket. -/
theorem getMaskForMint_bit (eng : LedgerSignalEngine) (mint : String) (slot : Int) (i : Nat)
    (hi : i ≠ 13) :
    (getMaskForMint eng mint slot).testBit i = true ↔
      ∃ s ∈ eng.slotOrder, ∃ b, mget eng.slotBuckets s = some b ∧
        bucketBit eng.densityThreshold b (transfersOf eng s) mint i := by
  have hbase := slotFold_bit eng mint eng.slotOrder i 0
  simp only [Nat.zero_testBit, Bool.false_eq_true, false_or] at hbase
  unfold getMaskForMint
  simp only
  rcases hsr : seenRange eng mint with ⟨a | minS, c | maxS⟩
  · simpa using hbase
  · simpa using hbase
  · simpa using hbase
  · simp only
    by_cases hal : maxS - minS ≤ 2
    · rw [if_pos hal, bit_values.2.2.2.2.2.2.2.1, testBit_or_pow, hbase]
      simp [hi]
    · rw [if_neg hal, hbase]

/-! ### Ledger signal engine: evidence bits under ingestion -/

theorem bucketLe_refl (b : SlotBucket) : BucketLe b b :=
  ⟨le_refl _, fun _ e h => ⟨e, h, fun _ hi => hi, rfl⟩,
    fun p hp => ⟨p, hp, fun _ hx => hx, le_refl _⟩, fun _ h => h⟩

theorem bucketLe_trans (a b c : SlotBucket) (h1 : BucketLe a b) (h2 : BucketLe b c) :
    BucketLe a c := by
  refine ⟨le_trans h1.count_le h2.count_le, ?_, ?_, fun f h => h2.has_le f (h1.has_le f h)⟩
  · intro key e he
    obtain ⟨e1, he1, hf1, hs1⟩ := h1.mints_le key e he
    obtain ⟨e2, he2, hf2, hs2⟩ := h2.mints_le key e1 he1
    exact ⟨e2, he2, fun i hi => hf2 i (hf1 i hi), hs2.trans hs1⟩
  · intro p hp
    obtain ⟨p1, hp1, hx1, hl1⟩ := h1.auth_le p hp
    obtain ⟨p2, hp2, hx2, hl2⟩ := h2.auth_le p1 hp1
    exact ⟨p2, hp2, fun x hx => hx2 x (hx1 x hx), le_trans hl1 hl2⟩

theorem testBit_ite_or_mono (c : Bool) (f B i : Nat) (h : f.testBit i = true) :
    (if c = true then f ||| B else f).testBit i = true := by
  cases c with
  | true => simp [Nat.testBit_or, h]
  | false => simpa using h

theorem sadd_subset {κ : Type} [DecidableEq κ] (st : List κ) (k : κ) :
    (∀ x ∈ st, x ∈ sadd st k) ∧ st.length ≤ (sadd st k).length := by
  unfold sadd
  by_cases h : k ∈ st
  · rw [if_pos h]
    exact ⟨fun _ hx => hx, le_refl _⟩
  · rw [if_neg h]
    exact ⟨fun _ hx => List.mem_append_left _ hx, by simp⟩

theorem mhas_mset {κ ν : Type} [DecidableEq κ] (m : List (κ × ν)) (k f : κ) (v : ν)
    (h : mhas m f = true) : mhas (mset m k v) f = true := by
  unfold mhas at h ⊢
  by_cases hk : k = f
  · rw [hk, mget_mset_same]
    rfl
  · rw [mget_mset_other _ _ _ _ hk]
    exact h

theorem mintFlags_mono (kind logs : String) (flags i : Nat) (h : flags.testBit i = true) :
    (mintFlags kind logs flags).testBit i = true := by
  unfold mintFlags
  exact testBit_ite_or_mono _ _ _ _ (testBit_ite_or_mono _ _ _ _
    (testBit_ite_or_mono _ _ _ _ (testBit_ite_or_mono _ _ _ _ h)))

theorem updateMint_mints (slot : Int) (kind logs : String) (auth : Option String)
    (b : SlotBucket) (m : String) :
    (updateMint slot kind logs auth b m).mints =
      mset b.mints m
        { flags := mintFlags kind logs (match mget b.mints m with
            | some e => e
            | none => { flags := 0, seenSlots := [], sampleLogs := none }).flags
          seenSlots := sadd (match mget b.mints m with
            | some e => e
            | none => { flags := 0, seenSlots := [], sampleLogs := none }).seenSlots slot
          sampleLogs := (match mget b.mints m with
            | some e => e
            | none => { flags := 0, seenSlots := [], sampleLogs := none }).sampleLogs } := by
  unfold updateMint
  cases auth <;> rfl

theorem bucketLe_updateMint (slot : Int) (kind logs : String) (auth : Option String)
    (b : SlotBucket) (m : String) : BucketLe b (updateMint slot kind logs auth b m) := by
  refine ⟨?_, ?_, ?_, ?_⟩
  · unfold updateMint
    cases auth <;> exact le_refl _
  · intro key e he
    rw [updateMint_mints]
    by_cases hk : m = key
    · subst hk
      rw [mget_mset_same, he]
      exact ⟨_, rfl, fun i hi => mintFlags_mono kind logs e.flags i hi, rfl⟩
    · rw [mget_mset_other _ _ _ _ hk]
      exact ⟨e, he, fun _ hi => hi, rfl⟩
  · intro p hp
    unfold updateMint
    cases auth with
    | none => exact ⟨p, hp, fun _ hx => hx, le_refl _⟩
    | some a =>
      simp only
      rcases mem_mset_of_mem b.authorities a (sadd (match mget b.authorities a with
          | some st => st
          | none => []) m) p hp with h1 | ⟨_, h2⟩
      · exact ⟨p, h1, fun _ hx => hx, le_refl _⟩
      · refine ⟨_, mem_mset_self _ _ _, ?_⟩
        rw [h2]
        exact sadd_subset p.2 m
  · intro f hf
    unfold updateMint
    cases auth with
    | none => exact hf
    | some a => exact mhas_mset _ _ _ _ hf

theorem bucketLe_foldl (slot : Int) (kind logs : String) (auth : Option String)
    (fresh : List String) :
    ∀ b : SlotBucket, BucketLe b (fresh.foldl (updateMint slot kind logs auth) b) := by
  induction fresh with
  | nil => intro b; exact bucketLe_refl b
  | cons m rest ih =>
    intro b
    exact bucketLe_trans _ _ _ (bucketLe_updateMint slot kind logs auth b m) (ih _)

theorem bucketLe_count (b : SlotBucket) : BucketLe b { b with count := b.count + 1 } :=
  ⟨Nat.le_succ _, fun _ e h => ⟨e, h, fun _ hi => hi, rfl⟩,
    fun p hp => ⟨p, hp, fun _ hx => hx, le_refl _⟩, fun _ h => h⟩

theorem lpCond_congr (e e' : EvidenceEntry) (h : e'.sampleLogs = e.sampleLogs) :
    lpCond (some e') = lpCond (some e) := by
  unfold lpCond
  simp only [h]

theorem bucketBit_mono (d : Int) (b b' : SlotBucket) (tr tr' : List TransferRecord)
    (key : String) (i : Nat) (hb : BucketLe b b') (htr : ∀ r ∈ tr, r ∈ tr')
    (hi : i ≠ 12) (h : bucketBit d b tr key i) : bucketBit d b' tr' key i := by
  unfold bucketBit at h ⊢
  rcases h with h | h | h | h | h | h
  · obtain ⟨e, he, hf⟩ := h
    obtain ⟨e', he', hf', _⟩ := hb.mints_le key e he
    exact Or.inl ⟨e', he', hf' i hf⟩
  · refine Or.inr (Or.inl ⟨h.1, ?_⟩)
    have hs := h.2
    unfold sameAuthCond at hs ⊢
    rw [List.any_eq_true] at hs ⊢
    obtain ⟨p, hp, hc⟩ := hs
    obtain ⟨p', hp', hx, hl⟩ := hb.auth_le p hp
    refine ⟨p', hp', ?_⟩
    simp only [Bool.and_eq_true, decide_eq_true_eq] at hc ⊢
    exact ⟨hx key hc.1, by omega⟩
  · refine Or.inr (Or.inr (Or.inl ⟨h.1, ?_⟩))
    have := hb.count_le
    have h2 := h.2
    omega
  · refine Or.inr (Or.inr (Or.inr (Or.inl ⟨h.1, ?_⟩)))
    have hl := h.2
    cases he : mget b.mints key with
    | none => rw [he] at hl; simp [lpCond] at hl
    | some e =>
      obtain ⟨e', he', _, hs⟩ := hb.mints_le key e he
      rw [he'] 
      rw [he] at hl
      rw [lpCond_congr e e' hs]
      exact hl
  · exact absurd h.1 hi
  · refine Or.inr (Or.inr (Or.inr (Or.inr (Or.inr ⟨h.1, ?_⟩))))
    obtain ⟨r, hr, hc⟩ := h.2
    refine ⟨r, ?_, ?_⟩
    · rw [List.mem_filter] at hr ⊢
      exact ⟨htr r hr.1, hr.2⟩
    · unfold creatorCond at hc ⊢
      cases hf : truthyStr r.from_ with
      | none => rw [hf] at hc; cases hc
      | some f =>
        rw [hf] at hc
        exact hb.has_le f hc

theorem processEvent_eq (eng : LedgerSignalEngine) (now : Nat) (ev : LedgerEvent)
    (sl : Int) (b0 : SlotBucket) (hs : resolveSlot ev = some sl)
    (hb : mget (ensureSlot eng now sl).slotBuckets sl = some b0) :
    processEvent eng now ev =
      { ensureSlot eng now sl with
        slotBuckets := mset (ensureSlot eng now sl).slotBuckets sl
          (List.foldl (updateMint sl (resolveKind ev) (resolveLogs ev) (resolveAuth ev))
            { b0 with count := b0.count + 1 }
            (match ev.freshMints with
              | some l => l.take 20
              | none => []))
        slotTransfers :=
          if (truthy (resolveLogs ev) && includes (resolveLogs ev) "transfer") = true then
            mset (ensureSlot eng now sl).slotTransfers sl
              ((match mget (ensureSlot eng now sl).slotTransfers sl with
                | some a => a
                | none => []) ++ parseTransfers (resolveLogs ev))
          else (ensureSlot eng now sl).slotTransfers } := by
  unfold processEvent
  rw [hs]
  simp only [hb]

theorem ensureSlot_grows (eng : LedgerSignalEngine) (now : Nat) (sl : Int)
    (hC : mhas eng.slotBuckets sl = true ∨ eng.slotOrder.length < eng.windowSlots) :
    (ensureSlot eng now sl).densityThreshold = eng.densityThreshold ∧
    (ensureSlot eng now sl).slotTransfers = eng.slotTransfers ∧
    (∀ s ∈ eng.slotOrder, s ∈ (ensureSlot eng now sl).slotOrder) ∧
    (∀ s b, mget eng.slotBuckets s = some b →
      mget (ensureSlot eng now sl).slotBuckets s = some b) ∧
    (∃ b0, mget (ensureSlot eng now sl).slotBuckets sl = some b0) := by
  by_cases hh : mhas eng.slotBuckets sl = true
  · have he : ensureSlot eng now sl = eng := by rw [ensureSlot, if_pos hh]
    rw [he]
    refine ⟨rfl, rfl, fun _ h => h, fun _ _ h => h, ?_⟩
    unfold mhas at hh
    exact Option.isSome_iff_exists.mp hh
  · have hlt : eng.slotOrder.length < eng.windowSlots := by
      rcases hC with h | h
      · exact absurd h hh
      · exact h
    have he : ensureSlot eng now sl =
        { eng with
          slotOrder := eng.slotOrder ++ [sl]
          slotBuckets := mset eng.slotBuckets sl
            { ts := now, count := 0, mints := [], authorities := [] } } := by
      rw [ensureSlot, if_neg hh]
      simp only
      rw [trimWindow_of_le _ _ _ (by simp; omega)]
    rw [he]
    refine ⟨rfl, rfl, fun s h => List.mem_append_left _ h, ?_, ⟨_, mget_mset_same _ _ _⟩⟩
    intro s b hsb
    have hne : sl ≠ s := by
      intro e
      apply hh
      unfold mhas
      rw [e, hsb]
      rfl
    simp only
    rw [mget_mset_other _ _ _ _ hne]
    exact hsb

theorem processEvent_grows (eng : LedgerSignalEngine) (now : Nat) (ev : LedgerEvent)
    (sl : Int) (hs : resolveSlot ev = some sl)
    (hC : mhas eng.slotBuckets sl = true ∨ eng.slotOrder.length < eng.windowSlots) :
    (processEvent eng now ev).densityThreshold = eng.densityThreshold ∧
    (∀ s ∈ eng.slotOrder, s ∈ (processEvent eng now ev).slotOrder) ∧
    (∀ s b, mget eng.slotBuckets s = some b →
      ∃ b', mget (processEvent eng now ev).slotBuckets s = some b' ∧ BucketLe b b') ∧
    (∀ s r, r ∈ transfersOf eng s → r ∈ transfersOf (processEvent eng now ev) s) := by
  obtain ⟨hd, ht, ho, hbk, b0, hb0⟩ := ensureSlot_grows eng now sl hC
  rw [processEvent_eq eng now ev sl b0 hs hb0]
  refine ⟨hd, ho, ?_, ?_⟩
  · intro s b hsb
    have h1 := hbk s b hsb
    simp only
    by_cases hne : sl = s
    · subst hne
      rw [mget_mset_same]
      rw [hb0] at h1
      have hbb : b0 = b := Option.some.inj h1
      subst hbb
      exact ⟨_, rfl, bucketLe_trans _ _ _ (bucketLe_count b0) (bucketLe_foldl _ _ _ _ _ _)⟩
    · rw [mget_mset_other _ _ _ _ hne]
      exact ⟨b, h1, bucketLe_refl b⟩
  · intro s r hr
    unfold transfersOf at hr ⊢
    simp only
    rw [ht]
    by_cases hc : (truthy (resolveLogs ev) && includes (resolveLogs ev) "transfer") = true
    · rw [if_pos hc]
      by_cases hne : sl = s
      · subst hne
        rw [mget_mset_same]
        exact List.mem_append_left _ hr
      · rw [mget_mset_other _ _ _ _ hne]
        exact hr
    · rw [if_neg hc]
      exact hr

theorem popcount_step (m : Nat) : popcount m = m % 2 + popcount (m / 2) := by
  unfold popcount
  by_cases hm : m = 0
  · simp [hm]
  · rw [Nat.digits_def' (by norm_num : 1 < 2) (Nat.pos_of_ne_zero hm), List.sum_cons]

theorem popcount_mono (a : Nat) :
    ∀ b : Nat, (∀ i, a.testBit i = true → b.testBit i = true) → popcount a ≤ popcount b := by
  induction a using Nat.strong_induction_on with
  | _ a ih =>
    intro b h
    by_cases ha : a = 0
    · rw [ha]
      simp [popcount]
    · rw [popcount_step a, popcount_step b]
      have hlt : a / 2 < a := Nat.div_lt_self (Nat.pos_of_ne_zero ha) (by norm_num)
      have h2 := ih (a / 2) hlt (b / 2) (by
        intro i hi
        rw [Nat.testBit_div_two] at hi ⊢
        exact h _ hi)
      have h0 : a % 2 ≤ b % 2 := by
        have h00 := h 0
        rw [Nat.testBit_zero, Nat.testBit_zero] at h00
        simp only [decide_eq_true_eq] at h00
        have := Nat.mod_lt a (by norm_num : 0 < 2)
        by_cases ha1 : a % 2 = 1
        · rw [h00 ha1, ha1]
        · omega
      omega

theorem clearBits_testBit (m k i : Nat) :
    (clearBits m k).testBit i = (m.testBit i && !k.testBit i) := by
  unfold clearBits
  rw [Nat.testBit_xor, Nat.testBit_and]
  cases m.testBit i <;> cases k.testBit i <;> rfl

theorem recomputed_testBit (i : Nat) :
    RECOMPUTED_BITS.testBit i = true ↔ (i = 12 ∨ i = 13) := by
  unfold RECOMPUTED_BITS
  rw [bit_values.2.2.2.2.2.2.1, bit_values.2.2.2.2.2.2.2.1, testBit_or_pow, Nat.testBit_two_pow,
    decide_eq_true_eq]
  constructor
  · rintro (h | h)
    · exact Or.inl h.symm
    · exact Or.inr h
  · rintro (h | h)
    · exact Or.inl h.symm
    · exact Or.inr h

/-- C8 (as stated) fails, in two ways, with no bucket evicted. (1) `Mint1` is seen at
slot 100 and then at slot 200: the slot-aligned bit is cleared and the mask drops from
8192 to 0. (2) `mint1` has one transfer line in slot 100 and a second event of slot 100
adds two more lines of the same group: the clean-funding bit is cleared and the mask
drops from 12288 to 8192. -/
theorem popcount_monotone_counterexample :
    ((∀ s ∈ alignedEngine.slotBuckets.map Prod.fst,
        s ∈ (processEvent alignedEngine 1
          (plainEvent 200 ["Mint1"] SampleLogs.absent)).slotBuckets.map Prod.fst) ∧
      popcount (getMaskForMint (processEvent alignedEngine 1
          (plainEvent 200 ["Mint1"] SampleLogs.absent)) "Mint1" 200) <
        popcount (getMaskForMint alignedEngine "Mint1" 100)) ∧
    ((∀ s ∈ fundedEngine.slotBuckets.map Prod.fst,
        s ∈ (processEvent fundedEngine 1 (plainEvent 100 ["mint1"]
          (SampleLogs.lines ["transfer mint1", "transfer mint1"]))).slotBuckets.map Prod.fst) ∧
      popcount (getMaskForMint (processEvent fundedEngine 1 (plainEvent 100 ["mint1"]
          (SampleLogs.lines ["transfer mint1", "transfer mint1"]))) "mint1" 100) <
        popcount (getMaskForMint fundedEngine "mint1" 100)) := by
  have a1 : getMaskForMint alignedEngine "Mint1" 100 = 8192 := by decide
  have a2 : getMaskForMint (processEvent alignedEngine 1
      (plainEvent 200 ["Mint1"] SampleLogs.absent)) "Mint1" 200 = 0 := by decide
  have b1 : getMaskForMint fundedEngine "mint1" 100 = 12288 := by decide
  have b2 : getMaskForMint (processEvent fundedEngine 1 (plainEvent 100 ["mint1"]
      (SampleLogs.lines ["transfer mint1", "transfer mint1"]))) "mint1" 100 = 8192 := by decide
  rw [a1, a2, b1, b2]
  refine ⟨⟨by decide, by norm_num [popcount]⟩, ⟨by decide, by norm_num [popcount]⟩⟩

theorem noEviction_cases (eng : LedgerSignalEngine) (hinv : WindowInv eng) (now : Nat)
    (ev : LedgerEvent) (sl : Int) (hs : resolveSlot ev = some sl)
    (hne : ∀ s ∈ eng.slotBuckets.map Prod.fst,
      s ∈ (processEvent eng now ev).slotBuckets.map Prod.fst) :
    mhas eng.slotBuckets sl = true ∨ eng.slotOrder.length < eng.windowSlots := by
  by_cases hm : sl ∈ eng.slotOrder
  · left
    unfold mhas
    rw [mget_isSome_iff, hinv.keys_eq]
    exact hm
  · by_cases hlt : eng.slotOrder.length < eng.windowSlots
    · exact Or.inr hlt
    · exfalso
      have hinv' := windowInv_processEvent eng hinv now ev
      have hord := processEvent_slotOrder eng hinv now ev sl hs
      rw [if_neg hm, if_neg hlt] at hord
      rw [hinv.keys_eq, hinv'.keys_eq, hord] at hne
      have hpos := hinv.window_pos
      have hnd := hinv.nodup
      cases hol : eng.slotOrder with
      | nil => rw [hol] at hlt; simp at hlt; omega
      | cons hd tl =>
        rw [hol] at hne hnd hm
        have h1 := hne hd (List.mem_cons_self _ _)
        simp only [List.tail_cons] at h1
        rcases List.mem_append.mp h1 with h2 | h2
        · exact (List.nodup_cons.mp hnd).1 h2
        · exact hm (by rw [List.mem_singleton.mp h2]; exact List.mem_cons_self _ _)

/-- C8 (amended): if processing an event evicts no bucket, every bit of
`getMaskForMint(entity)` other than the clean-funding bit (bit 12) and the slot-aligned
bit (bit 13) that was set before the event is set after it, so the population count of
the mask without those two bits does not decrease. -/
theorem evidence_bits_monotone (opts : EngineOpts) (evs : List (Nat × LedgerEvent))
    (now : Nat) (ev : LedgerEvent) (mint : String) (slot slot' : Int)
    (hne : ∀ s ∈ (runEngine opts evs).slotBuckets.map Prod.fst,
      s ∈ (processEvent (runEngine opts evs) now ev).slotBuckets.map Prod.fst) :
    (∀ i, i ≠ 12 → i ≠ 13 →
      (getMaskForMint (runEngine opts evs) mint slot).testBit i = true →
      (getMaskForMint (processEvent (runEngine opts evs) now ev) mint slot').testBit i = true) ∧
    popcount (clearBits (getMaskForMint (runEngine opts evs) mint slot) RECOMPUTED_BITS) ≤
      popcount (clearBits (getMaskForMint (processEvent (runEngine opts evs) now ev) mint slot')
        RECOMPUTED_BITS) := by
  have hbits : ∀ i, i ≠ 12 → i ≠ 13 →
      (getMaskForMint (runEngine opts evs) mint slot).testBit i = true →
      (getMaskForMint (processEvent (runEngine opts evs) now ev) mint slot').testBit i = true := by
    intro i h12 h13 hi
    cases hs : resolveSlot ev with
    | none =>
      have he : processEvent (runEngine opts evs) now ev = runEngine opts evs := by
        unfold processEvent
        rw [hs]
      rw [he, getMaskForMint_bit _ _ _ _ h13]
      exact (getMaskForMint_bit _ _ _ _ h13).mp hi
    | some sl =>
      have hC := noEviction_cases _ (windowInv_run opts evs) now ev sl hs hne
      obtain ⟨hd, ho, hbk, htr⟩ := processEvent_grows _ now ev sl hs hC
      rw [getMaskForMint_bit _ _ _ _ h13] at hi ⊢
      obtain ⟨s, hsm, b, hb, hbit⟩ := hi
      obtain ⟨b', hb', hle⟩ := hbk s b hb
      refine ⟨s, ho s hsm, b', hb', ?_⟩
      rw [hd]
      exact bucketBit_mono _ b b' _ _ mint i hle (htr s) h12 hbit
  refine ⟨hbits, popcount_mono _ _ ?_⟩
  intro i hi
  rw [clearBits_testBit, Bool.and_eq_true] at hi ⊢
  have hr : ¬ (i = 12 ∨ i = 13) := by
    intro h
    have := (recomputed_testBit i).mpr h
    rw [this] at hi
    exact absurd hi.2 (by simp)
  exact ⟨hbits i (fun e => hr (Or.inl e)) (fun e => hr (Or.inr e)) hi.1, hi.2⟩

/-- C8 witness: the event of `test_ledger_engine.js` followed by a plain event of the
next slot; no bucket is evicted. -/
theorem evidence_bits_monotone_witness :
    (∀ i, i ≠ 12 → i ≠ 13 →
      (getMaskForMint (runEngine { windowSlots := some 3, densityThreshold := some 1 }
        [(0, testEvent)]) "Mint1" 100).testBit i = true →
      (getMaskForMint (processEvent (runEngine { windowSlots := some 3, densityThreshold := some 1 }
        [(0, testEvent)]) 1 (plainEvent 101 ["Mint1"] SampleLogs.absent))
        "Mint1" 101).testBit i = true) ∧
    popcount (clearBits (getMaskForMint (runEngine
        { windowSlots := some 3, densityThreshold := some 1 } [(0, testEvent)]) "Mint1" 100)
        RECOMPUTED_BITS) ≤
      popcount (clearBits (getMaskForMint (processEvent (runEngine
        { windowSlots := some 3, densityThreshold := some 1 } [(0, testEvent)]) 1
        (plainEvent 101 ["Mint1"] SampleLogs.absent)) "Mint1" 101) RECOMPUTED_BITS) :=
  evidence_bits_monotone { windowSlots := some 3, densityThreshold := some 1 }
    [(0, testEvent)] 1 (plainEvent 101 ["Mint1"] SampleLogs.absent) "Mint1" 100 101
    (by decide)

/-! ### Ledger signal engine: masks fit in 15 bits -/

theorem mintFlags_bit (kind logs : String) (flags i : Nat)
    (h : (mintFlags kind logs flags).testBit i = true) :
    flags.testBit i = true ∨ i = 6 ∨ i = 7 ∨ i = 9 := by
  unfold mintFlags at h
  simp only at h
  rw [bit_values.1, bit_values.2.1, bit_values.2.2.2.1, testBit_ite_or_pow, testBit_ite_or_pow,
    testBit_ite_or_pow, testBit_ite_or_pow] at h
  rcases h with ((((h | h) | h) | h) | h)
  · exact Or.inl h
  · exact Or.inr (Or.inl h.1)
  · exact Or.inr (Or.inr (Or.inl h.1))
  · exact Or.inr (Or.inl h.1)
  · exact Or.inr (Or.inr (Or.inr h.1))

theorem updateMint_flags (slot : Int) (kind logs : String) (auth : Option String)
    (b : SlotBucket) (m : String)
    (hb : ∀ key e, mget b.mints key = some e → ∀ i, e.flags.testBit i = true → i < 15) :
    ∀ key e, mget (updateMint slot kind logs auth b m).mints key = some e →
      ∀ i, e.flags.testBit i = true → i < 15 := by
  intro key e he i hi
  rw [updateMint_mints] at he
  by_cases hk : m = key
  · subst hk
    rw [mget_mset_same] at he
    have he' := Option.some.inj he
    subst he'
    simp only at hi
    rcases mintFlags_bit _ _ _ _ hi with h | h | h | h
    · cases hm : mget b.mints m with
      | none => rw [hm] at h; simp at h
      | some e0 =>
        rw [hm] at h
        exact hb m e0 hm i h
    · omega
    · omega
    · omega
  · rw [mget_mset_other _ _ _ _ hk] at he
    exact hb key e he i hi

theorem foldl_updateMint_flags (slot : Int) (kind logs : String) (auth : Option String)
    (fresh : List String) :
    ∀ b : SlotBucket,
      (∀ key e, mget b.mints key = some e → ∀ i, e.flags.testBit i = true → i < 15) →
      ∀ key e, mget (fresh.foldl (updateMint slot kind logs auth) b).mints key = some e →
        ∀ i, e.flags.testBit i = true → i < 15 := by
  induction fresh with
  | nil => intro b hb; exact hb
  | cons m rest ih =>
    intro b hb
    exact ih _ (updateMint_flags slot kind logs auth b m hb)

theorem mget_mdel_some {κ ν : Type} [DecidableEq κ] (m : List (κ × ν)) (k s : κ) (v : ν)
    (h : mget (mdel m k) s = some v) : mget m s = some v := by
  by_cases hk : k = s
  · subst hk
    rw [mget_mdel_same] at h
    cases h
  · rw [mget_mdel_other _ _ _ hk] at h
    exact h

theorem trimWindow_mget (w : Nat) (order : List Int) :
    ∀ (buckets : List (Int × SlotBucket)) (s : Int) (b : SlotBucket),
      mget (trimWindow w order buckets).2 s = some b → mget buckets s = some b := by
  induction order with
  | nil => intro buckets s b h; exact h
  | cons rem rest ih =>
    intro buckets s b h
    rw [trimWindow] at h
    by_cases hlen : (rem :: rest).length > w
    · rw [if_pos hlen] at h
      exact mget_mdel_some _ _ _ _ (ih _ s b h)
    · rw [if_neg hlen] at h
      exact h

theorem flagsBounded_ensureSlot (eng : LedgerSignalEngine) (h : FlagsBounded eng) (now : Nat)
    (slot : Int) : FlagsBounded (ensureSlot eng now slot) := by
  unfold ensureSlot
  by_cases hh : mhas eng.slotBuckets slot = true
  · rw [if_pos hh]
    exact h
  · rw [if_neg hh]
    intro s b key e hb he i hi
    simp only at hb
    have hb' := trimWindow_mget _ _ _ s b hb
    by_cases hs : slot = s
    · subst hs
      rw [mget_mset_same] at hb'
      have := Option.some.inj hb'
      subst this
      simp [mget] at he
    · rw [mget_mset_other _ _ _ _ hs] at hb'
      exact h s b key e hb' he i hi

theorem flagsBounded_processEvent (eng : LedgerSignalEngine) (h : FlagsBounded eng) (now : Nat)
    (ev : LedgerEvent) : FlagsBounded (processEvent eng now ev) := by
  cases hs : resolveSlot ev with
  | none =>
    have he : processEvent eng now ev = eng := by
      unfold processEvent
      rw [hs]
    rw [he]
    exact h
  | some sl =>
    have h1 := flagsBounded_ensureSlot eng h now sl
    cases hb : mget (ensureSlot eng now sl).slotBuckets sl with
    | none =>
      have he : processEvent eng now ev = ensureSlot eng now sl := by
        unfold processEvent
        rw [hs]
        simp only [hb]
      rw [he]
      exact h1
    | some b0 =>
      rw [processEvent_eq eng now ev sl b0 hs hb]
      intro s b key e hsb he i hi
      simp only at hsb
      by_cases hne : sl = s
      · subst hne
        rw [mget_mset_same] at hsb
        have := Option.some.inj hsb
        subst this
        exact foldl_updateMint_flags _ _ _ _ _ { b0 with count := b0.count + 1 }
          (fun k e0 hk => h1 sl b0 k e0 hb hk) key e he i hi
      · rw [mget_mset_other _ _ _ _ hne] at hsb
        exact h1 s b key e hsb he i hi

theorem flagsBounded_run (opts : EngineOpts) (evs : List (Nat × LedgerEvent)) :
    FlagsBounded (runEngine opts evs) := by
  have hgen : ∀ (l : List (Nat × LedgerEvent)) (eng : LedgerSignalEngine), FlagsBounded eng →
      FlagsBounded (l.foldl (fun eng e => processEvent eng e.1 e.2) eng) := by
    intro l
    induction l with
    | nil => intro eng h; exact h
    | cons e rest ih => intro eng h; exact ih _ (flagsBounded_processEvent eng h e.1 e.2)
  apply hgen
  intro s b key e hb
  simp [LedgerSignalEngine.new, mget] at hb

theorem getMaskForMint_lt (opts : EngineOpts) (evs : List (Nat × LedgerEvent))
    (mint : String) (slot : Int) : getMaskForMint (runEngine opts evs) mint slot < 2 ^ 15 := by
  apply Nat.lt_pow_two_of_testBit
  intro i hi
  by_contra hcon
  have hbit : (getMaskForMint (runEngine opts evs) mint slot).testBit i = true := by
    cases hv : (getMaskForMint (runEngine opts evs) mint slot).testBit i with
    | true => rfl
    | false => exact absurd hv hcon
  have h13 : i ≠ 13 := by omega
  rw [getMaskForMint_bit _ _ _ _ h13] at hbit
  obtain ⟨s, _, b, hb, hbb⟩ := hbit
  unfold bucketBit at hbb
  rcases hbb with h | h | h | h | h | h
  · obtain ⟨e, he, hf⟩ := h
    have := flagsBounded_run opts evs s b mint e hb he i hf
    omega
  · omega
  · omega
  · omega
  · omega
  · omega

/-- C7: `isStrongSignal(mint, slot, requiredBits)` is true exactly when the number of
1-bits of `getMaskForMint(mint, slot)` is at least `requiredBits` (2 when omitted), and
the shift-and-count loop computes the population count of every mask. In every state
that `processEvent` calls can reach the mask is below `2 ^ 15`, so the 32-bit operators
of the loop act on it as on a natural number. -/
theorem isStrongSignal_iff_popcount (eng : LedgerSignalEngine) (mint : String) (slot : Int)
    (requiredBits : Option Int) (opts : EngineOpts) (evs : List (Nat × LedgerEvent)) :
    (isStrongSignal eng mint slot requiredBits = true ↔
      (popcount (getMaskForMint eng mint slot) : Int) ≥
        (match requiredBits with
          | some r => r
          | none => 2)) ∧
    (∀ m : Nat, countSetBits 0 m = popcount m) ∧
    getMaskForMint (runEngine opts evs) mint slot < 2 ^ 15 := by
  refine ⟨?_, ?_, getMaskForMint_lt opts evs mint slot⟩
  · unfold isStrongSignal
    simp only [countSetBits_eq, Nat.zero_add, decide_eq_true_eq]
  · intro m
    rw [countSetBits_eq, Nat.zero_add]

/-! ### Readiness score and trigger decision -/

theorem addWeights_bounds (mask : Nat) (table : List (Nat × ℚ))
    (hpos : ∀ e ∈ table, 0 ≤ e.2) :
    ∀ score : ℚ, score ≤ addWeights table mask score ∧
      addWeights table mask score ≤ score + (table.map Prod.snd).sum := by
  induction table with
  | nil => intro score; simp [addWeights]
  | cons e rest ih =>
    intro score
    have he : 0 ≤ e.2 := hpos e (List.mem_cons_self _ _)
    have ih' := ih (fun x hx => hpos x (List.mem_cons_of_mem _ hx))
    unfold addWeights at ih' ⊢
    rw [List.foldl_cons, List.map_cons, List.sum_cons]
    by_cases hb : mask &&& e.1 ≠ 0
    · rw [if_pos hb]
      have := ih' (score + e.2)
      constructor <;> linarith [this.1, this.2]
    · rw [if_neg hb]
      have := ih' score
      constructor <;> linarith [this.1, this.2]

theorem weights_sum :
    (WEIGHTS.map Prod.snd).sum = 1 ∧ (∀ e ∈ WEIGHTS, 0 ≤ e.2) ∧
    (AnalyzeRawEvents.LEDGER_WEIGHTS.map Prod.snd).sum = 1 / 4 ∧
    (∀ e ∈ AnalyzeRawEvents.LEDGER_WEIGHTS, 0 ≤ e.2) ∧
    (ExperimentThresholds.LEDGER_WEIGHTS.map Prod.snd).sum = 1 / 4 ∧
    (∀ e ∈ ExperimentThresholds.LEDGER_WEIGHTS, 0 ≤ e.2) := by
  refine ⟨?_, ?_, ?_, ?_, ?_, ?_⟩
  · norm_num [WEIGHTS]
  · intro e he
    simp only [WEIGHTS, List.mem_cons, List.mem_singleton, List.not_mem_nil, or_false] at he
    rcases he with h | h | h | h | h | h <;> rw [h] <;> norm_num
  · norm_num [AnalyzeRawEvents.LEDGER_WEIGHTS]
  · intro e he
    simp only [AnalyzeRawEvents.LEDGER_WEIGHTS, List.mem_cons, List.mem_singleton,
      List.not_mem_nil, or_false] at he
    rcases he with h | h | h | h | h <;> rw [h] <;> norm_num
  · norm_num [ExperimentThresholds.LEDGER_WEIGHTS]
  · intro e he
    simp only [ExperimentThresholds.LEDGER_WEIGHTS, List.mem_cons, List.mem_singleton,
      List.not_mem_nil, or_false] at he
    rcases he with h | h | h | h | h <;> rw [h] <;> norm_num

/-- C13 (as stated) fails: with all six probe bits and all five weighted ledger bits set
the score is 1.25 in both scripts. -/
theorem scoreFromMask_unit_interval_counterexample :
    AnalyzeRawEvents.scoreFromMask 63 (64 + 128 + 256 + 512 + 1024) = 5 / 4 ∧
    ExperimentThresholds.scoreFromMask 63 (256 + 512 + 1024 + 2048 + 4096) = 5 / 4 ∧
    ¬ ((5 / 4 : ℚ) ≤ 1) := by
  refine ⟨?_, ?_, by norm_num⟩
  · have h63 : ∀ b : Nat, b < 6 → ((63 : Nat) &&& 1 <<< b ≠ 0) := by decide
    have hl : ∀ b : Nat, 6 ≤ b → b < 11 →
        ((64 + 128 + 256 + 512 + 1024 : Nat) &&& 1 <<< b ≠ 0) := by decide
    simp only [AnalyzeRawEvents.scoreFromMask, addWeights, WEIGHTS,
      AnalyzeRawEvents.LEDGER_WEIGHTS, BIT_MINT_EXISTS, BIT_AUTH_OK, BIT_POOL_EXISTS,
      BIT_POOL_INIT, BIT_TRANSFERABLE, BIT_SLOT_SEQ, BIT_ACCOUNT_CREATED, BIT_ATA_CREATED,
      BIT_SAME_AUTH, BIT_PROGRAM_INIT, BIT_SLOT_DENSE, LEDGER_BIT_BASE_SHIFT, List.foldl]
    rw [if_pos (h63 0 (by decide)), if_pos (h63 1 (by decide)), if_pos (h63 2 (by decide)),
      if_pos (h63 3 (by decide)), if_pos (h63 4 (by decide)), if_pos (h63 5 (by decide)),
      if_pos (hl (6 + 0) (by decide) (by decide)), if_pos (hl (6 + 1) (by decide) (by decide)),
      if_pos (hl (6 + 2) (by decide) (by decide)), if_pos (hl (6 + 3) (by decide) (by decide)),
      if_pos (hl (6 + 4) (by decide) (by decide))]
    norm_num
  · have h63 : ∀ b : Nat, b < 6 → ((63 : Nat) &&& 1 <<< b ≠ 0) := by decide
    have hl : ∀ b : Nat, 8 ≤ b → b < 13 →
        ((256 + 512 + 1024 + 2048 + 4096 : Nat) &&& 1 <<< b ≠ 0) := by decide
    simp only [ExperimentThresholds.scoreFromMask, addWeights, WEIGHTS,
      ExperimentThresholds.LEDGER_WEIGHTS, BIT_MINT_EXISTS, BIT_AUTH_OK, BIT_POOL_EXISTS,
      BIT_POOL_INIT, BIT_TRANSFERABLE, BIT_SLOT_SEQ, List.foldl]
    rw [if_pos (h63 0 (by decide)), if_pos (h63 1 (by decide)), if_pos (h63 2 (by decide)),
      if_pos (h63 3 (by decide)), if_pos (h63 4 (by decide)), if_pos (h63 5 (by decide)),
      if_pos (hl 8 (by decide) (by decide)), if_pos (hl 9 (by decide) (by decide)),
      if_pos (hl 10 (by decide) (by decide)), if_pos (hl 11 (by decide) (by decide)),
      if_pos (hl 12 (by decide) (by decide))]
    norm_num

/-- C13 (amended): for every probe mask and every ledger mask the score of both scripts
lies in `[0, 1.25]` (probe weights sum to 1, ledger weights to 0.25, nothing clamps the
sum), and the probe part alone, the score at ledger mask 0, lies in `[0, 1]`. -/
theorem scoreFromMask_bounds (mask ledgerMask : Nat) :
    (0 ≤ AnalyzeRawEvents.scoreFromMask mask ledgerMask ∧
      AnalyzeRawEvents.scoreFromMask mask ledgerMask ≤ 5 / 4) ∧
    (0 ≤ ExperimentThresholds.scoreFromMask mask ledgerMask ∧
      ExperimentThresholds.scoreFromMask mask ledgerMask ≤ 5 / 4) ∧
    (0 ≤ AnalyzeRawEvents.scoreFromMask mask 0 ∧
      AnalyzeRawEvents.scoreFromMask mask 0 ≤ 1) ∧
    (0 ≤ ExperimentThresholds.scoreFromMask mask 0 ∧
      ExperimentThresholds.scoreFromMask mask 0 ≤ 1) := by
  obtain ⟨hw, hwp, ha, hap, he, hep⟩ := weights_sum
  have hp := addWeights_bounds mask WEIGHTS hwp 0
  rw [hw] at hp
  have hA := addWeights_bounds ledgerMask AnalyzeRawEvents.LEDGER_WEIGHTS hap
    (addWeights WEIGHTS mask 0)
  have hE := addWeights_bounds ledgerMask ExperimentThresholds.LEDGER_WEIGHTS hep
    (addWeights WEIGHTS mask 0)
  have hA0 : AnalyzeRawEvents.scoreFromMask mask 0 = addWeights WEIGHTS mask 0 := by
    simp [AnalyzeRawEvents.scoreFromMask, addWeights, AnalyzeRawEvents.LEDGER_WEIGHTS]
  have hE0 : ExperimentThresholds.scoreFromMask mask 0 = addWeights WEIGHTS mask 0 := by
    simp [ExperimentThresholds.scoreFromMask, addWeights, ExperimentThresholds.LEDGER_WEIGHTS]
  rw [ha] at hA
  rw [he] at hE
  rw [hA0, hE0]
  unfold AnalyzeRawEvents.scoreFromMask ExperimentThresholds.scoreFromMask
  refine ⟨⟨?_, ?_⟩, ⟨?_, ?_⟩, ⟨?_, ?_⟩, ⟨?_, ?_⟩⟩ <;> linarith [hp.1, hp.2, hA.1, hA.2, hE.1, hE.2]

/-- C14: transferability is a hard gate. For every probe mask whose transferable bit is
clear, every ledger mask, every value of `ledgerStrong` and every threshold, the trigger
expression of both scripts is false; in particular `baselineTriggered` is always false. -/
theorem trigger_requires_transferable (mask ledgerMask : Nat) (ledgerStrong : Bool)
    (threshold : ℚ) (hclear : mask &&& BIT_TRANSFERABLE = 0) :
    AnalyzeRawEvents.triggered mask ledgerMask ledgerStrong threshold = false ∧
    ExperimentThresholds.triggered mask ledgerMask ledgerStrong threshold = false ∧
    (∀ score : ℚ, triggerDecision mask score ledgerStrong threshold = false) := by
  have h : ∀ score : ℚ, triggerDecision mask score ledgerStrong threshold = false := by
    intro score
    unfold triggerDecision
    simp [hclear]
  exact ⟨h _, h _, h⟩

/-- C14 witness: the baseline mask 0 with a strong ledger signal and threshold 0. -/
theorem trigger_requires_transferable_witness :
    AnalyzeRawEvents.triggered baselineMask 1984 true 0 = false ∧
    ExperimentThresholds.triggered baselineMask 1984 true 0 = false ∧
    (∀ score : ℚ, triggerDecision baselineMask score true 0 = false) :=
  trigger_requires_transferable baselineMask 1984 true 0 (by decide)

/-! ### Slot clock and slot trigger -/

/-- C15: for a clock built at reading `t0` with start slot `b` and every elapsed time
`e ≥ 0`: `current_slot = b + ⌊e / 400⌋`, `ms_into_slot = e mod 400` lies in `[0, 400)`,
`e = (current_slot - b) * 400 + ms_into_slot`, `current_slot` is non-decreasing in `e`,
and the `.ts` and `.js` clocks agree. -/
theorem slotClock_arith (t0 b e : Int) (he : 0 ≤ e) :
    (SlotClock.new t0 b).current_slot (t0 + e) = b + e / 400 ∧
    (SlotClock.new t0 b).ms_into_slot (t0 + e) = e % 400 ∧
    0 ≤ (SlotClock.new t0 b).ms_into_slot (t0 + e) ∧
    (SlotClock.new t0 b).ms_into_slot (t0 + e) < 400 ∧
    e = ((SlotClock.new t0 b).current_slot (t0 + e) - b) * 400 +
      (SlotClock.new t0 b).ms_into_slot (t0 + e) ∧
    (∀ e' : Int, e ≤ e' →
      (SlotClock.new t0 b).current_slot (t0 + e) ≤ (SlotClock.new t0 b).current_slot (t0 + e')) ∧
    (SlotClockJs.new t0 b).current_slot (t0 + e) = (SlotClock.new t0 b).current_slot (t0 + e) ∧
    (SlotClockJs.new t0 b).ms_into_slot (t0 + e) = (SlotClock.new t0 b).ms_into_slot (t0 + e) := by
  have hb : (if b = 0 then 0 else b) = b := by
    by_cases h : b = 0
    · rw [if_pos h, h]
    · rw [if_neg h]
  have hcs : ∀ x : Int, (SlotClock.new t0 b).current_slot (t0 + x) = b + x / 400 := by
    intro x
    simp only [SlotClock.current_slot, SlotClock.new, hb, SLOT_DURATION_MS]
    rw [Int.fdiv_eq_ediv _ (by norm_num)]
    congr 2
    omega
  have hms : (SlotClock.new t0 b).ms_into_slot (t0 + e) = e % 400 := by
    simp only [SlotClock.ms_into_slot, SlotClock.new, SLOT_DURATION_MS]
    have : t0 + e - t0 = e := by omega
    rw [this, Int.tmod_eq_emod he (by norm_num)]
  refine ⟨hcs e, hms, ?_, ?_, ?_, ?_, ?_, ?_⟩
  · rw [hms]; omega
  · rw [hms]; omega
  · rw [hms, hcs e]; omega
  · intro e' hle
    rw [hcs e, hcs e']
    have := Int.ediv_le_ediv (by norm_num : (0 : Int) < 400) hle
    omega
  · rfl
  · rfl

/-- C15 witness: start slot 1000, 1234 ms after construction. -/
theorem slotClock_arith_witness :
    (SlotClock.new 50 1000).current_slot (50 + 1234) = 1000 + 1234 / 400 :=
  (slotClock_arith 50 1000 1234 (by decide)).1

theorem pollStep_inactive (clock : SlotClock) (target_slot : Int)
    (l : List (Nat × Poll)) :
    ∀ st : TriggerState, st.active = false → l.foldl (pollStep clock target_slot) st = st := by
  induction l with
  | nil => intro st _; rfl
  | cons ip rest ih =>
    intro st h
    have hstep : pollStep clock target_slot st ip = st := by
      unfold pollStep
      rw [h]
      rfl
    rw [List.foldl_cons, hstep]
    exact ih st h

theorem pollFold_spec (clock : SlotClock) (target_slot : Int) (l : List (Nat × Poll)) :
    l.foldl (pollStep clock target_slot)
        { active := true, triggerLog := [], resolved := none } =
      (match l.find? (fun ip => triggerCond clock target_slot ip.2) with
        | none => { active := true, triggerLog := [], resolved := none }
        | some ip =>
          { active := false, triggerLog := [ip],
            resolved := some (clock.current_slot ip.2.t1, clock.ms_into_slot ip.2.t2) }) := by
  induction l with
  | nil => rfl
  | cons ip rest ih =>
    rw [List.foldl_cons]
    by_cases hc : triggerCond clock target_slot ip.2 = true
    · rw [List.find?_cons_of_pos _ (by simpa using hc)]
      have hstep : pollStep clock target_slot
          { active := true, triggerLog := [], resolved := none } ip =
          { active := false, triggerLog := [ip],
            resolved := some (clock.current_slot ip.2.t1, clock.ms_into_slot ip.2.t2) } := by
        simp [pollStep, hc]
      rw [hstep]
      exact pollStep_inactive clock target_slot rest _ rfl
    · rw [List.find?_cons_of_neg _ (by simpa using hc)]
      have hstep : pollStep clock target_slot
          { active := true, triggerLog := [], resolved := none } ip =
          { active := true, triggerLog := [], resolved := none } := by
        simp [pollStep, hc]
      rw [hstep]
      exact ih

/-- C16: over any sequence of polls, `slot_trigger` invokes the execution callback at the
first poll whose readings satisfy `slot = target_slot` and `ms ≤ TRIGGER_WINDOW_MS`, and
at no other poll: the trigger log is that poll alone (empty when no poll satisfies the
test), the interval is cleared exactly when such a poll exists, and the promise resolves
with the readings of that poll, which satisfy `slot = target_slot` and `ms ≤ 5`. -/
theorem slot_trigger_first_poll (clock : SlotClock) (target_slot : Int) (polls : List Poll) :
    (slot_trigger clock target_slot polls).triggerLog =
      (polls.enum.find? (fun ip => triggerCond clock target_slot ip.2)).toList ∧
    (∀ ip ∈ (slot_trigger clock target_slot polls).triggerLog,
      triggerCond clock target_slot ip.2 = true) ∧
    (slot_trigger clock target_slot polls).active =
      (polls.enum.find? (fun ip => triggerCond clock target_slot ip.2)).isNone ∧
    (slot_trigger clock target_slot polls).resolved =
      (polls.enum.find? (fun ip => triggerCond clock target_slot ip.2)).map
        (fun ip => (clock.current_slot ip.2.t1, clock.ms_into_slot ip.2.t2)) ∧
    (∀ v, (slot_trigger clock target_slot polls).resolved = some v →
      v.1 = target_slot ∧ v.2 ≤ TRIGGER_WINDOW_MS) := by
  unfold slot_trigger
  rw [pollFold_spec]
  cases hf : polls.enum.find? (fun ip => triggerCond clock target_slot ip.2) with
  | none =>
    refine ⟨rfl, ?_, rfl, rfl, ?_⟩
    · intro ip hip; cases hip
    · intro v hv; cases hv
  | some ip =>
    have hc : triggerCond clock target_slot ip.2 = true := by
      have := List.find?_some hf
      simpa using this
    refine ⟨rfl, ?_, rfl, rfl, ?_⟩
    · intro x hx
      simp only [List.mem_singleton] at hx
      rw [hx]
      exact hc
    · intro v hv
      simp only [Option.some.injEq] at hv
      rw [← hv]
      unfold triggerCond at hc
      simp only [Bool.and_eq_true, decide_eq_true_eq] at hc
      exact hc

theorem slot_trigger_eval :
    (slot_trigger (SlotClock.new 0 100) 102
      [Poll.at 799, Poll.at 806, Poll.at 801, Poll.at 802]).triggerLog = [(2, Poll.at 801)] ∧
    (slot_trigger (SlotClock.new 0 100) 102
      [Poll.at 799, Poll.at 806, Poll.at 801, Poll.at 802]).resolved = some (102, 1) := by
  decide

/-! ### Follow-up orders -/

/-- C17: for a decision with action `BUY`, price `p` and amount `q`,
`createPendingOrdersFromStrategy` returns exactly three pending orders of the given user
and token, in this order: a sell at `p * (1 + min)` for `q * 0.5`, a sell at
`p * (1 + max)` for `q * 0.5`, and a stop-loss at `p * (1 - 0.03)` for `q`; the two
take-profit amounts add up to `q`. For every other action the result is empty. -/
theorem createPendingOrdersFromStrategy_spec (userId token : String)
    (decision : OrderDecision) (strategy : MultiTimeframeStrategy) (clock : Nat → Nat) :
    (decision.action = "BUY" →
      ∃ o1 o2 o3 : PendingOrder,
        createPendingOrdersFromStrategy userId token decision strategy clock = [o1, o2, o3] ∧
        (∀ o ∈ [o1, o2, o3], o.userId = userId ∧ o.token = token ∧
          o.status = OrderStatus.pending ∧ o.executedPrice = none ∧ o.executedAt = none) ∧
        o1.type = OrderType.sell ∧
        o1.triggerPrice = decision.price * (1 + strategy.takeProfitRange.min) ∧
        o1.amount = decision.amount * 0.5 ∧
        o2.type = OrderType.sell ∧
        o2.triggerPrice = decision.price * (1 + strategy.takeProfitRange.max) ∧
        o2.amount = decision.amount * 0.5 ∧
        o3.type = OrderType.stoploss ∧
        o3.triggerPrice = decision.price * (1 - 0.03) ∧
        o3.amount = decision.amount ∧
        o1.amount + o2.amount = decision.amount) ∧
    (decision.action ≠ "BUY" →
      createPendingOrdersFromStrategy userId token decision strategy clock = []) := by
  constructor
  · intro hbuy
    unfold createPendingOrdersFromStrategy
    rw [if_pos hbuy]
    refine ⟨_, _, _, rfl, ?_, rfl, rfl, rfl, rfl, rfl, rfl, rfl, ?_, rfl, ?_⟩
    · intro o ho
      simp only [List.mem_cons, List.mem_singleton, List.not_mem_nil, or_false] at ho
      rcases ho with h | h | h <;> rw [h] <;> exact ⟨rfl, rfl, rfl, rfl, rfl⟩
    · norm_num
    · simp only
      ring
  · intro hne
    unfold createPendingOrdersFromStrategy
    rw [if_neg hne]

/-- C17 witness: entry at price 100 for amount 2 with the default take-profit range. -/
theorem createPendingOrdersFromStrategy_spec_witness :
    ∃ o1 o2 o3 : PendingOrder,
      createPendingOrdersFromStrategy "u" "T" { action := "BUY", price := 100, amount := 2 }
        defaultStrategy (fun _ => 7) = [o1, o2, o3] ∧
      (∀ o ∈ [o1, o2, o3], o.userId = "u" ∧ o.token = "T" ∧
        o.status = OrderStatus.pending ∧ o.executedPrice = none ∧ o.executedAt = none) ∧
      o1.type = OrderType.sell ∧
      o1.triggerPrice = (100 : ℚ) * (1 + defaultStrategy.takeProfitRange.min) ∧
      o1.amount = (2 : ℚ) * 0.5 ∧
      o2.type = OrderType.sell ∧
      o2.triggerPrice = (100 : ℚ) * (1 + defaultStrategy.takeProfitRange.max) ∧
      o2.amount = (2 : ℚ) * 0.5 ∧
      o3.type = OrderType.stoploss ∧
      o3.triggerPrice = (100 : ℚ) * (1 - 0.03) ∧
      o3.amount = (2 : ℚ) ∧
      o1.amount + o2.amount = (2 : ℚ) :=
  (createPendingOrdersFromStrategy_spec "u" "T" { action := "BUY", price := 100, amount := 2 }
    defaultStrategy (fun _ => 7)).1 rfl

theorem checkLoop_executed_status (currentPrices : Prices) (cb : Option ExecuteCallback)
    (clock : Nat → Nat) (orders : List PendingOrder) :
    ∀ (i : Nat), ∀ x ∈ (checkLoop currentPrices cb clock i orders).executed,
      x.status = OrderStatus.executed := by
  induction orders with
  | nil => intro i x hx; simp [checkLoop] at hx
  | cons o rest ih =>
    intro i x hx
    simp only [checkLoop] at hx
    cases h2 : (checkOrder currentPrices cb (clock i) o).2 with
    | none =>
      rw [h2] at hx
      exact ih (i + 1) x hx
    | some t =>
      rw [h2] at hx
      rcases List.mem_cons.mp hx with h | h
      · rw [h]
        exact ((checkOrder_trade_iff currentPrices cb (clock i) o).mp (by simp [h2])).2
      · exact ih (i + 1) x h

theorem checkOrder_failed (currentPrices : Prices) (f : ExecuteCallback) (now : Nat)
    (order : PendingOrder) (c : ℚ) (hc : currentPrices order.token = some c)
    (hfail : f order c ≠ CallbackOutcome.resolved true) :
    (checkOrder currentPrices (some f) now order).1 = order := by
  have hok : executedOk (some f) order c = false := by
    unfold executedOk
    cases hf : f order c with
    | resolved ok =>
      cases ok with
      | true => exact absurd hf hfail
      | false => simp only [hf]
    | rejected => simp only [hf]
    | timedOut => simp only [hf]
  unfold checkOrder
  by_cases hp : order.status ≠ OrderStatus.pending
  · rw [if_pos hp]
  · rw [if_neg hp, hc]
    simp only
    by_cases hc0 : c = 0
    · rw [if_pos hc0]
    · rw [if_neg hc0]
      by_cases hs : shouldExecute order c = true
      · rw [if_pos hs, hok]
        rfl
      · rw [if_neg hs]

/-- C18: if for a matched pending order the guarded callback does not return true (it
returns false, rejects or times out), `checkAndExecutePendingOrders` leaves the order
exactly as it was (status `pending`, execution fields untouched), does not return it, and
still processes every order of the list on its own; the order is executed by a later
call whose execution succeeds. -/
theorem checkAndExecutePendingOrders_failure (orders : List PendingOrder)
    (currentPrices : Prices) (f : ExecuteCallback) (clock : Nat → Nat)
    (p : PendingOrder × PendingOrder) (c : ℚ)
    (hmem : p ∈ List.zip orders
      (checkAndExecutePendingOrders orders currentPrices (some f) clock).orders)
    (hpend : p.1.status = OrderStatus.pending)
    (hc : currentPrices p.1.token = some c) (hc0 : c ≠ 0)
    (hmatch : shouldExecute p.1 c = true)
    (hfail : f p.1 c ≠ CallbackOutcome.resolved true) :
    p.2 = p.1 ∧ p.2.status = OrderStatus.pending ∧
    p.2 ∉ (checkAndExecutePendingOrders orders currentPrices (some f) clock).executed ∧
    (checkAndExecutePendingOrders orders currentPrices (some f) clock).orders.length =
      orders.length ∧
    (∀ q ∈ List.zip orders
        (checkAndExecutePendingOrders orders currentPrices (some f) clock).orders,
      ∃ now, q.2 = (checkOrder currentPrices (some f) now q.1).1) ∧
    (∀ (cb : Option ExecuteCallback) (now : Nat),
      (∀ g, cb = some g → ∀ o x, g o x = CallbackOutcome.resolved true) →
      (checkOrder currentPrices cb now p.2).1.status = OrderStatus.executed ∧
      (checkOrder currentPrices cb now p.2).1.executedPrice = some c) := by
  obtain ⟨now, hnow⟩ := checkLoop_zip currentPrices (some f) clock orders 0 p hmem
  have heq : p.2 = p.1 := by
    rw [hnow]
    exact checkOrder_failed currentPrices f now p.1 c hc hfail
  refine ⟨heq, by rw [heq]; exact hpend, ?_, checkLoop_length _ _ _ _ _,
    fun q hq => checkLoop_zip currentPrices (some f) clock orders 0 q hq, ?_⟩
  · intro hin
    have := checkLoop_executed_status currentPrices (some f) clock orders 0 p.2 hin
    rw [heq, hpend] at this
    cases this
  · intro cb now' hcb
    rw [heq]
    exact (checkOrder_spec currentPrices cb hcb now' p.1 c hpend hc hc0).mpr hmatch

/-- C18 witness: the sell at trigger 103 with price 105 and a callback that rejects. -/
theorem checkAndExecutePendingOrders_failure_witness :
    (sampleSell 103, sampleSell 103).2 = (sampleSell 103, sampleSell 103).1 ∧
    (sampleSell 103, sampleSell 103).2.status = OrderStatus.pending ∧
    (sampleSell 103, sampleSell 103).2 ∉ (checkAndExecutePendingOrders
      [sampleSell 103, sampleSell 110] samplePrices (some rejectingCallback)
      (fun _ => 7)).executed ∧
    (checkAndExecutePendingOrders [sampleSell 103, sampleSell 110] samplePrices
      (some rejectingCallback) (fun _ => 7)).orders.length =
      [sampleSell 103, sampleSell 110].length ∧
    (∀ q ∈ List.zip [sampleSell 103, sampleSell 110]
        (checkAndExecutePendingOrders [sampleSell 103, sampleSell 110] samplePrices
          (some rejectingCallback) (fun _ => 7)).orders,
      ∃ now, q.2 = (checkOrder samplePrices (some rejectingCallback) now q.1).1) ∧
    (∀ (cb : Option ExecuteCallback) (now : Nat),
      (∀ g, cb = some g → ∀ o x, g o x = CallbackOutcome.resolved true) →
      (checkOrder samplePrices cb now (sampleSell 103, sampleSell 103).2).1.status =
        OrderStatus.executed ∧
      (checkOrder samplePrices cb now (sampleSell 103, sampleSell 103).2).1.executedPrice =
        some 105) :=
  checkAndExecutePendingOrders_failure [sampleSell 103, sampleSell 110] samplePrices
    rejectingCallback (fun _ => 7) (sampleSell 103, sampleSell 103) 105
    (by decide) (by decide) (by decide) (by decide) (by decide) (by decide)

/-! ### Order creation of the persistent monitor -/

theorem createNewOrders_eval :
    fileTokens (createNewOrders (archiveConfig 3) "u" (userWithTokens 2) (fun _ => 7) none) =
      ["T1", "T1", "T1"] ∧
    fileTokens (createNewOrders (archiveConfig 3) "u" (userWithTokens 2) (fun _ => 8)
      (createNewOrders (archiveConfig 3) "u" (userWithTokens 2) (fun _ => 7) none)) =
      ["T0", "T0", "T0"] := by
  decide

theorem hasPendingFor_append (orders extra : List PendingOrder) (address : String) :
    hasPendingFor (orders ++ extra) address =
      (hasPendingFor orders address || hasPendingFor extra address) := by
  unfold hasPendingFor
  rw [List.any_append]

theorem hasPendingFor_monitorOrders (userId : String) (user : MonitorUser) (address : String)
    (entryPrice : ℚ) (now : Nat) :
    hasPendingFor (monitorOrders userId user address entryPrice now) address = true := by
  simp [hasPendingFor, monitorOrders]

theorem monitorTokenStep_mono (userId : String) (user : MonitorUser) (now : Nat)
    (orders : List PendingOrder) (token : HoneyToken) (address : String)
    (h : hasPendingFor orders address = true) :
    hasPendingFor (monitorTokenStep userId user now orders token) address = true := by
  unfold monitorTokenStep
  by_cases hs : token.status ≠ some HoneyStatus.active
  · rw [if_pos hs]; exact h
  · rw [if_neg hs]
    cases he : truthyRat token.lastEntryPrice with
    | none => exact h
    | some e =>
      simp only
      by_cases hp : hasPendingFor orders token.address = true
      · rw [if_pos hp]; exact h
      · rw [if_neg hp, hasPendingFor_append, h]
        rfl

theorem monitorTokenStep_covers (userId : String) (user : MonitorUser) (now : Nat)
    (orders : List PendingOrder) (token : HoneyToken) (e : ℚ)
    (hs : token.status = some HoneyStatus.active)
    (he : truthyRat token.lastEntryPrice = some e) :
    hasPendingFor (monitorTokenStep userId user now orders token) token.address = true := by
  unfold monitorTokenStep
  rw [if_neg (by simp [hs]), he]
  simp only
  by_cases hp : hasPendingFor orders token.address = true
  · rw [if_pos hp]; exact hp
  · rw [if_neg hp, hasPendingFor_append, hasPendingFor_monitorOrders]
    simp

theorem monitorTokenStep_fixed (userId : String) (user : MonitorUser) (now : Nat)
    (orders : List PendingOrder) (token : HoneyToken)
    (h : token.status = some HoneyStatus.active →
      ∀ e, truthyRat token.lastEntryPrice = some e →
        hasPendingFor orders token.address = true) :
    monitorTokenStep userId user now orders token = orders := by
  unfold monitorTokenStep
  by_cases hs : token.status ≠ some HoneyStatus.active
  · rw [if_pos hs]
  · rw [if_neg hs]
    cases he : truthyRat token.lastEntryPrice with
    | none => rfl
    | some e =>
      simp only
      rw [if_pos (h (by simpa using hs) e he)]

theorem monitorTokenLoop_covers (userId : String) (user : MonitorUser) (clock : Nat → Nat)
    (tokens : List HoneyToken) :
    ∀ (i : Nat) (orders : List PendingOrder),
      (∀ a, hasPendingFor orders a = true →
        hasPendingFor (monitorTokenLoop userId user clock i tokens orders) a = true) ∧
      (∀ tok ∈ tokens, tok.status = some HoneyStatus.active →
        ∀ e, truthyRat tok.lastEntryPrice = some e →
          hasPendingFor (monitorTokenLoop userId user clock i tokens orders) tok.address = true) := by
  induction tokens with
  | nil =>
    intro i orders
    exact ⟨fun _ h => h, fun tok htok => by cases htok⟩
  | cons t rest ih =>
    intro i orders
    obtain ⟨ih1, ih2⟩ := ih (i + 1) (monitorTokenStep userId user (clock i) orders t)
    constructor
    · intro a ha
      exact ih1 a (monitorTokenStep_mono userId user (clock i) orders t a ha)
    · intro tok htok hs e he
      rcases List.mem_cons.mp htok with h | h
      · rw [h]
        exact ih1 _ (monitorTokenStep_covers userId user (clock i) orders t e (h ▸ hs) (h ▸ he))
      · exact ih2 tok h hs e he

theorem monitorTokenLoop_fixed (userId : String) (user : MonitorUser) (clock : Nat → Nat)
    (tokens : List HoneyToken) :
    ∀ (i : Nat) (orders : List PendingOrder),
      (∀ tok ∈ tokens, tok.status = some HoneyStatus.active →
        ∀ e, truthyRat tok.lastEntryPrice = some e →
          hasPendingFor orders tok.address = true) →
      monitorTokenLoop userId user clock i tokens orders = orders := by
  induction tokens with
  | nil => intro i orders _; rfl
  | cons t rest ih =>
    intro i orders h
    have hstep := monitorTokenStep_fixed userId user (clock i) orders t
      (h t (List.mem_cons_self _ _))
    rw [monitorTokenLoop, hstep]
    exact ih (i + 1) orders (fun tok htok => h tok (List.mem_cons_of_mem _ htok))

set_option maxRecDepth 100000 in
/-- C19 (as stated) fails when the cap `MAX_ORDERS_PER_USER` truncates the list. With the
default cap 50, 18 active tokens and an empty order file, the first call stores the last
50 of 54 new orders, which leaves `T0` without a pending order, and the second call
creates orders for `T0` again. With cap 3 and two tokens the same happens. -/
theorem createNewOrders_idempotent_counterexample :
    createNewOrders (archiveConfig 50) "u" (userWithTokens 18) (fun _ => 7)
        (createNewOrders (archiveConfig 50) "u" (userWithTokens 18) (fun _ => 7) none) ≠
      createNewOrders (archiveConfig 50) "u" (userWithTokens 18) (fun _ => 7) none ∧
    createNewOrders (archiveConfig 3) "u" (userWithTokens 2) (fun _ => 7)
        (createNewOrders (archiveConfig 3) "u" (userWithTokens 2) (fun _ => 7) none) ≠
      createNewOrders (archiveConfig 3) "u" (userWithTokens 2) (fun _ => 7) none := by
  constructor
  · intro h
    have h2 := congrArg fileTokens h
    revert h2
    decide
  · intro h
    have h2 := congrArg fileTokens h
    revert h2
    decide

/-- C19 (amended): `createNewOrders` adds orders for a token only when the list holds no
pending order of that token, and when the list built by a call does not exceed
`MAX_ORDERS_PER_USER` (nothing is truncated), a second call in succession leaves the
order file as the first call left it. -/
theorem createNewOrders_idempotent (config : MonitorConfig) (userId : String)
    (user : MonitorUser) (clock1 clock2 : Nat → Nat) (file : Option (List PendingOrder))
    (hfit : ∀ tokens, user.tokens = some tokens →
      ((monitorTokenLoop userId user clock1 0 tokens (loadedOrders file)).length : Int) ≤
        config.MAX_ORDERS_PER_USER) :
    createNewOrders config userId user clock2
        (createNewOrders config userId user clock1 file) =
      createNewOrders config userId user clock1 file ∧
    (∀ (now : Nat) (orders : List PendingOrder) (token : HoneyToken),
      monitorTokenStep userId user now orders token ≠ orders →
        hasPendingFor orders token.address = false) := by
  constructor
  · cases htok : user.tokens with
    | none => simp only [createNewOrders, htok]
    | some tokens =>
      have hfit' := hfit tokens htok
      generalize hres : monitorTokenLoop userId user clock1 0 tokens (loadedOrders file) = res
        at hfit'
      have hnot : ¬ (res.length : Int) > config.MAX_ORDERS_PER_USER := by omega
      have hcov := (monitorTokenLoop_covers userId user clock1 tokens 0 (loadedOrders file)).2
      rw [hres] at hcov
      have hfix := monitorTokenLoop_fixed userId user clock2 tokens 0 res hcov
      by_cases hw : res.length > 0 ∧ config.ENABLE_ARCHIVE = true
      · have h1 : createNewOrders config userId user clock1 file = some res := by
          simp only [createNewOrders, htok, hres]
          rw [if_pos hw, if_neg hnot]
        rw [h1]
        simp only [createNewOrders, htok]
        have hl : loadedOrders (some res) = res := rfl
        rw [hl, hfix, if_pos hw, if_neg hnot]
      · have h1 : createNewOrders config userId user clock1 file = file := by
          simp only [createNewOrders, htok, hres]
          rw [if_neg hw]
        rw [h1]
        by_cases harch : config.ENABLE_ARCHIVE = true
        · -- nothing was built: no token qualifies, so the second call builds nothing either
          have hnil : res = [] := by
            cases res with
            | nil => rfl
            | cons a l => exact absurd ⟨by simp, harch⟩ hw
          have hnone : ∀ tok ∈ tokens, tok.status = some HoneyStatus.active →
              ∀ e, truthyRat tok.lastEntryPrice = some e →
                hasPendingFor (loadedOrders file) tok.address = true := by
            intro tok hmem hs e he
            have h := hcov tok hmem hs e he
            rw [hnil] at h
            exact absurd h (by simp [hasPendingFor])
          have h2 := monitorTokenLoop_fixed userId user clock2 tokens 0 _ hnone
          have h3 := monitorTokenLoop_fixed userId user clock1 tokens 0 _ hnone
          simp only [createNewOrders, htok]
          rw [h2, ← h3, hres, if_neg hw]
        · simp only [createNewOrders, htok]
          rw [if_neg (fun h => harch h.2)]
  · intro now orders token hne
    by_contra hp
    apply hne
    unfold monitorTokenStep
    by_cases hs : token.status ≠ some HoneyStatus.active
    · rw [if_pos hs]
    · rw [if_neg hs]
      cases he : truthyRat token.lastEntryPrice with
      | none => rfl
      | some e =>
        simp only
        rw [if_pos (by simpa using hp)]

/-- Witness for `createNewOrders_idempotent`: cap 50, two active tokens, no order file. -/
theorem createNewOrders_idempotent_witness :
    createNewOrders (archiveConfig 50) "u" (userWithTokens 2) (fun _ => 8)
        (createNewOrders (archiveConfig 50) "u" (userWithTokens 2) (fun _ => 7) none) =
      createNewOrders (archiveConfig 50) "u" (userWithTokens 2) (fun _ => 7) none ∧
    fileTokens (createNewOrders (archiveConfig 50) "u" (userWithTokens 2) (fun _ => 7) none) =
      ["T0", "T0", "T0", "T1", "T1", "T1"] :=
  ⟨(createNewOrders_idempotent (archiveConfig 50) "u" (userWithTokens 2) (fun _ => 7)
      (fun _ => 8) none (by
        intro tokens h
        have ht : tokens = [activeToken "T0", activeToken "T1"] := by
          have h2 : (userWithTokens 2).tokens = some [activeToken "T0", activeToken "T1"] := by
            decide
          rw [h2] at h
          exact (Option.some.inj h).symm
        rw [ht]
        decide)).1, by decide⟩

theorem updateMint_plain (slot : Int) (kind logs : String) (auth : Option String)
    (b : SlotBucket) (m : String)
    (hb : ∀ key e, mget b.mints key = some e → EntryPlain e) :
    ∀ key e, mget (updateMint slot kind logs auth b m).mints key = some e → EntryPlain e := by
  intro key e he
  rw [updateMint_mints] at he
  by_cases hk : m = key
  · subst hk
    rw [mget_mset_same] at he
    have he' := Option.some.inj he
    subst he'
    cases hm : mget b.mints m with
    | none =>
      refine ⟨rfl, ?_⟩
      intro i hi
      simp only at hi
      rcases mintFlags_bit _ _ _ _ hi with h | h | h | h
      · simp at h
      · exact Or.inl h
      · exact Or.inr (Or.inl h)
      · exact Or.inr (Or.inr h)
    | some e0 =>
      have h0 := hb m e0 hm
      refine ⟨h0.1, ?_⟩
      intro i hi
      simp only at hi
      rcases mintFlags_bit _ _ _ _ hi with h | h | h | h
      · exact h0.2 i h
      · exact Or.inl h
      · exact Or.inr (Or.inl h)
      · exact Or.inr (Or.inr h)
  · rw [mget_mset_other _ _ _ _ hk] at he
    exact hb key e he

theorem foldl_updateMint_plain (slot : Int) (kind logs : String) (auth : Option String)
    (fresh : List String) :
    ∀ b : SlotBucket, (∀ key e, mget b.mints key = some e → EntryPlain e) →
      ∀ key e, mget (fresh.foldl (updateMint slot kind logs auth) b).mints key = some e →
        EntryPlain e := by
  induction fresh with
  | nil => intro b hb; exact hb
  | cons m rest ih =>
    intro b hb
    exact ih _ (updateMint_plain slot kind logs auth b m hb)

theorem entriesPlain_ensureSlot (eng : LedgerSignalEngine) (h : EntriesPlain eng) (now : Nat)
    (slot : Int) : EntriesPlain (ensureSlot eng now slot) := by
  unfold ensureSlot
  by_cases hh : mhas eng.slotBuckets slot = true
  · rw [if_pos hh]
    exact h
  · rw [if_neg hh]
    intro s b key e hb he
    simp only at hb
    have hb' := trimWindow_mget _ _ _ s b hb
    by_cases hs : slot = s
    · subst hs
      rw [mget_mset_same] at hb'
      have := Option.some.inj hb'
      subst this
      simp [mget] at he
    · rw [mget_mset_other _ _ _ _ hs] at hb'
      exact h s b key e hb' he

theorem entriesPlain_processEvent (eng : LedgerSignalEngine) (h : EntriesPlain eng) (now : Nat)
    (ev : LedgerEvent) : EntriesPlain (processEvent eng now ev) := by
  cases hs : resolveSlot ev with
  | none =>
    have he : processEvent eng now ev = eng := by
      unfold processEvent
      rw [hs]
    rw [he]
    exact h
  | some sl =>
    have h1 := entriesPlain_ensureSlot eng h now sl
    cases hb : mget (ensureSlot eng now sl).slotBuckets sl with
    | none =>
      have he : processEvent eng now ev = ensureSlot eng now sl := by
        unfold processEvent
        rw [hs]
        simp only [hb]
      rw [he]
      exact h1
    | some b0 =>
      rw [processEvent_eq eng now ev sl b0 hs hb]
      intro s b key e hsb he
      simp only at hsb
      by_cases hne : sl = s
      · subst hne
        rw [mget_mset_same] at hsb
        have := Option.some.inj hsb
        subst this
        exact foldl_updateMint_plain _ _ _ _ _ { b0 with count := b0.count + 1 }
          (fun k e0 hk => h1 sl b0 k e0 hb hk) key e he
      · rw [mget_mset_other _ _ _ _ hne] at hsb
        exact h1 s b key e hsb he

theorem entriesPlain_run (opts : EngineOpts) (evs : List (Nat × LedgerEvent)) :
    EntriesPlain (runEngine opts evs) := by
  have hgen : ∀ (l : List (Nat × LedgerEvent)) (eng : LedgerSignalEngine), EntriesPlain eng →
      EntriesPlain (l.foldl (fun eng e => processEvent eng e.1 e.2) eng) := by
    intro l
    induction l with
    | nil => intro eng h; exact h
    | cons e rest ih => intro eng h; exact ih _ (entriesPlain_processEvent eng h e.1 e.2)
  apply hgen
  intro s b key e hb
  simp [LedgerSignalEngine.new, mget] at hb

theorem lpCond_plain (b : SlotBucket) (key : String)
    (h : ∀ e, mget b.mints key = some e → EntryPlain e) :
    lpCond (mget b.mints key) = false := by
  cases hm : mget b.mints key with
  | none => rfl
  | some e =>
    have := (h e hm).1
    unfold lpCond
    simp only [this, truthyStr]
    decide

set_option maxRecDepth 100000 in
/-- C11 (as stated) fails in both directions. After three transfers that reference
`mint1` from one source to one destination, the records form 1 destination group with 1
source, and the clean-funding bit is not set (the group holds 3 records). After three
transfers from one source to three destinations, the records form 3 destination groups,
and the bit is set (each group holds 1 record). -/
theorem cleanFunding_spec_counterexample :
    (sameDestEngine.slotOrder = [100] ∧
      (relevantOf sameDestEngine "mint1" 100).length = 3 ∧
      (groupByTo (relevantOf sameDestEngine "mint1" 100)).length = 1 ∧
      (((relevantOf sameDestEngine "mint1" 100).map fromGroupKey).dedup).length = 1 ∧
      cleanFundingSpec sameDestEngine "mint1" = true ∧
      (getMaskForMint sameDestEngine "mint1" 100).testBit 12 = false) ∧
    (fanOutEngine.slotOrder = [100] ∧
      (groupByTo (relevantOf fanOutEngine "mint1" 100)).length = 3 ∧
      cleanFundingSpec fanOutEngine "mint1" = false ∧
      (getMaskForMint fanOutEngine "mint1" 100).testBit 12 = true) ∧
    BIT_CLEAN_FUNDING = 2 ^ 12 := by
  decide

/-- C11 (amended): after any sequence of events, `getMaskForMint` sets the clean-funding
bit (`BIT_CLEAN_FUNDING`, bit 12) for an entity if and only if, for some retained slot,
the transfer records of that slot that reference the entity contain a destination group
of at most 2 records with at most 2 distinct sources. -/
theorem cleanFunding_iff_small_group (opts : EngineOpts) (evs : List (Nat × LedgerEvent))
    (mint : String) (slot : Int) :
    BIT_CLEAN_FUNDING = 2 ^ 12 ∧
    ((getMaskForMint (runEngine opts evs) mint slot).testBit 12 = true ↔
      ∃ s ∈ (runEngine opts evs).slotOrder,
        ∃ g ∈ groupByTo (relevantOf (runEngine opts evs) mint s),
          g.2.length ≤ 2 ∧ ((g.2.map fromGroupKey).dedup).length ≤ 2) := by
  refine ⟨bit_values.2.2.2.2.2.2.1, ?_⟩
  have hplain := entriesPlain_run opts evs
  have hwin := windowInv_run opts evs
  rw [getMaskForMint_bit _ _ _ 12 (by decide)]
  constructor
  · rintro ⟨s, hs, b, hb, hbit⟩
    refine ⟨s, hs, ?_⟩
    rcases hbit with ⟨e, he, hfl⟩ | ⟨h, _⟩ | ⟨h, _⟩ | ⟨h, _⟩ | ⟨_, g, hg, hc⟩ | ⟨h, _⟩
    · rcases (hplain s b mint e hb he).2 12 hfl with h | h | h <;> omega
    · omega
    · omega
    · omega
    · refine ⟨g, hg, ?_⟩
      simpa [cleanGroup] using hc
    · omega
  · rintro ⟨s, hs, g, hg, hc⟩
    have hmem : s ∈ (runEngine opts evs).slotBuckets.map Prod.fst := by
      rw [hwin.keys_eq]; exact hs
    have hsome := (mget_isSome_iff _ s).2 hmem
    cases hb : mget (runEngine opts evs).slotBuckets s with
    | none => rw [hb] at hsome; cases hsome
    | some b =>
      refine ⟨s, hs, b, hb, ?_⟩
      right; right; right; right; left
      refine ⟨rfl, g, hg, ?_⟩
      simpa [cleanGroup] using hc

/-- C12 (code): the liquidity-structure bit (`BIT_LP_STRUCT`, bit 11) is never set.
`processEvent` never assigns `sampleLogs` of an entry and never ORs the bit into its
flags, so after any sequence of events `getMaskForMint` returns a mask without bit 11;
in particular after `lpEvent`, whose log text holds all four keywords. -/
theorem lp_struct_never_set (opts : EngineOpts) (evs : List (Nat × LedgerEvent))
    (mint : String) (slot : Int) :
    BIT_LP_STRUCT = 2 ^ 11 ∧
    (getMaskForMint (runEngine opts evs) mint slot).testBit 11 = false ∧
    (includes (resolveLogs lpEvent) "liquidity" = true ∧
      includes (resolveLogs lpEvent) "vault" = true ∧
      includes (resolveLogs lpEvent) "pool" = true ∧
      includes (resolveLogs lpEvent) "lp" = true ∧
      lpEngine.slotOrder = [100] ∧
      getMaskForMint lpEngine "Mint1" 100 = BIT_SLOT_ALIGNED) := by
  refine ⟨bit_values.2.2.2.2.2.1, ?_, by decide⟩
  have hplain := entriesPlain_run opts evs
  cases hv : (getMaskForMint (runEngine opts evs) mint slot).testBit 11 with
  | false => rfl
  | true =>
    exfalso
    rw [getMaskForMint_bit _ _ _ 11 (by decide)] at hv
    obtain ⟨s, hs, b, hb, hbit⟩ := hv
    rcases hbit with ⟨e, he, hfl⟩ | ⟨h, _⟩ | ⟨h, _⟩ | ⟨_, hlp⟩ | ⟨h, _⟩ | ⟨h, _⟩
    · rcases (hplain s b mint e hb he).2 11 hfl with h | h | h <;> omega
    · omega
    · omega
    · rw [lpCond_plain b mint (fun e he => hplain s b mint e hb he)] at hlp
      cases hlp
    · omega
    · omega

theorem honeySell_entry (env : HoneyEnv) (currentPrice : ℚ) (profit sold : List ℚ)
    (st : HoneyToken × List HoneyTrade) (i : Nat) :
    (honeySell env currentPrice profit sold st i).1.lastEntryPrice = st.1.lastEntryPrice := by
  unfold honeySell
  simp only
  split
  · rfl
  · split
    · rfl
    · split
      · rfl
      · split <;> rfl

theorem stageStep_entry (env : HoneyEnv) (currentPrice : ℚ) (profit sold : List ℚ)
    (st : HoneyToken × List HoneyTrade) (i : Nat) :
    (stageStep env currentPrice profit sold st i).1.lastEntryPrice = st.1.lastEntryPrice := by
  unfold stageStep
  split
  · split
    · exact honeySell_entry env currentPrice profit sold st i
    · rfl
  · rfl

theorem stageLoop_entry (env : HoneyEnv) (currentPrice : ℚ) (profit sold : List ℚ)
    (token : HoneyToken) :
    (stageLoop env currentPrice profit sold token).1.lastEntryPrice =
      token.lastEntryPrice := by
  unfold stageLoop
  simp only
  generalize List.range' _ _ = idx
  have hgen : ∀ (l : List Nat) (st : HoneyToken × List HoneyTrade),
      (l.foldl (stageStep env currentPrice profit sold) st).1.lastEntryPrice =
        st.1.lastEntryPrice := by
    intro l
    induction l with
    | nil => intro st; rfl
    | cons i rest ih =>
      intro st
      rw [List.foldl_cons, ih, stageStep_entry]
  exact hgen idx (token, [])

theorem stageLoop_unsold :
    stageLoop (priceEnv 90) 90 [10, 20] [50, 50] unsoldToken = (unsoldToken, []) := by
  have h1 : ¬ ((90 : ℚ) ≥ 100 * (1 + 10 / 100)) := by norm_num
  have h2 : ¬ ((90 : ℚ) ≥ 100 * (1 + 20 / 100)) := by norm_num
  simp [stageLoop, unsoldToken, List.range', stageStep, h1, h2]

/-- C20 (code): the reset of `executeHoneyStrategy` does not look at the stages sold. For
a valid, unfinished token with an entry price, `repeatOnEntry` on, a current price at or
below the entry price and configured `soldPercents` that sum to at least 100, the pass
resets the token (entry and sell price cleared, status `pending`, stage 0, `finished`
false), whatever `currentStage` is. -/
theorem honeyTokenStep_resets_unsold (env : HoneyEnv) (token : HoneyToken)
    (profit sold : List ℚ) (entry price : ℚ)
    (hvalid : honeyInvalid token = false) (hfin : token.finished ≠ some true)
    (hprice : env.getPrice token.address = some price)
    (hentry : token.lastEntryPrice = some entry) (he0 : entry ≠ 0)
    (hpp : token.profitPercents = some profit) (hsp : token.soldPercents = some sold)
    (hsum : sold.foldl (fun a b => a + b) 0 ≥ 100) (hrep : env.repeatOnEntry = true)
    (hle : price ≤ entry) :
    (honeyTokenStep env token).1.lastEntryPrice = none ∧
    (honeyTokenStep env token).1.lastSellPrice = none ∧
    (honeyTokenStep env token).1.status = some HoneyStatus.pending ∧
    (honeyTokenStep env token).1.currentStage = some 0 ∧
    (honeyTokenStep env token).1.finished = some false := by
  have hstep : (honeyTokenStep env token).1 =
      honeyReset env price sold (stageLoop env price profit sold token).1 := by
    unfold honeyTokenStep
    rw [if_neg (by simp [hvalid]), if_neg hfin, hprice]
    simp only [hentry, truthyRat, he0, if_false, hpp, hsp]
  have hreset : honeyReset env price sold (stageLoop env price profit sold token).1 =
      { (stageLoop env price profit sold token).1 with
        finished := some false, lastEntryPrice := none, lastSellPrice := none,
        status := some HoneyStatus.pending, currentStage := some 0, lastTxId := none } := by
    unfold honeyReset
    simp only
    rw [if_pos]
    refine ⟨hsum, hrep, ?_⟩
    rw [stageLoop_entry, hentry]
    exact hle
  rw [hstep, hreset]
  exact ⟨rfl, rfl, rfl, rfl, rfl⟩

/-- Witness for `honeyTokenStep_resets_unsold`: a token bought at 100 with stages +10 % and
+20 %, none sold, at price 90: the pass sells nothing and resets the token. -/
theorem honeyTokenStep_resets_unsold_witness :
    unsoldToken.currentStage = some 0 ∧
    unsoldToken.profitPercents = some [10, 20] ∧
    stageLoop (priceEnv 90) 90 [10, 20] [50, 50] unsoldToken = (unsoldToken, []) ∧
    ((honeyTokenStep (priceEnv 90) unsoldToken).1.lastEntryPrice = none ∧
      (honeyTokenStep (priceEnv 90) unsoldToken).1.lastSellPrice = none ∧
      (honeyTokenStep (priceEnv 90) unsoldToken).1.status = some HoneyStatus.pending ∧
      (honeyTokenStep (priceEnv 90) unsoldToken).1.currentStage = some 0 ∧
      (honeyTokenStep (priceEnv 90) unsoldToken).1.finished = some false) :=
  ⟨rfl, rfl, stageLoop_unsold,
    honeyTokenStep_resets_unsold (priceEnv 90) unsoldToken [10, 20] [50, 50] 100 90
      (by decide) (by decide) rfl rfl (by norm_num) rfl rfl (by norm_num [List.foldl]) rfl
      (by norm_num)⟩

theorem honeyTokenStep_finished (env : HoneyEnv) (token : HoneyToken)
    (hvalid : honeyInvalid token = false) (hfin : token.finished = some true) :
    honeyTokenStep env token = ({ token with status := some HoneyStatus.sold }, []) := by
  unfold honeyTokenStep
  rw [if_neg (by simp [hvalid]), if_pos hfin]

/-- C21 (code): a finished token is never reset. For a valid token with `finished` true,
every strategy cycle, whatever the price and the `repeatOnEntry` setting, only sets the
status to `sold` and records no trade: after any number of cycles `finished` is still
true and `lastEntryPrice`, `lastSellPrice` and `currentStage` are unchanged. -/
theorem honeyTokenStep_finished_never_reset (envs : List HoneyEnv) (token : HoneyToken)
    (hvalid : honeyInvalid token = false) (hfin : token.finished = some true)
    (hne : envs ≠ []) :
    honeyCycles envs token = { token with status := some HoneyStatus.sold } ∧
    (honeyCycles envs token).finished = some true ∧
    (honeyCycles envs token).lastEntryPrice = token.lastEntryPrice ∧
    (honeyCycles envs token).currentStage = token.currentStage ∧
    (∀ env ∈ envs, (honeyTokenStep env token).2 = []) := by
  have hstable : ∀ (l : List HoneyEnv) (t : HoneyToken), honeyInvalid t = false →
      t.finished = some true → t.status = some HoneyStatus.sold → honeyCycles l t = t := by
    intro l
    induction l with
    | nil => intro t _ _ _; rfl
    | cons env rest ih =>
      intro t hv hf hs
      have hstep : (honeyTokenStep env t).1 = t := by
        rw [honeyTokenStep_finished env t hv hf]
        cases t
        simp only at hs
        simp only [hs]
      unfold honeyCycles at ih ⊢
      rw [List.foldl_cons, hstep]
      exact ih t hv hf hs
  have hmain : honeyCycles envs token = { token with status := some HoneyStatus.sold } := by
    cases envs with
    | nil => exact absurd rfl hne
    | cons env rest =>
      have h1 : honeyCycles (env :: rest) token =
          honeyCycles rest { token with status := some HoneyStatus.sold } := by
        unfold honeyCycles
        rw [List.foldl_cons, honeyTokenStep_finished env token hvalid hfin]
      rw [h1]
      exact hstable rest _ hvalid hfin rfl
  refine ⟨hmain, ?_, ?_, ?_, ?_⟩
  · rw [hmain]; exact hfin
  · rw [hmain]
  · rw [hmain]
  · intro env _
    rw [honeyTokenStep_finished env token hvalid hfin]

/-- Witness for `honeyTokenStep_finished_never_reset`: the sold token over two cycles at
price 90, below its entry price 100, with `repeatOnEntry` on. -/
theorem honeyTokenStep_finished_never_reset_witness :
    (priceEnv 90).repeatOnEntry = true ∧ (priceEnv 90).getPrice "T" = some 90 ∧
    soldToken.lastEntryPrice = some 100 ∧
    (honeyCycles [priceEnv 90, priceEnv 90] soldToken = soldToken ∧
      (honeyCycles [priceEnv 90, priceEnv 90] soldToken).finished = some true ∧
      (honeyCycles [priceEnv 90, priceEnv 90] soldToken).lastEntryPrice =
        soldToken.lastEntryPrice ∧
      (honeyCycles [priceEnv 90, priceEnv 90] soldToken).currentStage =
        soldToken.currentStage ∧
      (∀ env ∈ [priceEnv 90, priceEnv 90], (honeyTokenStep env soldToken).2 = [])) :=
  ⟨rfl, rfl, rfl,
    honeyTokenStep_finished_never_reset [priceEnv 90, priceEnv 90] soldToken (by decide) rfl
      (by simp)⟩

/-! ### Readiness score: monotonicity and the two copies -/

theorem testBit_of_and_eq (m m' : Nat) (h : m &&& m' = m) (i : Nat)
    (hi : m.testBit i = true) : m'.testBit i = true := by
  rw [← h, Nat.testBit_and, Bool.and_eq_true] at hi
  exact hi.2

theorem and_ne_zero_mono (m m' b : Nat) (h : m &&& m' = m) (hb : m &&& b ≠ 0) :
    m' &&& b ≠ 0 := by
  obtain ⟨i, hi⟩ := Nat.ne_zero_implies_bit_true hb
  rw [Nat.testBit_and, Bool.and_eq_true] at hi
  intro hz
  have h2 : (m' &&& b).testBit i = true := by
    rw [Nat.testBit_and, Bool.and_eq_true]
    exact ⟨testBit_of_and_eq m m' h i hi.1, hi.2⟩
  rw [hz, Nat.zero_testBit] at h2
  cases h2

theorem and_eq_mono (m m' c : Nat) (h : m &&& m' = m) (hc : m &&& c = c) :
    m' &&& c = c := by
  apply Nat.eq_of_testBit_eq
  intro i
  rw [Nat.testBit_and]
  cases hci : c.testBit i with
  | false => simp
  | true =>
    have h1 : (m &&& c).testBit i = true := by rw [hc]; exact hci
    rw [Nat.testBit_and, Bool.and_eq_true] at h1
    rw [testBit_of_and_eq m m' h i h1.1]
    rfl

theorem addWeights_mono (table : List (Nat × ℚ)) (hpos : ∀ e ∈ table, 0 ≤ e.2)
    (m m' : Nat) (h : m &&& m' = m) :
    ∀ s s' : ℚ, s ≤ s' → addWeights table m s ≤ addWeights table m' s' := by
  induction table with
  | nil => intro s s' hs; exact hs
  | cons e rest ih =>
    intro s s' hs
    have he : 0 ≤ e.2 := hpos e (List.mem_cons_self _ _)
    have ih' := ih (fun x hx => hpos x (List.mem_cons_of_mem _ hx))
    unfold addWeights at ih' ⊢
    rw [List.foldl_cons, List.foldl_cons]
    apply ih'
    by_cases hb : m &&& e.1 ≠ 0
    · rw [if_pos hb, if_pos (and_ne_zero_mono m m' e.1 h hb)]
      linarith
    · rw [if_neg hb]
      by_cases hb' : m' &&& e.1 ≠ 0
      · rw [if_pos hb']; linarith
      · rw [if_neg hb']; exact hs

theorem ledgerStrongOf_eq (l : Nat) : ledgerStrongOf l = decide (popcount l ≥ 2) := by
  unfold ledgerStrongOf
  rw [countSetBits_eq, Nat.zero_add]
  simp

theorem ledgerStrongOf_mono (l l' : Nat) (h : l &&& l' = l)
    (hs : ledgerStrongOf l = true) : ledgerStrongOf l' = true := by
  rw [ledgerStrongOf_eq] at hs ⊢
  have hle := popcount_mono l l' (testBit_of_and_eq l l' h)
  simp only [decide_eq_true_eq] at hs ⊢
  omega

theorem triggerDecision_mono (m m' : Nat) (s s' : ℚ) (ls ls' : Bool) (th : ℚ)
    (h : m &&& m' = m) (hs : s ≤ s') (hls : ls = true → ls' = true)
    (ht : triggerDecision m s ls th = true) : triggerDecision m' s' ls' th = true := by
  unfold triggerDecision at ht ⊢
  simp only [Bool.or_eq_true, Bool.and_eq_true, decide_eq_true_eq] at ht ⊢
  rcases ht with ⟨htr, hcore | hsc⟩ | ⟨hl, htr⟩
  · exact Or.inl ⟨and_ne_zero_mono m m' _ h htr, Or.inl (and_eq_mono m m' _ h hcore)⟩
  · exact Or.inl ⟨and_ne_zero_mono m m' _ h htr, Or.inr (le_trans hsc hs)⟩
  · exact Or.inr ⟨hls hl, and_ne_zero_mono m m' _ h htr⟩

/-- C29: the trigger decision of both scripts is monotone in evidence. If the bits of
`m'` include those of `m` and the bits of `l'` those of `l`, then for every threshold the
score at `(m', l')` is at least the score at `(m, l)`, the ledger-strong flag
(`popcount ≥ 2`) stays on, and a trigger at `(m, l)` is a trigger at `(m', l')`. -/
theorem trigger_monotone (m m' l l' : Nat) (th : ℚ)
    (hm : m &&& m' = m) (hl : l &&& l' = l) :
    (ledgerStrongOf l = decide (popcount l ≥ 2)) ∧
    (ledgerStrongOf l = true → ledgerStrongOf l' = true) ∧
    AnalyzeRawEvents.scoreFromMask m l ≤ AnalyzeRawEvents.scoreFromMask m' l' ∧
    ExperimentThresholds.scoreFromMask m l ≤ ExperimentThresholds.scoreFromMask m' l' ∧
    (AnalyzeRawEvents.triggered m l (ledgerStrongOf l) th = true →
      AnalyzeRawEvents.triggered m' l' (ledgerStrongOf l') th = true) ∧
    (ExperimentThresholds.triggered m l (ledgerStrongOf l) th = true →
      ExperimentThresholds.triggered m' l' (ledgerStrongOf l') th = true) := by
  obtain ⟨_, hwp, _, hap, _, hep⟩ := weights_sum
  have hprobe := addWeights_mono WEIGHTS hwp m m' hm 0 0 (le_refl 0)
  have ha : AnalyzeRawEvents.scoreFromMask m l ≤ AnalyzeRawEvents.scoreFromMask m' l' :=
    addWeights_mono _ hap l l' hl _ _ hprobe
  have he : ExperimentThresholds.scoreFromMask m l ≤
      ExperimentThresholds.scoreFromMask m' l' :=
    addWeights_mono _ hep l l' hl _ _ hprobe
  refine ⟨ledgerStrongOf_eq l, ledgerStrongOf_mono l l' hl, ha, he, ?_, ?_⟩
  · exact triggerDecision_mono m m' _ _ _ _ th hm ha (ledgerStrongOf_mono l l' hl)
  · exact triggerDecision_mono m m' _ _ _ _ th hm he (ledgerStrongOf_mono l l' hl)

/-- Witness for `trigger_monotone`: the forced probe mask 28 with ledger mask 192 (two
bits, a strong signal) triggers at threshold 0.8, and so does 63 with 448. -/
theorem trigger_monotone_witness :
    AnalyzeRawEvents.triggered 28 192 (ledgerStrongOf 192) (4 / 5) = true ∧
    AnalyzeRawEvents.triggered 63 448 (ledgerStrongOf 448) (4 / 5) = true ∧
    AnalyzeRawEvents.scoreFromMask 28 192 ≤ AnalyzeRawEvents.scoreFromMask 63 448 :=
  have h := trigger_monotone 28 63 192 448 (4 / 5) (by decide) (by decide)
  have h0 : AnalyzeRawEvents.triggered 28 192 (ledgerStrongOf 192) (4 / 5) = true := by decide!
  ⟨h0, h.2.2.2.2.1 h0, h.2.2.1⟩

/-- C30 (code): the two copies of the score disagree on masks of the engine. After the
event of `test_ledger_engine.js` the engine reports the mask 9152 (AccountCreated,
ATACreated, SameAuthority, ProgramInit and slot-aligned): the score of
`analyze_raw_events.js` is 0.20, that of `experiment_thresholds.js` 0.11. For the mask 64
(AccountCreated alone) the scores are 0.06 and 0. The table of `experiment_thresholds.js`
puts the five weights on the bits `1<<8 .. 1<<12`. -/
theorem scoreFromMask_copies_differ :
    getMaskForMint scriptEngine "Mint1" 100 = 9152 ∧
    AnalyzeRawEvents.scoreFromMask 0 (getMaskForMint scriptEngine "Mint1" 100) = 1 / 5 ∧
    ExperimentThresholds.scoreFromMask 0 (getMaskForMint scriptEngine "Mint1" 100) = 11 / 100 ∧
    AnalyzeRawEvents.scoreFromMask 0 BIT_ACCOUNT_CREATED = 3 / 50 ∧
    ExperimentThresholds.scoreFromMask 0 BIT_ACCOUNT_CREATED = 0 ∧
    AnalyzeRawEvents.LEDGER_WEIGHTS.map Prod.fst = [64, 128, 256, 512, 1024] ∧
    ExperimentThresholds.LEDGER_WEIGHTS.map Prod.fst = [256, 512, 1024, 2048, 4096] ∧
    AnalyzeRawEvents.LEDGER_WEIGHTS.map Prod.snd =
      ExperimentThresholds.LEDGER_WEIGHTS.map Prod.snd := by
  decide!

/-! ### Attempt limiter: denied calls -/

theorem canAttempt_denied_eq (attempts : Attempts) (userId : UserId) (command : String)
    (maxAttempts resetAfterMs now : Int)
    (h : (canAttempt attempts userId command maxAttempts resetAfterMs now).1 = false) :
    (canAttempt attempts userId command maxAttempts resetAfterMs now).2 = attempts := by
  unfold canAttempt at h ⊢
  cases hu : mget attempts userId.toKey with
  | none => simp [hu, mget] at h
  | some um =>
    simp only [hu] at h ⊢
    cases h2 : mget um command with
    | none => simp [h2] at h
    | some r =>
      simp only [h2] at h ⊢
      by_cases h3 : now - r.lastTs > resetAfterMs
      · simp [h3] at h
      · by_cases h4 : r.count ≥ maxAttempts
        · simp only [h3, h4, if_true, if_false]
        · simp [h3, h4] at h

theorem runAttempts_denied_eq (userId : UserId) (command : String)
    (maxAttempts resetAfterMs : Int) (ds : List Int) :
    ∀ attempts : Attempts,
      (∀ b ∈ (runAttempts attempts userId command maxAttempts resetAfterMs ds).1, b = false) →
      (runAttempts attempts userId command maxAttempts resetAfterMs ds).2 = attempts := by
  induction ds with
  | nil => intro attempts _; rfl
  | cons t rest ih =>
    intro attempts h
    simp only [runAttempts] at h ⊢
    have h1 : (canAttempt attempts userId command maxAttempts resetAfterMs t).1 = false :=
      h _ (List.mem_cons_self _ _)
    have h2 := canAttempt_denied_eq attempts userId command maxAttempts resetAfterMs t h1
    rw [h2] at h ⊢
    exact ih attempts (fun b hb => h b (List.mem_cons_of_mem _ hb))

/-- C27: a `canAttempt` call that returns false leaves the whole attempts table as it
was (the record of its own key and command and every other record). So after an allowed
attempt at `tl` followed by any number of denied calls the table is the one the allowed
attempt left, and a call made more than `resetAfterMs` after `tl` returns true. -/
theorem canAttempt_denied_frame (attempts : Attempts) (userId : UserId) (command : String)
    (maxAttempts resetAfterMs : Int) (tl : Int) (ds : List Int) (now : Int)
    (hallow : (canAttempt attempts userId command maxAttempts resetAfterMs tl).1 = true)
    (hden : ∀ b ∈ (runAttempts
      (canAttempt attempts userId command maxAttempts resetAfterMs tl).2
      userId command maxAttempts resetAfterMs ds).1, b = false)
    (hgt : now - tl > resetAfterMs) :
    (∀ (a : Attempts) (t : Int),
      (canAttempt a userId command maxAttempts resetAfterMs t).1 = false →
        (canAttempt a userId command maxAttempts resetAfterMs t).2 = a) ∧
    (runAttempts (canAttempt attempts userId command maxAttempts resetAfterMs tl).2
      userId command maxAttempts resetAfterMs ds).2 =
        (canAttempt attempts userId command maxAttempts resetAfterMs tl).2 ∧
    (canAttempt
      (runAttempts (canAttempt attempts userId command maxAttempts resetAfterMs tl).2
        userId command maxAttempts resetAfterMs ds).2
      userId command maxAttempts resetAfterMs now).1 = true := by
  have hsame := runAttempts_denied_eq userId command maxAttempts resetAfterMs ds _ hden
  refine ⟨fun a t h => canAttempt_denied_eq a userId command maxAttempts resetAfterMs t h,
    hsame, ?_⟩
  rw [hsame, canAttempt_fst, canAttempt_lookup_same]
  rw [canAttempt_fst] at hallow
  have hts := attemptStep_allowed_lastTs _ _ _ _ hallow
  generalize (attemptStep (lookupAttempt attempts userId.toKey command) maxAttempts
    resetAfterMs tl).2 = r at hts
  subst hts
  simp only [attemptStep, hgt, if_true]

/-- Witness for `canAttempt_denied_frame`: budget 1, window 1000 ms; the attempt at 0 is
allowed, the calls at 10, 20 and 500 are denied, the call at 1001 is allowed. -/
theorem canAttempt_denied_frame_witness :
    (runAttempts (canAttempt [] (UserId.str "u") "trade" 1 1000 0).2
      (UserId.str "u") "trade" 1 1000 [10, 20, 500]).1 = [false, false, false] ∧
    (runAttempts (canAttempt [] (UserId.str "u") "trade" 1 1000 0).2
      (UserId.str "u") "trade" 1 1000 [10, 20, 500]).2 =
        (canAttempt [] (UserId.str "u") "trade" 1 1000 0).2 ∧
    (canAttempt
      (runAttempts (canAttempt [] (UserId.str "u") "trade" 1 1000 0).2
        (UserId.str "u") "trade" 1 1000 [10, 20, 500]).2
      (UserId.str "u") "trade" 1 1000 1001).1 = true :=
  ⟨by decide,
    (canAttempt_denied_frame [] (UserId.str "u") "trade" 1 1000 0 [10, 20, 500] 1001
      (by decide) (by decide) (by decide)).2⟩

/-! ### Slot trigger: a target that has passed -/

theorem current_slot_eq (clock : SlotClock) (t : Int) :
    clock.current_slot t = clock.start_slot + (t - clock.start_time) / 400 := by
  simp only [SlotClock.current_slot, SLOT_DURATION_MS]
  rw [Int.fdiv_eq_ediv _ (by norm_num)]

theorem ms_into_slot_eq (clock : SlotClock) (t : Int) (h : clock.start_time ≤ t) :
    clock.ms_into_slot t = (t - clock.start_time) % 400 := by
  simp only [SlotClock.ms_into_slot, SLOT_DURATION_MS]
  rw [Int.tmod_eq_emod (by omega) (by norm_num)]

theorem tmod_nonpos_of_nonpos (a : Int) (h : a ≤ 0) : Int.tmod a 400 ≤ 0 := by
  cases a with
  | ofNat n =>
    have hn : n = 0 := by
      have : (n : Int) ≤ 0 := h
      omega
    subst hn
    decide
  | negSucc n =>
    have hd : Int.tmod (Int.negSucc n) 400 = -((n.succ % 400 : Nat) : Int) := rfl
    rw [hd]
    omega

theorem triggerCond_later_slot (clock : SlotClock) (target_slot t0 : Int) (p : Poll)
    (hpast : clock.current_slot t0 > target_slot) (hp : t0 ≤ p.t1) :
    triggerCond clock target_slot p = false := by
  rw [current_slot_eq] at hpast
  unfold triggerCond
  rw [current_slot_eq, Bool.and_eq_false_iff, decide_eq_false_iff_not]
  left
  have := Int.ediv_le_ediv (by norm_num : (0 : Int) < 400)
    (show t0 - clock.start_time ≤ p.t1 - clock.start_time by omega)
  omega

theorem triggerCond_past_window (clock : SlotClock) (target_slot t0 : Int) (p : Poll)
    (hslot : clock.current_slot t0 = target_slot)
    (hms : clock.ms_into_slot t0 > TRIGGER_WINDOW_MS)
    (h02 : t0 ≤ p.t2) (hsame : clock.current_slot p.t2 = target_slot) :
    triggerCond clock target_slot p = false := by
  have hstart : clock.start_time < t0 := by
    by_contra hn
    have hle := tmod_nonpos_of_nonpos (t0 - clock.start_time) (by omega)
    simp only [SlotClock.ms_into_slot, SLOT_DURATION_MS, TRIGGER_WINDOW_MS] at hms
    omega
  rw [current_slot_eq] at hslot hsame
  rw [ms_into_slot_eq clock t0 (by omega)] at hms
  unfold triggerCond
  rw [ms_into_slot_eq clock p.t2 (by omega), Bool.and_eq_false_iff, decide_eq_false_iff_not,
    decide_eq_false_iff_not]
  right
  simp only [TRIGGER_WINDOW_MS] at hms ⊢
  omega

theorem current_slot_mono (clock : SlotClock) (t t' : Int) (h : t ≤ t') :
    clock.current_slot t ≤ clock.current_slot t' := by
  rw [current_slot_eq, current_slot_eq]
  have := Int.ediv_le_ediv (by norm_num : (0 : Int) < 400)
    (show t - clock.start_time ≤ t' - clock.start_time by omega)
  omega

theorem triggerCond_straddle_iff (clock : SlotClock) (target_slot t0 : Int) (p : Poll)
    (hslot : clock.current_slot t0 = target_slot)
    (hms : clock.ms_into_slot t0 > TRIGGER_WINDOW_MS) (h01 : t0 ≤ p.t1) (h12 : p.t1 ≤ p.t2) :
    triggerCond clock target_slot p = true ↔
      clock.current_slot p.t1 = target_slot ∧ clock.current_slot p.t2 > target_slot ∧
        clock.ms_into_slot p.t2 ≤ TRIGGER_WINDOW_MS := by
  constructor
  · intro h
    have h' := h
    unfold triggerCond at h'
    rw [Bool.and_eq_true, decide_eq_true_eq, decide_eq_true_eq] at h'
    refine ⟨h'.1, ?_, h'.2⟩
    have hge := current_slot_mono clock t0 p.t2 (by omega)
    rw [hslot] at hge
    rcases lt_or_eq_of_le hge with hlt | heq
    · exact hlt
    · have := triggerCond_past_window clock target_slot t0 p hslot hms (by omega) heq.symm
      rw [this] at h
      exact absurd h (by decide)
  · intro h
    unfold triggerCond
    rw [Bool.and_eq_true, decide_eq_true_eq, decide_eq_true_eq]
    exact ⟨h.1, h.2.2⟩

/-- C26 (as stated) fails when the two clock readings of one poll straddle a slot
boundary. Clock started at 0 with start slot 100, target slot 100, call at reading 10
(slot 100, 10 ms into it, past the window): the poll whose `current_slot()` reads 399
and whose `ms_into_slot()` reads 400 sees slot 100 and 0 ms, runs the callback and
resolves the promise with `(100, 0)`. -/
theorem slot_trigger_past_counterexample :
    (SlotClock.new 0 100).current_slot 10 = 100 ∧
    (SlotClock.new 0 100).ms_into_slot 10 > TRIGGER_WINDOW_MS ∧
    (slot_trigger (SlotClock.new 0 100) 100 [Poll.at 11, { t1 := 399, t2 := 400 }]).triggerLog =
      [(1, { t1 := 399, t2 := 400 })] ∧
    (slot_trigger (SlotClock.new 0 100) 100 [Poll.at 11, { t1 := 399, t2 := 400 }]).resolved =
      some (100, 0) := by
  decide

/-- C26 (amended): if at the call (reading `t0`) `current_slot() > target_slot`, or
`current_slot() = target_slot` with `ms_into_slot() > 5`, then over any sequence of later
polls (first reading not before `t0`) the callback is never invoked, the interval stays
set and the promise is not resolved, provided that in the second case no poll reads
`current_slot()` in the target slot and then `ms_into_slot()` within the first 5 ms of a
later slot. In the first case nothing is asked of the second reading. The proviso is
exact: in the second case a poll with non-decreasing readings passes the firing test if
and only if it is such a straddling poll. -/
theorem slot_trigger_past_never_fires (clock : SlotClock) (target_slot t0 : Int)
    (polls : List Poll)
    (hpast : clock.current_slot t0 > target_slot ∨
      (clock.current_slot t0 = target_slot ∧ clock.ms_into_slot t0 > TRIGGER_WINDOW_MS))
    (hpolls : ∀ p ∈ polls, t0 ≤ p.t1)
    (hstraddle : clock.current_slot t0 = target_slot →
      ∀ p ∈ polls, clock.current_slot p.t1 = target_slot →
        p.t1 ≤ p.t2 ∧
        ¬ (clock.current_slot p.t2 > target_slot ∧
            clock.ms_into_slot p.t2 ≤ TRIGGER_WINDOW_MS)) :
    (∀ p ∈ polls, triggerCond clock target_slot p = false) ∧
    (slot_trigger clock target_slot polls).triggerLog = [] ∧
    (slot_trigger clock target_slot polls).resolved = none ∧
    (slot_trigger clock target_slot polls).active = true ∧
    (∀ p : Poll, clock.current_slot t0 = target_slot → t0 ≤ p.t1 → p.t1 ≤ p.t2 →
      (triggerCond clock target_slot p = true ↔
        clock.current_slot p.t1 = target_slot ∧ clock.current_slot p.t2 > target_slot ∧
          clock.ms_into_slot p.t2 ≤ TRIGGER_WINDOW_MS)) := by
  have hiff : ∀ p : Poll, clock.current_slot t0 = target_slot → t0 ≤ p.t1 → p.t1 ≤ p.t2 →
      (triggerCond clock target_slot p = true ↔
        clock.current_slot p.t1 = target_slot ∧ clock.current_slot p.t2 > target_slot ∧
          clock.ms_into_slot p.t2 ≤ TRIGGER_WINDOW_MS) := by
    intro p hslot h01 h12
    rcases hpast with h | ⟨_, hms⟩
    · omega
    · exact triggerCond_straddle_iff clock target_slot t0 p hslot hms h01 h12
  have hall : ∀ p ∈ polls, triggerCond clock target_slot p = false := by
    intro p hp
    rcases hpast with h | ⟨hslot, hms⟩
    · exact triggerCond_later_slot clock target_slot t0 p h (hpolls p hp)
    · by_cases h1 : clock.current_slot p.t1 = target_slot
      · obtain ⟨h12, hno⟩ := hstraddle hslot p hp h1
        have h01 := hpolls p hp
        rw [← Bool.not_eq_true]
        intro htrue
        have h3 := (triggerCond_straddle_iff clock target_slot t0 p hslot hms h01 h12).mp htrue
        exact hno h3.2
      · unfold triggerCond
        rw [Bool.and_eq_false_iff, decide_eq_false_iff_not]
        exact Or.inl h1
  have hfind : polls.enum.find? (fun ip => triggerCond clock target_slot ip.2) = none := by
    rw [List.find?_eq_none]
    intro ip hip
    have hmem : ip.2 ∈ polls := by
      obtain ⟨hlt, heq⟩ := List.mem_enum hip
      rw [heq]
      exact List.getElem_mem hlt
    rw [hall ip.2 hmem]
    simp
  have hrun : slot_trigger clock target_slot polls =
      { active := true, triggerLog := [], resolved := none } := by
    unfold slot_trigger
    rw [pollFold_spec, hfind]
  rw [hrun]
  exact ⟨hall, rfl, rfl, rfl, hiff⟩

/-- Witness for `slot_trigger_past_never_fires`: the clock, target and call of the
counterexample (slot 100, 10 ms into it), with polls read at one instant, a poll whose
readings 399 and 410 straddle the slot boundary but miss the window of slot 101, and, in
later slots, a poll whose readings 1199 and 1200 straddle a slot boundary. -/
theorem slot_trigger_past_never_fires_witness :
    (slot_trigger (SlotClock.new 0 100) 100
      [Poll.at 11, Poll.at 399, { t1 := 399, t2 := 410 }, Poll.at 400,
        { t1 := 1199, t2 := 1200 }]).triggerLog = [] ∧
    (slot_trigger (SlotClock.new 0 100) 100
      [Poll.at 11, Poll.at 399, { t1 := 399, t2 := 410 }, Poll.at 400,
        { t1 := 1199, t2 := 1200 }]).resolved = none ∧
    (slot_trigger (SlotClock.new 0 100) 100
      [Poll.at 11, Poll.at 399, { t1 := 399, t2 := 410 }, Poll.at 400,
        { t1 := 1199, t2 := 1200 }]).active = true :=
  have h := (slot_trigger_past_never_fires (SlotClock.new 0 100) 100 10
    [Poll.at 11, Poll.at 399, { t1 := 399, t2 := 410 }, Poll.at 400,
      { t1 := 1199, t2 := 1200 }] (by decide) (by decide) (fun _ => by decide)).2
  ⟨h.1, h.2.1, h.2.2.1⟩

/-! ### Ledger signal engine: transfer records of evicted slots -/

theorem ensureSlot_slotTransfers (eng : LedgerSignalEngine) (now : Nat) (slot : Int) :
    (ensureSlot eng now slot).slotTransfers = eng.slotTransfers := by
  unfold ensureSlot
  by_cases hh : mhas eng.slotBuckets slot = true
  · rw [if_pos hh]
  · rw [if_neg hh]

theorem processEvent_transfers (eng : LedgerSignalEngine) (now : Nat) (ev : LedgerEvent)
    (s : Int) :
    ∃ extra, transfersOf (processEvent eng now ev) s = transfersOf eng s ++ extra := by
  cases hs : resolveSlot ev with
  | none =>
    refine ⟨[], ?_⟩
    have he : processEvent eng now ev = eng := by
      unfold processEvent
      rw [hs]
    rw [he, List.append_nil]
  | some sl =>
    cases hb : mget (ensureSlot eng now sl).slotBuckets sl with
    | none =>
      refine ⟨[], ?_⟩
      have he : processEvent eng now ev = ensureSlot eng now sl := by
        unfold processEvent
        rw [hs]
        simp only [hb]
      rw [he, List.append_nil]
      unfold transfersOf
      rw [ensureSlot_slotTransfers]
    | some b0 =>
      rw [processEvent_eq eng now ev sl b0 hs hb]
      unfold transfersOf
      simp only [ensureSlot_slotTransfers]
      by_cases hc : (truthy (resolveLogs ev) && includes (resolveLogs ev) "transfer") = true
      · rw [if_pos hc]
        by_cases hsl : sl = s
        · subst hsl
          rw [mget_mset_same]
          exact ⟨parseTransfers (resolveLogs ev), rfl⟩
        · rw [mget_mset_other _ _ _ _ hsl]
          exact ⟨[], (List.append_nil _).symm⟩
      · rw [if_neg hc]
        exact ⟨[], (List.append_nil _).symm⟩

/-- C28 (code): transfer records outlive the bucket of their slot. `processEvent` only
ever appends to the records of a slot, and eviction removes the bucket alone. With a
window of one slot: after a transfer that references `mint1` at slot 100 and an event at
slot 101 the mask of `mint1` is 0; a further event at slot 100, without mints or logs,
re-creates the bucket and the mask of `mint1` gets the clean-funding bit from the old
record. The same last two events on a new engine give the mask 0. -/
theorem evicted_transfers_contribute_again :
    (oneSlotEngine (staleEvents.take 2)).slotOrder = [101] ∧
    getMaskForMint (oneSlotEngine (staleEvents.take 2)) "mint1" 100 = 0 ∧
    (oneSlotEngine staleEvents).slotOrder = [100] ∧
    transfersOf (oneSlotEngine staleEvents) 100 = [parseTransferLine "transfer mint1"] ∧
    getMaskForMint (oneSlotEngine staleEvents) "mint1" 100 = BIT_CLEAN_FUNDING ∧
    getMaskForMint (oneSlotEngine (staleEvents.drop 1)) "mint1" 100 = 0 ∧
    (∀ (eng : LedgerSignalEngine) (now : Nat) (ev : LedgerEvent) (s : Int),
      ∃ extra, transfersOf (processEvent eng now ev) s = transfersOf eng s ++ extra) := by
  refine ⟨by decide, by decide, by decide, by decide, by decide, by decide, ?_⟩
  exact processEvent_transfers

/-! ### Follow-up orders at the entry price -/

theorem checkOrder_exec (currentPrices : Prices) (cb : Option ExecuteCallback)
    (hcb : ∀ f, cb = some f → ∀ o p, f o p = CallbackOutcome.resolved true)
    (now : Nat) (order : PendingOrder) (c : ℚ)
    (hp : order.status = OrderStatus.pending) (hc : currentPrices order.token = some c)
    (hc0 : c ≠ 0) (hs : shouldExecute order c = true) :
    (checkOrder currentPrices cb now order).1 =
        { order with status := OrderStatus.executed, executedPrice := some c,
                     executedAt := some now } ∧
      (checkOrder currentPrices cb now order).2.isSome = true := by
  simp [checkOrder, hp, hc, hc0, hs, executedOk_of_true cb hcb]

theorem checkOrder_skip (currentPrices : Prices) (cb : Option ExecuteCallback)
    (now : Nat) (order : PendingOrder) (c : ℚ)
    (hc : currentPrices order.token = some c) (hs : shouldExecute order c = false) :
    checkOrder currentPrices cb now order = (order, none) := by
  unfold checkOrder
  by_cases hp : order.status ≠ OrderStatus.pending
  · rw [if_pos hp]
  · rw [if_neg hp, hc]
    simp only [hs]
    by_cases hc0 : c = 0
    · rw [if_pos hc0]
    · rw [if_neg hc0]
      rfl

theorem checkLoop_three (currentPrices : Prices) (cb : Option ExecuteCallback)
    (clock : Nat → Nat) (a b c : PendingOrder) :
    (checkLoop currentPrices cb clock 0 [a, b, c]).orders =
        [(checkOrder currentPrices cb (clock 0) a).1, (checkOrder currentPrices cb (clock 1) b).1,
         (checkOrder currentPrices cb (clock 2) c).1] ∧
    (checkLoop currentPrices cb clock 0 [a, b, c]).executed =
        (match (checkOrder currentPrices cb (clock 0) a).2 with
          | some _ => [(checkOrder currentPrices cb (clock 0) a).1]
          | none => []) ++
        (match (checkOrder currentPrices cb (clock 1) b).2 with
          | some _ => [(checkOrder currentPrices cb (clock 1) b).1]
          | none => []) ++
        (match (checkOrder currentPrices cb (clock 2) c).2 with
          | some _ => [(checkOrder currentPrices cb (clock 2) c).1]
          | none => []) := by
  constructor
  · rfl
  · simp only [checkLoop]
    cases (checkOrder currentPrices cb (clock 0) a).2 <;>
      cases (checkOrder currentPrices cb (clock (0 + 1)) b).2 <;>
        cases (checkOrder currentPrices cb (clock (0 + 1 + 1)) c).2 <;> rfl

/-! ### Binary64 rounding -/

theorem roundHalfEven_bounds (q : ℚ) : ⌊q⌋ ≤ roundHalfEven q ∧ roundHalfEven q ≤ ⌊q⌋ + 1 := by
  unfold roundHalfEven
  simp only
  split_ifs <;> constructor <;> omega

theorem roundHalfEven_intCast (n : ℤ) : roundHalfEven (n : ℚ) = n := by
  unfold roundHalfEven
  simp

theorem roundHalfEven_mono {q q' : ℚ} (h : q ≤ q') : roundHalfEven q ≤ roundHalfEven q' := by
  have hf : ⌊q⌋ ≤ ⌊q'⌋ := Int.floor_mono h
  rcases lt_or_eq_of_le hf with hlt | heq
  · have h1 := (roundHalfEven_bounds q).2
    have h2 := (roundHalfEven_bounds q').1
    omega
  · unfold roundHalfEven
    simp only
    rw [← heq]
    split_ifs <;> first | omega | (exfalso; linarith)

theorem binade_bounds (x : ℚ) (hx : 0 < x) :
    (2 : ℚ) ^ (Int.log 2 x) ≤ x ∧ x < (2 : ℚ) ^ (Int.log 2 x + 1) := by
  have h1 := Int.zpow_log_le_self (R := ℚ) (b := 2) (r := x) (by norm_num) hx
  have h2 := Int.lt_zpow_succ_log_self (R := ℚ) (b := 2) (by norm_num) x
  simp only [Nat.cast_ofNat] at h1 h2
  exact ⟨h1, h2⟩

theorem roundPositive_bounds (x : ℚ) (hx : 0 < x) :
    (2 : ℚ) ^ (Int.log 2 x) ≤ roundPositive x ∧
      roundPositive x ≤ (2 : ℚ) ^ (Int.log 2 x + 1) := by
  obtain ⟨h1, h2⟩ := binade_bounds x hx
  have hs : (0 : ℚ) < (2 : ℚ) ^ (Int.log 2 x - 52) := zpow_pos (by norm_num) _
  have he : (2 : ℚ) ^ (Int.log 2 x) = ((2 ^ 52 : ℤ) : ℚ) * (2 : ℚ) ^ (Int.log 2 x - 52) := by
    have : Int.log 2 x = 52 + (Int.log 2 x - 52) := by omega
    conv_lhs => rw [this, zpow_add₀ (by norm_num : (2 : ℚ) ≠ 0)]
    norm_num
  have he1 : (2 : ℚ) ^ (Int.log 2 x + 1) =
      ((2 ^ 53 : ℤ) : ℚ) * (2 : ℚ) ^ (Int.log 2 x - 52) := by
    have : Int.log 2 x + 1 = 53 + (Int.log 2 x - 52) := by omega
    conv_lhs => rw [this, zpow_add₀ (by norm_num : (2 : ℚ) ≠ 0)]
    norm_num
  have hq1 : ((2 ^ 52 : ℤ) : ℚ) ≤ x / (2 : ℚ) ^ (Int.log 2 x - 52) := by
    rw [le_div_iff₀ hs, ← he]
    exact h1
  have hq2 : x / (2 : ℚ) ^ (Int.log 2 x - 52) ≤ ((2 ^ 53 : ℤ) : ℚ) := by
    rw [div_le_iff₀ hs, ← he1]
    exact le_of_lt h2
  have hr1 : (2 ^ 52 : ℤ) ≤ roundHalfEven (x / (2 : ℚ) ^ (Int.log 2 x - 52)) := by
    have := roundHalfEven_mono hq1
    rwa [roundHalfEven_intCast] at this
  have hr2 : roundHalfEven (x / (2 : ℚ) ^ (Int.log 2 x - 52)) ≤ (2 ^ 53 : ℤ) := by
    have := roundHalfEven_mono hq2
    rwa [roundHalfEven_intCast] at this
  unfold roundPositive
  rw [he, he1]
  constructor
  · exact mul_le_mul_of_nonneg_right (by exact_mod_cast hr1) (le_of_lt hs)
  · exact mul_le_mul_of_nonneg_right (by exact_mod_cast hr2) (le_of_lt hs)

theorem roundPositive_mono (x y : ℚ) (hx : 0 < x) (hxy : x ≤ y) :
    roundPositive x ≤ roundPositive y := by
  have hy : 0 < y := lt_of_lt_of_le hx hxy
  have hlog := Int.log_mono_right (R := ℚ) (b := 2) hx hxy
  rcases lt_or_eq_of_le hlog with hlt | heq
  · have h1 := (roundPositive_bounds x hx).2
    have h2 := (roundPositive_bounds y hy).1
    have h3 : (2 : ℚ) ^ (Int.log 2 x + 1) ≤ (2 : ℚ) ^ (Int.log 2 y) :=
      zpow_le_zpow_right₀ (by norm_num) (by omega)
    linarith
  · unfold roundPositive
    rw [← heq]
    have hs : (0 : ℚ) < (2 : ℚ) ^ (Int.log 2 x - 52) := zpow_pos (by norm_num) _
    have hq : x / (2 : ℚ) ^ (Int.log 2 x - 52) ≤ y / (2 : ℚ) ^ (Int.log 2 x - 52) :=
      div_le_div_of_nonneg_right hxy (le_of_lt hs)
    have := roundHalfEven_mono hq
    exact mul_le_mul_of_nonneg_right (by exact_mod_cast this) (le_of_lt hs)

theorem roundPositive_pos (x : ℚ) (hx : 0 < x) : 0 < roundPositive x :=
  lt_of_lt_of_le (zpow_pos (by norm_num) _) (roundPositive_bounds x hx).1

theorem roundBinary64_mono : Monotone roundBinary64 := by
  intro x y hxy
  unfold roundBinary64
  by_cases hx0 : x = 0
  · rw [if_pos hx0]
    by_cases hy0 : y = 0
    · rw [if_pos hy0]
    · have hy : 0 < y := lt_of_le_of_ne (hx0 ▸ hxy) (Ne.symm hy0)
      rw [if_neg hy0, if_pos hy]
      exact le_of_lt (roundPositive_pos y hy)
  · rw [if_neg hx0]
    by_cases hx : 0 < x
    · have hy : 0 < y := lt_of_lt_of_le hx hxy
      rw [if_pos hx, if_neg (ne_of_gt hy), if_pos hy]
      exact roundPositive_mono x y hx hxy
    · have hxn : 0 < -x := by
        have : x < 0 := lt_of_le_of_ne (not_lt.mp hx) hx0
        linarith
      rw [if_neg hx]
      by_cases hy0 : y = 0
      · rw [if_pos hy0]
        have := roundPositive_pos (-x) hxn
        linarith
      · rw [if_neg hy0]
        by_cases hy : 0 < y
        · rw [if_pos hy]
          have h1 := roundPositive_pos (-x) hxn
          have h2 := roundPositive_pos y hy
          linarith
        · rw [if_neg hy]
          have hyn : 0 < -y := by
            have : y < 0 := lt_of_le_of_ne (not_lt.mp hy) hy0
            linarith
          have := roundPositive_mono (-y) (-x) hyn (by linarith)
          linarith

theorem roundBinary64_of_pos (x : ℚ) (hx : 0 < x) : roundBinary64 x = roundPositive x := by
  unfold roundBinary64
  rw [if_neg (ne_of_gt hx), if_pos hx]

theorem roundBinary64_above (p y : ℚ) (hp : 0 < p) (hfp : roundBinary64 p = p)
    (hy : p * (1 + 1 / 2 ^ 52) ≤ y) : p < roundBinary64 y := by
  have hpy : p ≤ y := by nlinarith
  have hy0 : 0 < y := lt_of_lt_of_le hp hpy
  rw [roundBinary64_of_pos y hy0]
  rw [roundBinary64_of_pos p hp] at hfp
  obtain ⟨hb1, hb2⟩ := binade_bounds p hp
  have hlog := Int.log_mono_right (R := ℚ) (b := 2) hp hpy
  rcases lt_or_eq_of_le hlog with hlt | heq
  · have h1 := (roundPositive_bounds y hy0).1
    have h3 : (2 : ℚ) ^ (Int.log 2 p + 1) ≤ (2 : ℚ) ^ (Int.log 2 y) :=
      zpow_le_zpow_right₀ (by norm_num) (by omega)
    linarith
  · have hs : (0 : ℚ) < (2 : ℚ) ^ (Int.log 2 p - 52) := zpow_pos (by norm_num) _
    have he : (2 : ℚ) ^ (Int.log 2 p) = 2 ^ 52 * (2 : ℚ) ^ (Int.log 2 p - 52) := by
      have : Int.log 2 p = 52 + (Int.log 2 p - 52) := by omega
      conv_lhs => rw [this, zpow_add₀ (by norm_num : (2 : ℚ) ≠ 0)]
      norm_num
    have hpn : p = (roundHalfEven (p / (2 : ℚ) ^ (Int.log 2 p - 52)) : ℚ) *
        (2 : ℚ) ^ (Int.log 2 p - 52) := by
      unfold roundPositive at hfp
      exact hfp.symm
    have hstep : (2 : ℚ) ^ (Int.log 2 p - 52) ≤ p * (1 / 2 ^ 52) := by
      have : (2 : ℚ) ^ (Int.log 2 p - 52) = (2 : ℚ) ^ (Int.log 2 p) * (1 / 2 ^ 52) := by
        rw [he]; ring
      rw [this]
      exact mul_le_mul_of_nonneg_right hb1 (by norm_num)
    have hq : ((roundHalfEven (p / (2 : ℚ) ^ (Int.log 2 p - 52)) + 1 : ℤ) : ℚ) ≤
        y / (2 : ℚ) ^ (Int.log 2 p - 52) := by
      rw [le_div_iff₀ hs]
      push_cast
      have : p + (2 : ℚ) ^ (Int.log 2 p - 52) ≤ y := by nlinarith
      nlinarith
    have hr := roundHalfEven_mono hq
    rw [roundHalfEven_intCast] at hr
    unfold roundPositive
    rw [← heq]
    have hr' : ((roundHalfEven (p / (2 : ℚ) ^ (Int.log 2 p - 52)) : ℚ) + 1) ≤
        (roundHalfEven (y / (2 : ℚ) ^ (Int.log 2 p - 52)) : ℚ) := by exact_mod_cast hr
    nlinarith

theorem roundBinary64_zpow_le (k : ℤ) (x : ℚ) (hx : (2 : ℚ) ^ k ≤ x) :
    (2 : ℚ) ^ k ≤ roundBinary64 x := by
  have hx0 : 0 < x := lt_of_lt_of_le (zpow_pos (by norm_num) _) hx
  rw [roundBinary64_of_pos x hx0]
  have hk : k ≤ Int.log 2 x :=
    (Int.zpow_le_iff_le_log (R := ℚ) (b := 2) (by norm_num) hx0).mp (by simpa using hx)
  exact le_trans (zpow_le_zpow_right₀ (by norm_num) hk) (roundPositive_bounds x hx0).1

theorem roundBinary64_zpow (k : ℤ) : roundBinary64 ((2 : ℚ) ^ k) = (2 : ℚ) ^ k := by
  have hpos : (0 : ℚ) < (2 : ℚ) ^ k := zpow_pos (by norm_num) _
  rw [roundBinary64_of_pos _ hpos]
  unfold roundPositive
  have hlog : Int.log 2 ((2 : ℚ) ^ k) = k := by
    have := Int.log_zpow (R := ℚ) (b := 2) (by norm_num) k
    simpa using this
  rw [hlog]
  have hq : (2 : ℚ) ^ k / (2 : ℚ) ^ (k - 52) = ((2 ^ 52 : ℤ) : ℚ) := by
    rw [← zpow_sub₀ (by norm_num : (2 : ℚ) ≠ 0)]
    have : k - (k - 52) = 52 := by omega
    rw [this]
    norm_num
  rw [hq, roundHalfEven_intCast]
  have : k = 52 + (k - 52) := by omega
  conv_rhs => rw [this, zpow_add₀ (by norm_num : (2 : ℚ) ≠ 0)]
  norm_num

theorem roundHalfEven_above_half (n : ℤ) (q : ℚ) (h : (n : ℚ) + 1 / 2 < q) :
    n + 1 ≤ roundHalfEven q := by
  have hf : n ≤ ⌊q⌋ := Int.le_floor.mpr (by linarith)
  rcases lt_or_eq_of_le hf with hlt | heq
  · have := (roundHalfEven_bounds q).1
    omega
  · unfold roundHalfEven
    simp only
    rw [← heq]
    have h1 : ¬ (q - (n : ℚ) < 1 / 2) := by linarith
    have h2 : q - (n : ℚ) > 1 / 2 := by linarith
    rw [if_neg h1, if_pos h2]

theorem log_eq_zero_of_binade (x : ℚ) (h1 : 1 ≤ x) (h2 : x < 2) : Int.log 2 x = 0 := by
  have hx : 0 < x := by linarith
  obtain ⟨hb1, hb2⟩ := binade_bounds x hx
  have he1 : Int.log 2 x < 1 := by
    by_contra hge
    push_neg at hge
    have : (2 : ℚ) ^ (1 : ℤ) ≤ (2 : ℚ) ^ Int.log 2 x :=
      zpow_le_zpow_right₀ (by norm_num) hge
    rw [zpow_one] at this
    linarith
  have he2 : -1 < Int.log 2 x := by
    by_contra hge
    push_neg at hge
    have : (2 : ℚ) ^ (Int.log 2 x + 1) ≤ (2 : ℚ) ^ (0 : ℤ) :=
      zpow_le_zpow_right₀ (by norm_num) (by omega)
    rw [zpow_zero] at this
    linarith
  omega

theorem roundBinary64_two : roundBinary64 2 = 2 := by
  decide!

theorem roundBinary64_one_plus_half_ulp : roundBinary64 (1 + 1 / 2 ^ 53) = 1 := by
  decide!

theorem roundBinary64_one_plus_above (r : ℚ) (hr : 1 / 2 ^ 53 < r) :
    1 + 1 / 2 ^ 52 ≤ roundBinary64 (1 + r) := by
  by_cases h2 : (2 : ℚ) ≤ 1 + r
  · have := roundBinary64_mono h2
    rw [roundBinary64_two] at this
    have h3 : (1 : ℚ) + 1 / 2 ^ 52 ≤ 2 := by norm_num
    linarith
  · push_neg at h2
    have hr0 : (0 : ℚ) < 1 / 2 ^ 53 := by positivity
    have hx : (0 : ℚ) < 1 + r := by linarith
    rw [roundBinary64_of_pos _ hx]
    unfold roundPositive
    rw [log_eq_zero_of_binade (1 + r) (by linarith) h2]
    have hs : (2 : ℚ) ^ ((0 : ℤ) - 52) = 1 / 2 ^ 52 := by
      rw [zero_sub, zpow_neg, one_div]
      norm_cast
    rw [hs]
    have hq : (((2 ^ 52 : ℤ) : ℚ)) + 1 / 2 < (1 + r) / (1 / 2 ^ 52) := by
      rw [lt_div_iff₀ (by positivity)]
      push_cast
      norm_num at hr ⊢
      linarith
    have h4 := roundHalfEven_above_half _ _ hq
    have h5 : (((2 ^ 52 : ℤ) + 1 : ℤ) : ℚ) ≤ (roundHalfEven ((1 + r) / (1 / 2 ^ 52)) : ℚ) := by
      exact_mod_cast h4
    have h6 : (0 : ℚ) ≤ 1 / 2 ^ 52 := by positivity
    have h7 := mul_le_mul_of_nonneg_right h5 h6
    have h8 : (((2 ^ 52 : ℤ) + 1 : ℤ) : ℚ) * (1 / 2 ^ 52) = 1 + 1 / 2 ^ 52 := by
      push_cast
      norm_num
    rw [h8] at h7
    exact h7

theorem roundBinary64_one_plus_below (r : ℚ) (hr : r ≤ 1 / 2 ^ 53) :
    roundBinary64 (1 + r) ≤ 1 := by
  have := roundBinary64_mono (show 1 + r ≤ 1 + 1 / 2 ^ 53 by linarith)
  rwa [roundBinary64_one_plus_half_ulp] at this

theorem roundBinary64_literal_097 :
    roundBinary64 0.97 = 4368491638549381 / 4503599627370496 := by
  decide!

/-- The frame of the binary64 version of `createPendingOrdersFromStrategy` is the one of
the exact version: the two differ in the trigger prices, the amounts of the take-profit
legs and the percentages of the reason texts only. -/
theorem createPendingOrders_binary64_frame (userId token : String) (decision : OrderDecision)
    (strategy : MultiTimeframeStrategy) (clock : Nat → Nat) :
    (createPendingOrdersFromStrategy.binary64 userId token decision strategy clock).map
        (fun o => (o.id, o.userId, o.token, o.type, o.createdAt, o.status, o.executedPrice,
          o.executedAt)) =
      (createPendingOrdersFromStrategy userId token decision strategy clock).map
        (fun o => (o.id, o.userId, o.token, o.type, o.createdAt, o.status, o.executedPrice,
          o.executedAt)) := by
  unfold createPendingOrdersFromStrategy.binary64 createPendingOrdersFromStrategy
  by_cases h : decision.action = "BUY"
  · rw [if_pos h, if_pos h]
    rfl
  · rw [if_neg h, if_neg h]

/-- A take-profit trigger `fl (p * fl (1 + r))` lies above the entry price `p` when
`r > 2 ^ (-53)`. -/
theorem takeProfit_trigger_above (p r : ℚ) (hp : 0 < p) (hfp : roundBinary64 p = p)
    (hr : 1 / 2 ^ 53 < r) : p < roundBinary64 (p * roundBinary64 (1 + r)) :=
  roundBinary64_above p _ hp hfp
    (mul_le_mul_of_nonneg_left (roundBinary64_one_plus_above r hr) (le_of_lt hp))

/-- A take-profit trigger `fl (p * fl (1 + r))` is at most the entry price `p` when
`r ≤ 2 ^ (-53)`: the sum `1 + r` is then a number not above `1`. -/
theorem takeProfit_trigger_at_most (p r : ℚ) (hp : 0 < p) (hfp : roundBinary64 p = p)
    (hr : r ≤ 1 / 2 ^ 53) : roundBinary64 (p * roundBinary64 (1 + r)) ≤ p := by
  have h1 := roundBinary64_one_plus_below r hr
  have := roundBinary64_mono (show p * roundBinary64 (1 + r) ≤ p by nlinarith)
  rwa [hfp] at this

/-- The stop-loss trigger `fl (p * fl 0.97)` is at most the entry price `p`, and a normal
number when `p ≥ 2 ^ (-1021)`. -/
theorem stopLoss_trigger_bounds (p : ℚ) (hp : (1 : ℚ) / 2 ^ 1021 ≤ p)
    (hfp : roundBinary64 p = p) :
    (1 : ℚ) / 2 ^ 1022 ≤ roundBinary64 (p * roundBinary64 0.97) ∧
      roundBinary64 (p * roundBinary64 0.97) ≤ p := by
  have hp0 : 0 < p := lt_of_lt_of_le (by positivity) hp
  rw [roundBinary64_literal_097]
  constructor
  · have h2 : (2 : ℚ) ^ (-1022 : ℤ) = 1 / 2 ^ 1022 := by
      rw [zpow_neg, one_div]
      norm_cast
    have h3 : (1 : ℚ) / 2 ^ 1022 = 1 / 2 ^ 1021 * (1 / 2) := by
      rw [pow_succ]
      field_simp
    rw [← h2]
    apply roundBinary64_zpow_le
    rw [h2, h3]
    nlinarith
  · have := roundBinary64_mono
      (show p * (4368491638549381 / 4503599627370496) ≤ p by nlinarith)
    rwa [hfp] at this

set_option maxRecDepth 100000 in
/-- C24 (as stated) fails in the arithmetic of the code: with the take-profit range
`{ min: 2 ** -60, max: 0.03125 }` (so `0 < min ≤ max`) and a BUY at price 100, the sum
`1 + min` is the number `1`, the first take-profit trigger is `100`, and a pass at the
entry price 100 without callback executes the first take-profit leg together with the
stop-loss leg. -/
theorem stoploss_at_entry_counterexample :
    (0 : ℚ) < tinyRangeStrategy.takeProfitRange.min ∧
    tinyRangeStrategy.takeProfitRange.min ≤ tinyRangeStrategy.takeProfitRange.max ∧
    roundBinary64 tinyRangeStrategy.takeProfitRange.min = tinyRangeStrategy.takeProfitRange.min ∧
    roundBinary64 tinyRangeStrategy.takeProfitRange.max = tinyRangeStrategy.takeProfitRange.max ∧
    roundBinary64 (1 + tinyRangeStrategy.takeProfitRange.min) = 1 ∧
    (entryPass "u" "T" { action := "BUY", price := 100, amount := 1 } tinyRangeStrategy
        (fun _ => 0) (fun t => if t = "T" then some 100 else none) none
        (fun _ => 1)).orders.map (fun o => (o.type, o.triggerPrice, o.status)) =
      [(OrderType.sell, 100, OrderStatus.executed),
       (OrderType.sell, 825 / 8, OrderStatus.pending),
       (OrderType.stoploss, 97, OrderStatus.executed)] := by
  have hmin : roundBinary64 tinyRangeStrategy.takeProfitRange.min =
      tinyRangeStrategy.takeProfitRange.min := by
    have h : tinyRangeStrategy.takeProfitRange.min = (2 : ℚ) ^ (-60 : ℤ) := by
      show (1 : ℚ) / 2 ^ 60 = (2 : ℚ) ^ (-60 : ℤ)
      rw [zpow_neg, one_div]
      norm_cast
    rw [h]
    exact roundBinary64_zpow _
  exact ⟨by decide!, by decide!, hmin, by decide!, by decide!, by decide!⟩

/-- C24 (amended): for a BUY decision whose price `p` is a positive binary64 number in the
normal range, the stop-loss order that `createPendingOrdersFromStrategy` creates has the
trigger `fl (p * fl 0.97)`, a normal number that is at most `p`; it satisfies the execution
test of `checkAndExecutePendingOrders` and of `checkPendingOrders` at every current price
at or above its trigger, so at `p` itself. On a matching pass at price `p` whose execution
succeeds (no callback, or one that returns true) the stop-loss leg is executed at `p` for
the full amount. The computed trigger `fl (p * fl (1 + r))` of a take-profit leg exceeds `p`
exactly when its bound `r` (`min` for the first leg, `max` for the second) exceeds
`2 ^ (-53)`, and the leg stays pending on that pass exactly then; for
`2 ^ (-53) < min ≤ max` only the stop-loss leg is returned. -/
theorem stoploss_executes_at_entry (userId token : String) (decision : OrderDecision)
    (strategy : MultiTimeframeStrategy) (clock clock2 : Nat → Nat) (currentPrices : Prices)
    (cb : Option ExecuteCallback)
    (hbuy : decision.action = "BUY")
    (hnormal : (1 : ℚ) / 2 ^ 1021 ≤ decision.price ∧ decision.price < 2 ^ 1024)
    (hfp : roundBinary64 decision.price = decision.price)
    (hprice : currentPrices token = some decision.price)
    (hcb : ∀ f, cb = some f → ∀ o x, f o x = CallbackOutcome.resolved true) :
    ∃ tp1 tp2 sl : PendingOrder,
      createPendingOrdersFromStrategy.binary64 userId token decision strategy clock =
        [tp1, tp2, sl] ∧
      tp1.triggerPrice =
        roundBinary64 (decision.price * roundBinary64 (1 + strategy.takeProfitRange.min)) ∧
      tp2.triggerPrice =
        roundBinary64 (decision.price * roundBinary64 (1 + strategy.takeProfitRange.max)) ∧
      (decision.price < tp1.triggerPrice ↔ 1 / 2 ^ 53 < strategy.takeProfitRange.min) ∧
      (decision.price < tp2.triggerPrice ↔ 1 / 2 ^ 53 < strategy.takeProfitRange.max) ∧
      sl.type = OrderType.stoploss ∧
      sl.triggerPrice = roundBinary64 (decision.price * roundBinary64 0.97) ∧
      (1 : ℚ) / 2 ^ 1022 ≤ sl.triggerPrice ∧ sl.triggerPrice ≤ decision.price ∧
      sl.amount = decision.amount ∧
      (∀ c : ℚ, c ≥ sl.triggerPrice →
        shouldExecute sl c = true ∧ PriceMonitoringSystem.shouldExecute sl c = true) ∧
      shouldExecute sl decision.price = true ∧
      ∃ tp1' tp2' sl' : PendingOrder,
        (entryPass userId token decision strategy clock currentPrices cb clock2).orders =
          [tp1', tp2', sl'] ∧
        sl' = { sl with status := OrderStatus.executed, executedPrice := some decision.price,
                        executedAt := some (clock2 2) } ∧
        sl' ∈ (entryPass userId token decision strategy clock currentPrices cb clock2).executed ∧
        (tp1' = tp1 ↔ 1 / 2 ^ 53 < strategy.takeProfitRange.min) ∧
        (tp2' = tp2 ↔ 1 / 2 ^ 53 < strategy.takeProfitRange.max) ∧
        (1 / 2 ^ 53 < strategy.takeProfitRange.min →
          strategy.takeProfitRange.min ≤ strategy.takeProfitRange.max →
          (entryPass userId token decision strategy clock currentPrices cb clock2).executed =
            [sl']) := by
  have hp : 0 < decision.price := lt_of_lt_of_le (by positivity) hnormal.1
  have hp0 : decision.price ≠ 0 := ne_of_gt hp
  obtain ⟨hslLow, hslUp⟩ := stopLoss_trigger_bounds decision.price hnormal.1 hfp
  have hsl : ∀ o : PendingOrder, o.type = OrderType.stoploss →
      o.triggerPrice = roundBinary64 (decision.price * roundBinary64 0.97) →
      shouldExecute o decision.price = true := by
    intro o ht htr
    simp only [shouldExecute, ht, htr, decide_eq_true_eq]
    exact hslUp
  have htpSkip : ∀ o : PendingOrder, o.type = OrderType.sell →
      decision.price < o.triggerPrice → shouldExecute o decision.price = false := by
    intro o ht hlt
    simp only [shouldExecute, ht, decide_eq_false_iff_not, not_le, ge_iff_le]
    exact hlt
  have htpExec : ∀ o : PendingOrder, o.type = OrderType.sell →
      ¬ decision.price < o.triggerPrice → shouldExecute o decision.price = true := by
    intro o ht hlt
    simp only [shouldExecute, ht, decide_eq_true_eq, ge_iff_le]
    exact not_lt.mp hlt
  obtain ⟨tp1, tp2, sl, hcreated, ht1, hp1, hk1, hs1, ht2, hp2, hk2, hs2, ht3, hp3, hk3, hs3,
      ha3⟩ :
      ∃ tp1 tp2 sl : PendingOrder,
        createPendingOrdersFromStrategy.binary64 userId token decision strategy clock =
          [tp1, tp2, sl] ∧
        tp1.type = OrderType.sell ∧
        tp1.triggerPrice =
          roundBinary64 (decision.price * roundBinary64 (1 + strategy.takeProfitRange.min)) ∧
        tp1.token = token ∧ tp1.status = OrderStatus.pending ∧
        tp2.type = OrderType.sell ∧
        tp2.triggerPrice =
          roundBinary64 (decision.price * roundBinary64 (1 + strategy.takeProfitRange.max)) ∧
        tp2.token = token ∧ tp2.status = OrderStatus.pending ∧
        sl.type = OrderType.stoploss ∧
        sl.triggerPrice = roundBinary64 (decision.price * roundBinary64 0.97) ∧
        sl.token = token ∧ sl.status = OrderStatus.pending ∧ sl.amount = decision.amount := by
    unfold createPendingOrdersFromStrategy.binary64
    rw [if_pos hbuy]
    exact ⟨_, _, _, rfl, rfl, rfl, rfl, rfl, rfl, rfl, rfl, rfl, rfl, rfl, rfl, rfl, rfl⟩
  have hexec := checkOrder_exec currentPrices cb hcb (clock2 2) sl decision.price hs3
    (by rw [hk3]; exact hprice) hp0 (hsl sl ht3 hp3)
  have hloop := checkLoop_three currentPrices cb clock2 tp1 tp2 sl
  obtain ⟨t, ht⟩ := Option.isSome_iff_exists.mp hexec.2
  have hleg : ∀ (o : PendingOrder) (now : Nat), o.type = OrderType.sell → o.token = token →
      o.status = OrderStatus.pending →
      ((checkOrder currentPrices cb now o).1 = o ↔ decision.price < o.triggerPrice) := by
    intro o now hto hko hso
    constructor
    · intro heq
      by_contra hlt
      have hx := (checkOrder_exec currentPrices cb hcb now o decision.price hso
        (by rw [hko]; exact hprice) hp0 (htpExec o hto hlt)).1
      rw [heq] at hx
      have hst := congrArg PendingOrder.status hx
      rw [hso] at hst
      exact absurd hst (show ¬ OrderStatus.pending = OrderStatus.executed by decide)
    · intro hlt
      rw [checkOrder_skip currentPrices cb now o decision.price (by rw [hko]; exact hprice)
        (htpSkip o hto hlt)]
  have htrig : ∀ (o : PendingOrder) (r : ℚ),
      o.triggerPrice = roundBinary64 (decision.price * roundBinary64 (1 + r)) →
      (decision.price < o.triggerPrice ↔ 1 / 2 ^ 53 < r) := by
    intro o r htr
    rw [htr]
    constructor
    · intro hlt
      by_contra hn
      exact absurd hlt (not_lt.mpr
        (takeProfit_trigger_at_most decision.price r hp hfp (not_lt.mp hn)))
    · intro hr
      exact takeProfit_trigger_above decision.price r hp hfp hr
  unfold entryPass checkAndExecutePendingOrders
  rw [hcreated]
  refine ⟨tp1, tp2, sl, rfl, hp1, hp2, htrig tp1 _ hp1, htrig tp2 _ hp2, ht3, hp3, ?_, ?_,
    ha3, ?_, hsl sl ht3 hp3, ?_⟩
  · rw [hp3]
    exact hslLow
  · rw [hp3]
    exact hslUp
  · intro c hc
    constructor
    · simp only [shouldExecute, ht3, decide_eq_true_eq]
      exact hc
    · simpa [PriceMonitoringSystem.shouldExecute, ht3] using hc
  · refine ⟨_, _, _, hloop.1, hexec.1, ?_,
      (hleg tp1 _ ht1 hk1 hs1).trans (htrig tp1 _ hp1),
      (hleg tp2 _ ht2 hk2 hs2).trans (htrig tp2 _ hp2), ?_⟩
    · rw [hloop.2, ht]
      simp
    · intro hmin hle
      rw [hloop.2, ht,
        checkOrder_skip currentPrices cb (clock2 0) tp1 decision.price
          (by rw [hk1]; exact hprice) (htpSkip tp1 ht1 ((htrig tp1 _ hp1).mpr hmin)),
        checkOrder_skip currentPrices cb (clock2 1) tp2 decision.price
          (by rw [hk2]; exact hprice)
          (htpSkip tp2 ht2 ((htrig tp2 _ hp2).mpr (lt_of_lt_of_le hmin hle)))]
      rfl

set_option maxRecDepth 100000 in
/-- Witness for `stoploss_executes_at_entry`: entry at price 100 for amount 1 with the
default take-profit range (the numbers `0.01` and `0.03`), a pass at price 100 without
callback. -/
theorem stoploss_executes_at_entry_witness :
    (entryPass "u" "T" { action := "BUY", price := 100, amount := 1 } defaultStrategyBinary64
        (fun _ => 0) (fun t => if t = "T" then some 100 else none) none
        (fun _ => 1)).orders.map (fun o => (o.type, o.triggerPrice, o.amount, o.status)) =
      [(OrderType.sell, 101, 1 / 2, OrderStatus.pending),
       (OrderType.sell, 103, 1 / 2, OrderStatus.pending),
       (OrderType.stoploss, 97, 1, OrderStatus.executed)] ∧
    ∃ tp1 tp2 sl : PendingOrder,
      createPendingOrdersFromStrategy.binary64 "u" "T"
        { action := "BUY", price := 100, amount := 1 } defaultStrategyBinary64 (fun _ => 0) =
          [tp1, tp2, sl] ∧
      shouldExecute sl 100 = true :=
  ⟨by decide!,
    (stoploss_executes_at_entry "u" "T" { action := "BUY", price := 100, amount := 1 }
      defaultStrategyBinary64 (fun _ => 0) (fun _ => 1)
      (fun t => if t = "T" then some 100 else none)
      none rfl (by norm_num) (by decide!) rfl (fun f h => by cases h)).elim
      (fun tp1 h1 => h1.elim (fun tp2 h2 => h2.elim (fun sl h3 =>
        ⟨tp1, tp2, sl, h3.1, h3.2.2.2.2.2.2.2.2.2.2.2.1⟩)))⟩

/-! ### Order creation of `startPriceMonitor` -/

theorem createPendingOrders_buy_mem (userId token : String) (decision : OrderDecision)
    (strategy : MultiTimeframeStrategy) (clock : Nat → Nat) (o : PendingOrder)
    (ho : o ∈ createPendingOrdersFromStrategy userId token decision strategy clock) :
    o.token = token ∧ o.status = OrderStatus.pending := by
  unfold createPendingOrdersFromStrategy at ho
  by_cases hbuy : decision.action = "BUY"
  · rw [if_pos hbuy] at ho
    simp only [List.mem_cons, List.mem_singleton, List.not_mem_nil, or_false] at ho
    rcases ho with h | h | h <;> rw [h] <;> exact ⟨rfl, rfl⟩
  · rw [if_neg hbuy] at ho
    cases ho

/-- C25 (code): the creation step of `startPriceMonitor` saves the new orders alone. For
an active token with an entry price and no pending order in the stored list, with
persistence enabled, the file after the step holds exactly the three orders just created:
no order that was stored before the step is in it. -/
theorem createStep_overwrites (userId : String) (st : StrategySettings) (clock : Nat → Nat)
    (file : Option (List PendingOrder)) (token : HoneyToken) (entry : ℚ)
    (hact : token.status = some HoneyStatus.active)
    (hentry : truthyRat token.lastEntryPrice = some entry)
    (hnone : ∀ o ∈ loadPendingOrders file,
      ¬ (o.token = token.address ∧ o.status = OrderStatus.pending)) :
    startPriceMonitor.createStep true userId st clock file token =
      some (createPendingOrdersFromStrategy userId token.address
        { action := "BUY", price := entry, amount := orDefault st.buyAmount 0.1 }
        (monitorStrategy st) clock) ∧
    (∀ saved, startPriceMonitor.createStep true userId st clock file token = some saved →
      saved.length = 3 ∧ ∀ o ∈ loadPendingOrders file, o ∉ saved) := by
  have hfilter : (loadPendingOrders file).filter
      (fun o => decide (o.token = token.address) && decide (o.status = OrderStatus.pending)) =
      [] := by
    rw [List.filter_eq_nil_iff]
    intro o ho
    simpa using hnone o ho
  have hstep : startPriceMonitor.createStep true userId st clock file token =
      some (createPendingOrdersFromStrategy userId token.address
        { action := "BUY", price := entry, amount := orDefault st.buyAmount 0.1 }
        (monitorStrategy st) clock) := by
    unfold startPriceMonitor.createStep
    rw [if_pos hact, hentry]
    simp only [hfilter, List.length_nil, if_true, List.nil_append, savePendingOrders]
  refine ⟨hstep, ?_⟩
  intro saved hsaved
  rw [hstep] at hsaved
  have hs := Option.some.inj hsaved
  subst hs
  constructor
  · simp [createPendingOrdersFromStrategy]
  · intro o ho hmem
    exact hnone o ho (createPendingOrders_buy_mem _ _ _ _ _ o hmem)

/-- Witness for `createStep_overwrites`: the stored list holds an executed order of token
`A` and a pending order of token `B`; the step for the active token `T0` leaves three
orders, all of `T0`. -/
theorem createStep_overwrites_witness :
    loadPendingOrders (some storedOrders) = storedOrders ∧
    fileTokens (startPriceMonitor.createStep true "u" noSettings (fun _ => 9)
      (some storedOrders) (activeToken "T0")) = ["T0", "T0", "T0"] ∧
    (∀ saved, startPriceMonitor.createStep true "u" noSettings (fun _ => 9)
        (some storedOrders) (activeToken "T0") = some saved →
      saved.length = 3 ∧ ∀ o ∈ loadPendingOrders (some storedOrders), o ∉ saved) :=
  ⟨rfl, by decide,
    (createStep_overwrites "u" noSettings (fun _ => 9) (some storedOrders) (activeToken "T0") 1
      rfl (by decide) (by decide)).2⟩

/-! ### Multi-timeframe entry decision -/

theorem countMatches_eq (histories : PriceHistories) (strategy : MultiTimeframeStrategy) :
    countMatches histories strategy =
      (strategy.timeframes.filter (timeframeMatches histories strategy)).length := by
  have hgen : ∀ (l : List String) (acc : Nat),
      l.foldl (fun acc tf =>
        match histories tf with
        | none => acc
        | some prices =>
          if prices.length < 40 then acc
          else if analyzeTimeframeSignal prices strategy then acc + 1 else acc) acc =
        acc + (l.filter (timeframeMatches histories strategy)).length := by
    intro l
    induction l with
    | nil => intro acc; rfl
    | cons tf rest ih =>
      intro acc
      have hstep : (match histories tf with
          | none => acc
          | some prices =>
            if prices.length < 40 then acc
            else if analyzeTimeframeSignal prices strategy then acc + 1 else acc) =
          acc + (if timeframeMatches histories strategy tf = true then 1 else 0) := by
        unfold timeframeMatches
        cases hh : histories tf with
        | none => simp
        | some prices =>
          simp only
          by_cases hlen : prices.length < 40
          · have h40 : ¬ prices.length ≥ 40 := by omega
            simp [hlen, h40]
          · have h40 : prices.length ≥ 40 := by omega
            by_cases hs : analyzeTimeframeSignal prices strategy = true
            · simp [hlen, h40, hs]
            · simp [hlen, hs]
      rw [List.foldl_cons, hstep, ih, List.filter_cons]
      by_cases hm : timeframeMatches histories strategy tf = true
      · rw [if_pos hm, if_pos hm, List.length_cons]
        omega
      · rw [if_neg hm, if_neg hm]
        omega
  unfold countMatches
  rw [hgen, Nat.zero_add]

/-- The decision of `runMultiTimeframeStrategy` given the count of matching timeframes:
with no open position (no stored position, or one with `inPosition` false) and a
history for the first timeframe, `runMultiTimeframeStrategy` returns a decision whose
price is the last price of the first timeframe and whose `matchCount` is the number of
configured timeframes with at least 40 prices that satisfy `analyzeTimeframeSignal`; the
action is `BUY`, with amount `walletBalance * capitalPercent`, if and only if that number
is at least `minMatchingTimeframes`, and otherwise `WAIT` with amount 0. -/
theorem runMultiTimeframeStrategy_decision (walletBalance : ℚ) (histories : PriceHistories)
    (strategy : MultiTimeframeStrategy) (position : Option TradePosition)
    (tf0 : String) (rest : List String) (first : List ℚ)
    (htf : strategy.timeframes = tf0 :: rest) (hfirst : histories tf0 = some first)
    (hpos : ∀ p, position = some p → p.inPosition = false) :
    ∃ r : StrategyResult,
      runMultiTimeframeStrategy walletBalance histories strategy position = some r ∧
      r.price = first.getLast? ∧
      r.matchCount =
        (strategy.timeframes.filter (timeframeMatches histories strategy)).length ∧
      (r.action = "BUY" ↔
        (((strategy.timeframes.filter (timeframeMatches histories strategy)).length : ℚ) ≥
          strategy.minMatchingTimeframes)) ∧
      (r.action = "BUY" → r.amount = walletBalance * strategy.capitalPercent) ∧
      (r.action ≠ "BUY" → r.action = "WAIT" ∧ r.amount = 0) := by
  have hnot : notInPosition position = true := by
    cases position with
    | none => rfl
    | some p => simp [notInPosition, hpos p rfl]
  unfold runMultiTimeframeStrategy
  simp only [htf, hfirst]
  rw [← htf, countMatches_eq, if_pos hnot]
  by_cases hge : (((strategy.timeframes.filter (timeframeMatches histories strategy)).length : ℚ) ≥
      strategy.minMatchingTimeframes)
  · rw [if_pos hge]
    exact ⟨_, rfl, rfl, rfl, ⟨fun _ => hge, fun _ => rfl⟩, fun _ => rfl,
      fun h => absurd rfl h⟩
  · rw [if_neg hge]
    refine ⟨_, rfl, rfl, rfl, ⟨fun h => ?_, fun h => absurd h hge⟩, fun h => ?_,
      fun _ => ⟨rfl, rfl⟩⟩
    · exact absurd h (show ¬ ("WAIT" : String) = "BUY" by decide)
    · exact absurd h (show ¬ ("WAIT" : String) = "BUY" by decide)

theorem analyzeTimeframeSignal_false (priceHistory : List ℚ)
    (strategy : MultiTimeframeStrategy) : analyzeTimeframeSignal priceHistory strategy = false := by
  unfold analyzeTimeframeSignal
  by_cases hlen : priceHistory.length < 40
  · rw [if_pos hlen]
  · rw [if_neg hlen]
    have hj : ∀ o : SignalValues, o.get "stochRsi_J" = none := by
      intro o
      unfold SignalValues.get
      rw [if_neg (by decide), if_neg (by decide), if_neg (by decide), if_neg (by decide)]
    simp only [hj, jsLt, Bool.false_and]

/-- C22 (code): `analyzeTimeframeSignal` never matches. It destructures `stochRsi_J`,
`stochRsi_K` and `stochRsi_D` from an object whose keys are `J`, `K`, `D` and
`williams_R`; the three values are `undefined` and the comparisons are false, so the
function returns false for every history and `matchCount` is 0 for every input. On the
40-price history `dipHistory` the indicators are `J = -100/9`, `K = 0`, `D = 50/9` and
`WR = 800/9`, which pass the commented tests (`J < 10`, `K < 30 AND K < D`, `WR > 80`);
with that history in three of the four default timeframes the decision is `WAIT` with
`matchCount` 0. -/
theorem analyzeTimeframeSignal_never_matches (priceHistory : List ℚ)
    (strategy : MultiTimeframeStrategy) (histories : PriceHistories) :
    analyzeTimeframeSignal priceHistory strategy = false ∧
    countMatches histories strategy = 0 ∧
    dipHistory.length = 40 ∧
    calculateStochasticRSI dipHistory 14 14 3 3 = { J := -100 / 9, K := 0, D := 50 / 9 } ∧
    calculateWilliamsR dipHistory 14 = 800 / 9 ∧
    ((-100 / 9 : ℚ) < defaultStrategy.entryConditions.stochRsi_J_max ∧
      (0 : ℚ) < defaultStrategy.entryConditions.stochRsi_K_max ∧ (0 : ℚ) < 50 / 9 ∧
      (800 / 9 : ℚ) > defaultStrategy.entryConditions.williams_R_min) ∧
    runMultiTimeframeStrategy 10 (sampleHistories 3) defaultStrategy none =
      some { action := "WAIT", price := some 127, amount := 0, matchCount := 0 } := by
  refine ⟨analyzeTimeframeSignal_false priceHistory strategy, ?_, by decide!, by decide!,
    by decide!, by decide!, by decide!⟩
  rw [countMatches_eq]
  have hnone : ∀ tf, timeframeMatches histories strategy tf = false := by
    intro tf
    unfold timeframeMatches
    cases histories tf with
    | none => rfl
    | some prices => simp [analyzeTimeframeSignal_false]
  simp [hnone]

/-! ### Readiness watcher: one trigger per entity -/

theorem fsm_update_other (threshold : ℚ) (states : List (String × FsmEntity)) (u : FsmUpdate)
    (e : String) (hne : u.entityKey ≠ e) :
    ProgramFSM.stateOf (ProgramFSM.update threshold states u).1 e = ProgramFSM.stateOf states e ∧
    triggersFor (ProgramFSM.update threshold states u).2 e = [] := by
  unfold ProgramFSM.update
  simp only
  by_cases hf : ProgramFSM.fires threshold
      (ProgramFSM.absorb (ProgramFSM.recordOf states u.entityKey) u) = true
  · rw [if_pos hf]
    simp [ProgramFSM.stateOf, triggersFor, mget_mset_other _ _ _ _ hne, hne]
  · rw [if_neg hf]
    simp [ProgramFSM.stateOf, triggersFor, mget_mset_other _ _ _ _ hne]

theorem fsm_absorb_triggered (prev : FsmEntity) (u : FsmUpdate) :
    (ProgramFSM.absorb prev u).triggered = prev.triggered := by
  cases u <;> rfl

theorem fsm_update_same (threshold : ℚ) (states : List (String × FsmEntity)) (u : FsmUpdate) :
    (ProgramFSM.stateOf states u.entityKey = ReadyState.ready →
      ProgramFSM.stateOf (ProgramFSM.update threshold states u).1 u.entityKey =
          ReadyState.ready ∧
        (ProgramFSM.update threshold states u).2 = []) ∧
    ((ProgramFSM.update threshold states u).2 ≠ [] →
      ProgramFSM.stateOf (ProgramFSM.update threshold states u).1 u.entityKey =
          ReadyState.ready ∧
        (triggersFor (ProgramFSM.update threshold states u).2 u.entityKey).length = 1) ∧
    (triggersFor (ProgramFSM.update threshold states u).2 u.entityKey).length ≤ 1 := by
  unfold ProgramFSM.update
  simp only
  by_cases hf : ProgramFSM.fires threshold
      (ProgramFSM.absorb (ProgramFSM.recordOf states u.entityKey) u) = true
  · rw [if_pos hf]
    refine ⟨?_, ?_, ?_⟩
    · intro hready
      exfalso
      unfold ProgramFSM.fires at hf
      rw [fsm_absorb_triggered] at hf
      unfold ProgramFSM.stateOf at hready
      unfold ProgramFSM.recordOf at hf
      cases hm : mget states u.entityKey with
      | none => rw [hm] at hready; cases hready
      | some s =>
        rw [hm] at hready hf
        simp only at hready hf
        by_cases h : s.triggered = true
        · simp [h] at hf
        · rw [if_neg h] at hready; cases hready
    · intro _
      simp [ProgramFSM.stateOf, triggersFor, mget_mset_same]
    · simp [triggersFor]
  · rw [if_neg hf]
    refine ⟨?_, ?_, ?_⟩
    · intro hready
      refine ⟨?_, rfl⟩
      unfold ProgramFSM.stateOf at hready ⊢
      rw [mget_mset_same]
      simp only
      rw [fsm_absorb_triggered]
      unfold ProgramFSM.recordOf
      cases hm : mget states u.entityKey with
      | none => rw [hm] at hready; cases hready
      | some s =>
        rw [hm] at hready
        simp only at hready ⊢
        by_cases h : s.triggered = true
        · rw [if_pos h]
        · rw [if_neg h] at hready; cases hready
    · intro h
      exact absurd rfl h
    · simp [triggersFor]

theorem fsm_run_cons (threshold : ℚ) (states : List (String × FsmEntity)) (u : FsmUpdate)
    (rest : List FsmUpdate) (e : String) :
    triggersFor (ProgramFSM.run threshold states (u :: rest)).2 e =
      triggersFor (ProgramFSM.update threshold states u).2 e ++
        triggersFor (ProgramFSM.run threshold (ProgramFSM.update threshold states u).1 rest).2
          e := by
  simp only [ProgramFSM.run, triggersFor, List.filter_append]

theorem fsm_run_bound (threshold : ℚ) (e : String) (updates : List FsmUpdate) :
    ∀ states : List (String × FsmEntity),
      (triggersFor (ProgramFSM.run threshold states updates).2 e).length ≤ 1 ∧
      (ProgramFSM.stateOf states e = ReadyState.ready →
        triggersFor (ProgramFSM.run threshold states updates).2 e = [] ∧
        ProgramFSM.stateOf (ProgramFSM.run threshold states updates).1 e = ReadyState.ready) := by
  induction updates with
  | nil =>
    intro states
    exact ⟨by simp [ProgramFSM.run, triggersFor], fun h => ⟨rfl, h⟩⟩
  | cons u rest ih =>
    intro states
    obtain ⟨ih1, ih2⟩ := ih (ProgramFSM.update threshold states u).1
    have hfst : (ProgramFSM.run threshold states (u :: rest)).1 =
        (ProgramFSM.run threshold (ProgramFSM.update threshold states u).1 rest).1 := rfl
    rw [fsm_run_cons, hfst]
    by_cases hk : u.entityKey = e
    · subst hk
      obtain ⟨hready, hemit, hle⟩ := fsm_update_same threshold states u
      constructor
      · by_cases hnil : (ProgramFSM.update threshold states u).2 = []
        · rw [hnil]
          simpa [triggersFor] using ih1
        · obtain ⟨hr, hone⟩ := hemit hnil
          rw [List.length_append, hone, (ih2 hr).1]
          rfl
      · intro hr
        obtain ⟨hr', hnil⟩ := hready hr
        rw [hnil, (ih2 hr').1]
        exact ⟨rfl, (ih2 hr').2⟩
    · obtain ⟨hst, hnone⟩ := fsm_update_other threshold states u e hk
      rw [hnone, List.nil_append]
      constructor
      · exact ih1
      · intro hr
        exact ih2 (by rw [hst]; exact hr)

/-- C23: in the watcher every entity triggers at most once. Over any sequence of probe
results and signal updates, from any table, at most one trigger event is emitted per
entity, and none for an entity that has already triggered. An update that emits a trigger
emits none when it is fed again, whatever updates follow: the run emits exactly one
trigger for its entity and leaves it in the state `ready`. -/
theorem programFSM_triggers_once (threshold : ℚ) (states : List (String × FsmEntity))
    (updates : List FsmUpdate) (e : String) :
    (triggersFor (ProgramFSM.run threshold states updates).2 e).length ≤ 1 ∧
    (ProgramFSM.stateOf states e = ReadyState.ready →
      triggersFor (ProgramFSM.run threshold states updates).2 e = []) ∧
    (∀ u : FsmUpdate, (ProgramFSM.update threshold states u).2 ≠ [] →
      (triggersFor (ProgramFSM.run threshold states (u :: u :: updates)).2
        u.entityKey).length = 1 ∧
      ProgramFSM.stateOf (ProgramFSM.run threshold states (u :: u :: updates)).1 u.entityKey =
        ReadyState.ready) := by
  refine ⟨(fsm_run_bound threshold e updates states).1,
    fun h => ((fsm_run_bound threshold e updates states).2 h).1, ?_⟩
  intro u hemit
  obtain ⟨_, hem, _⟩ := fsm_update_same threshold states u
  obtain ⟨hr, hone⟩ := hem hemit
  obtain ⟨hrest, hfinal⟩ := (fsm_run_bound threshold u.entityKey (u :: updates)
    (ProgramFSM.update threshold states u).1).2 hr
  constructor
  · rw [fsm_run_cons, hrest, List.append_nil, hone]
  · exact hfinal

/-- Witness for `programFSM_triggers_once`: threshold 0.8; the probe result with all six
probe bits for `Mint1` is fed twice, then a signal update with a strong ledger mask:
one trigger event, with score 1. -/
theorem programFSM_triggers_once_witness :
    (ProgramFSM.run (4 / 5) [] [FsmUpdate.probe "Mint1" 63, FsmUpdate.probe "Mint1" 63,
        FsmUpdate.signal "Mint1" 448]).2 =
      [{ entityKey := "Mint1", mask := 63, ledgerMask := 0, score := 1 }] ∧
    (triggersFor (ProgramFSM.run (4 / 5) [] [FsmUpdate.probe "Mint1" 63,
        FsmUpdate.probe "Mint1" 63, FsmUpdate.signal "Mint1" 448]).2 "Mint1").length = 1 :=
  ⟨by decide!,
    ((programFSM_triggers_once (4 / 5) [] [FsmUpdate.signal "Mint1" 448] "Mint1").2.2
      (FsmUpdate.probe "Mint1" 63) (by decide!)).1⟩

end Bot
